import Mathlib

/-!
Verification of the ivrobust weak-instrument-robust IV inference library.

This file gives a shallow embedding, in exact (rational) arithmetic, of the
core numeric routines of the ivrobust Python package:

* src/ivrobust/intervals.py   (IntervalSet, invert_pvalue_grid)
* src/ivrobust/weakiv/inversion.py (invert_test)
* src/ivrobust/clr.py         (the _clr_pvalue degenerate branches)
* src/ivrobust/lm.py          (lm_test)
* src/ivrobust/ar.py          (ar_test)
* src/ivrobust/covariance.py  (cov_ols, _moment_meat, cov_reduced_form)
* src/ivrobust/weakiv_utils.py (residualization, reduced_form, md_optimal_pi)
* src/ivrobust/estimators/liml.py (_kappa_liml, liml, fuller)

Python floats are modelled as extended rationals (±∞ adjoined to ℚ, no NaN);
floating-point rounding is idealized away, matching the "exact arithmetic"
reading of the specification.  Calls into scipy/numpy that are transcendental
(chi-square survival function, numerical quadrature, eigenvalue solvers,
scalar minimization) are modelled as explicit oracle parameters: the claims
under verification only constrain how the library combines the results of
those calls.  Least-squares solves and pseudo-inverses are modelled by the
adjugate-based matrix inverse (equal to numpy's answers on full-column-rank
input, which is what the corresponding theorems assume).
-/

set_option maxHeartbeats 1000000

namespace IVRobust

/-! ## Extended rationals: the value space of Python floats (no NaN) -/

/-- Extended rationals: ℚ plus two infinities.  This is the exact-arithmetic
model of an IEEE double (NaN excluded). -/
abbrev XR := WithBot (WithTop ℚ)

namespace XR

/-- The float value -inf. -/
def negInf : XR := ⊥

/-- The float value +inf. -/
def posInf : XR := ((⊤ : WithTop ℚ) : XR)

/-- A finite float value. -/
def fin (q : ℚ) : XR := ((q : WithTop ℚ) : XR)

/-- Model of numpy.isfinite. -/
def isFin (x : XR) : Bool := decide (x ≠ negInf ∧ x ≠ posInf)

/-- Model of numpy.isinf (true at both infinities). -/
def isInfinite (x : XR) : Bool := decide (x = negInf ∨ x = posInf)

/-- Extract the rational value of a finite float (junk 0 at infinities; only
used after a finiteness check, mirroring the source's control flow). -/
def toQ (x : XR) : ℚ := WithTop.untop' 0 (WithBot.unbot' 0 x)

@[simp] theorem toQ_fin (q : ℚ) : toQ (fin q) = q := rfl

@[simp] theorem fin_le_fin {a b : ℚ} : fin a ≤ fin b ↔ a ≤ b := by
  simp [fin]

@[simp] theorem fin_lt_fin {a b : ℚ} : fin a < fin b ↔ a < b := by
  simp [fin]

@[simp] theorem negInf_le (x : XR) : negInf ≤ x := bot_le

@[simp] theorem le_posInf (x : XR) : x ≤ posInf := by
  cases x with
  | none => exact bot_le
  | some y =>
    exact WithBot.coe_le_coe.mpr le_top

@[simp] theorem max_fin_fin (a b : ℚ) : max (fin a) (fin b) = fin (max a b) := by
  simp [fin]

@[simp] theorem isFin_fin (q : ℚ) : isFin (fin q) = true := by
  simp only [isFin, decide_eq_true_eq]
  refine ⟨?_, ?_⟩
  · exact WithBot.coe_ne_bot
  · intro h
    exact WithTop.coe_ne_top (WithBot.coe_inj.mp h)

@[simp] theorem isFin_negInf : isFin negInf = false := by decide

@[simp] theorem isFin_posInf : isFin posInf = false := by decide

@[simp] theorem isInfinite_fin (q : ℚ) : isInfinite (fin q) = false := by
  simp only [isInfinite, decide_eq_false_iff_not, not_or]
  refine ⟨?_, ?_⟩
  · exact WithBot.coe_ne_bot
  · intro h
    exact WithTop.coe_ne_top (WithBot.coe_inj.mp h)

theorem not_fin_le_negInf (q : ℚ) : ¬ fin q ≤ negInf := by
  simp [fin, negInf]

theorem isFin_iff (x : XR) : isFin x = true ↔ ∃ q, x = fin q := by
  constructor
  · intro h
    cases x with
    | none =>
      exfalso
      rw [isFin, decide_eq_true_eq] at h
      exact h.1 rfl
    | some y =>
      cases y with
      | top =>
        exfalso
        rw [isFin, decide_eq_true_eq] at h
        exact h.2 rfl
      | coe q => exact ⟨q, rfl⟩
  · rintro ⟨q, rfl⟩
    simp

theorem lt_posInf_of_fin (q : ℚ) : fin q < posInf := by
  exact WithBot.coe_lt_coe.mpr (WithTop.coe_lt_top q)

theorem negInf_lt_fin (q : ℚ) : negInf < fin q := by
  exact WithBot.bot_lt_coe _

end XR

/-! ## IntervalSet (src/ivrobust/intervals.py, lines 11-83) -/

/-- Faithful model of the IntervalSet dataclass: a bare list of
(lower, upper) pairs of floats, no validation. -/
structure IntervalSet where
  intervals : List (XR × XR)
deriving DecidableEq

namespace IntervalSet

/-- IntervalSet.contains: any lo ≤ x ≤ hi over the raw interval list.  The
query point is a (finite) real. -/
def contains (S : IntervalSet) (x : ℚ) : Bool :=
  S.intervals.any (fun p => decide (p.1 ≤ XR.fin x ∧ XR.fin x ≤ p.2))

/-- The sort key used by normalized(): Python tuple order on (lo, hi). -/
def pairLe (p q : XR × XR) : Prop :=
  p.1 < q.1 ∨ (p.1 = q.1 ∧ p.2 ≤ q.2)

instance : DecidableRel pairLe := fun p q => by
  unfold pairLe
  infer_instance

/-- The merge loop of normalized(): the accumulator interval is merged with
the next sorted interval when the next lower bound is ≤ the accumulated upper
bound or when the accumulated upper bound is infinite (numpy.isinf, which is
also true at -inf), else the accumulator is emitted and restarted. -/
def mergeRun : XR × XR → List (XR × XR) → List (XR × XR)
  | cur, [] => [cur]
  | cur, q :: rest =>
    if q.1 ≤ cur.2 ∨ cur.2.isInfinite = true then
      mergeRun (cur.1, max cur.2 q.2) rest
    else
      cur :: mergeRun q rest

/-- IntervalSet.normalized: sort by (lo, hi), then merge.  Python's sorted()
is modelled by insertion sort; since the key is the whole pair and the order
is antisymmetric, any sorting algorithm produces the same list. -/
def normalized (S : IntervalSet) : IntervalSet :=
  match List.insertionSort pairLe S.intervals with
  | [] => ⟨[]⟩
  | p :: rest => ⟨mergeRun p rest⟩

/-- IntervalSet.union: concatenate and normalize. -/
def union (S T : IntervalSet) : IntervalSet :=
  normalized ⟨S.intervals ++ T.intervals⟩

/-- IntervalSet.to_dict: the "intervals" payload, a plain list of float
pairs (float() is the identity on floats, including ±inf). -/
def toDict (S : IntervalSet) : List (XR × XR) :=
  S.intervals.map (fun p => (p.1, p.2))

/-- IntervalSet.from_dict: parse the payload back (the shape checks of the
source are enforced by the type; float() is again the identity). -/
def fromDict (payload : List (XR × XR)) : IntervalSet :=
  ⟨payload.map (fun p => (p.1, p.2))⟩

/-- Pointwise membership of `x` in a union of float intervals, as tested by
`contains` over a raw interval list. -/
def memB (x : ℚ) (l : List (XR × XR)) : Bool :=
  l.any (fun p => decide (p.1 ≤ XR.fin x ∧ XR.fin x ≤ p.2))

theorem contains_eq_memB (S : IntervalSet) (x : ℚ) :
    S.contains x = memB x S.intervals := rfl

instance : IsTotal (XR × XR) pairLe := by
  constructor
  intro p q
  rcases lt_trichotomy p.1 q.1 with h | h | h
  · exact Or.inl (Or.inl h)
  · rcases le_total p.2 q.2 with h2 | h2
    · exact Or.inl (Or.inr ⟨h, h2⟩)
    · exact Or.inr (Or.inr ⟨h.symm, h2⟩)
  · exact Or.inr (Or.inl h)

instance : IsTrans (XR × XR) pairLe := by
  constructor
  rintro p q r (h1 | ⟨h1, h1'⟩) (h2 | ⟨h2, h2'⟩)
  · exact Or.inl (h1.trans h2)
  · exact Or.inl (h2 ▸ h1)
  · exact Or.inl (h1 ▸ h2)
  · exact Or.inr ⟨h1.trans h2, h1'.trans h2'⟩

theorem pairLe_fst_le {p q : XR × XR} (h : pairLe p q) : p.1 ≤ q.1 := by
  rcases h with h | ⟨h, _⟩
  · exact h.le
  · exact h.le

theorem pairLe_merge {c q r : XR × XR} (hcq : pairLe c q) (hqr : pairLe q r) :
    pairLe (c.1, max c.2 q.2) r := by
  unfold pairLe at hqr ⊢
  dsimp only
  rcases hqr with h | ⟨h, h'⟩
  · exact Or.inl (lt_of_le_of_lt (pairLe_fst_le hcq) h)
  · rcases hcq with hc | ⟨hc, hc'⟩
    · exact Or.inl (h ▸ hc)
    · exact Or.inr ⟨hc.trans h, by simpa [max_eq_right hc'] using h'⟩

theorem chain_pairLe_merge {c q : XR × XR} {rest : List (XR × XR)}
    (hcq : pairLe c q) (hch : List.Chain pairLe q rest) :
    List.Chain pairLe (c.1, max c.2 q.2) rest := by
  cases rest with
  | nil => exact List.Chain.nil
  | cons r t =>
    rw [List.chain_cons] at hch ⊢
    exact ⟨pairLe_merge hcq hch.1, hch.2⟩

theorem mergeRun_shape :
    ∀ (l : List (XR × XR)) (c : XR × XR),
      ∃ h t, mergeRun c l = (c.1, h) :: t
  | [], c => ⟨c.2, [], rfl⟩
  | q :: rest, c => by
    rw [mergeRun]
    by_cases hc : q.1 ≤ c.2 ∨ c.2.isInfinite = true
    · simpa [hc] using mergeRun_shape rest (c.1, max c.2 q.2)
    · exact ⟨c.2, mergeRun q rest, by simp [hc]⟩

/-- The invariant holding between consecutive output intervals of the merge
loop: lower bounds are sorted, the previous upper bound is strictly below the
next lower bound (no overlap, nothing left to merge), and is finite. -/
def sepRel (p q : XR × XR) : Prop :=
  p.1 ≤ q.1 ∧ p.2 < q.1 ∧ p.2.isInfinite = false

theorem mergeRun_chain' :
    ∀ (l : List (XR × XR)) (c : XR × XR), List.Chain pairLe c l →
      List.Chain' sepRel (mergeRun c l)
  | [], c, _ => by simp [mergeRun]
  | q :: rest, c, hch => by
    rw [List.chain_cons] at hch
    rw [mergeRun]
    by_cases hc : q.1 ≤ c.2 ∨ c.2.isInfinite = true
    · simp only [hc, if_true]
      exact mergeRun_chain' rest _ (chain_pairLe_merge hch.1 hch.2)
    · simp only [hc, if_false]
      obtain ⟨h, t, ht⟩ := mergeRun_shape rest q
      rw [ht]
      rw [List.chain'_cons]
      push_neg at hc
      constructor
      · unfold sepRel
        dsimp only
        refine ⟨pairLe_fst_le hch.1, ?_, ?_⟩
        · exact hc.1
        · simpa using hc.2
      · rw [← ht]
        exact mergeRun_chain' rest q hch.2

theorem max_ne_negInf {a b : XR} (ha : a ≠ XR.negInf) : max a b ≠ XR.negInf := by
  intro h
  rcases max_choice a b with hm | hm
  · exact ha (hm ▸ h)
  · have : a ≤ XR.negInf := h ▸ hm ▸ le_max_left a b
    exact ha (le_antisymm this bot_le)

theorem isInfinite_true_cases {a : XR} (h : a.isInfinite = true) :
    a = XR.negInf ∨ a = XR.posInf := by
  simpa [XR.isInfinite] using h

theorem interval_merge_iff {c q : XR × XR} (hcq : c.1 ≤ q.1)
    (hcase : q.1 ≤ c.2 ∨ c.2 = XR.posInf) (x : ℚ) :
    (c.1 ≤ XR.fin x ∧ XR.fin x ≤ max c.2 q.2) ↔
      ((c.1 ≤ XR.fin x ∧ XR.fin x ≤ c.2) ∨ (q.1 ≤ XR.fin x ∧ XR.fin x ≤ q.2)) := by
  constructor
  · rintro ⟨h1, h2⟩
    rcases le_or_lt (XR.fin x) c.2 with hx | hx
    · exact Or.inl ⟨h1, hx⟩
    · rcases hcase with hq | hq
      · refine Or.inr ⟨hq.trans hx.le, ?_⟩
        rcases max_choice c.2 q.2 with hm | hm
        · exact absurd (hm ▸ h2) (not_le.mpr hx)
        · exact hm ▸ h2
      · exact absurd (hq ▸ hx) (by simp [not_lt])
  · rintro (⟨h1, h2⟩ | ⟨h1, h2⟩)
    · exact ⟨h1, h2.trans (le_max_left _ _)⟩
    · exact ⟨hcq.trans h1, h2.trans (le_max_right _ _)⟩

theorem mergeRun_memB :
    ∀ (l : List (XR × XR)) (c : XR × XR), List.Chain pairLe c l →
      c.2 ≠ XR.negInf → (∀ p ∈ l, p.2 ≠ XR.negInf) → ∀ x : ℚ,
      memB x (mergeRun c l) = memB x (c :: l)
  | [], c, _, _, _, x => rfl
  | q :: rest, c, hch, hbot, hl, x => by
    rw [List.chain_cons] at hch
    rw [mergeRun]
    by_cases hc : q.1 ≤ c.2 ∨ c.2.isInfinite = true
    · simp only [hc, if_true]
      have hcase : q.1 ≤ c.2 ∨ c.2 = XR.posInf := by
        rcases hc with h | h
        · exact Or.inl h
        · rcases isInfinite_true_cases h with h' | h'
          · exact absurd h' hbot
          · exact Or.inr h'
      have ih := mergeRun_memB rest (c.1, max c.2 q.2)
        (chain_pairLe_merge hch.1 hch.2) (max_ne_negInf hbot)
        (fun p hp => hl p (List.mem_cons_of_mem q hp)) x
      rw [ih]
      simp only [memB, List.any_cons]
      rw [Bool.eq_iff_iff]
      simp only [Bool.or_eq_true, decide_eq_true_eq]
      rw [interval_merge_iff (pairLe_fst_le hch.1) hcase x]
      tauto
    · simp only [hc, if_false]
      have ih := mergeRun_memB rest q hch.2
        (hl q (List.mem_cons_self q rest))
        (fun p hp => hl p (List.mem_cons_of_mem q hp)) x
      simp only [memB, List.any_cons] at ih ⊢
      rw [ih]

theorem memB_perm {l l' : List (XR × XR)} (h : l.Perm l') (x : ℚ) :
    memB x l = memB x l' := by
  rw [Bool.eq_iff_iff]
  simp only [memB, List.any_eq_true]
  exact ⟨fun ⟨p, hp, hx⟩ => ⟨p, h.mem_iff.mp hp, hx⟩,
    fun ⟨p, hp, hx⟩ => ⟨p, h.mem_iff.mpr hp, hx⟩⟩

theorem union_pairwise (A B : IntervalSet) :
    List.Pairwise (fun p q : XR × XR => p.1 ≤ q.1 ∧ p.2 < q.1)
      (A.union B).intervals := by
  rw [union, normalized]
  rcases hs : List.insertionSort pairLe (A.intervals ++ B.intervals) with _ | ⟨p, rest⟩
  · exact List.Pairwise.nil
  · have hsorted : List.Sorted pairLe (p :: rest) := by
      rw [← hs]
      exact List.sorted_insertionSort pairLe _
    have hchain : List.Chain pairLe p rest := hsorted.chain'
    have h := mergeRun_chain' rest p hchain
    have htrans : IsTrans (XR × XR) sepRel := by
      constructor
      rintro a b c ⟨h1, h2, h3⟩ ⟨h4, _, _⟩
      exact ⟨h1.trans h4, lt_of_lt_of_le h2 h4, h3⟩
    have hp : List.Pairwise sepRel (mergeRun p rest) :=
      List.chain'_iff_pairwise.mp h
    exact hp.imp (fun h => ⟨h.1, h.2.1⟩)

theorem union_contains (A B : IntervalSet)
    (h : ∀ p ∈ A.intervals ++ B.intervals, p.2 ≠ XR.negInf) (x : ℚ) :
    (A.union B).contains x = (A.contains x || B.contains x) := by
  rw [contains_eq_memB, contains_eq_memB, contains_eq_memB]
  have hperm := List.perm_insertionSort pairLe (A.intervals ++ B.intervals)
  have hmem : memB x (A.union B).intervals
      = memB x (A.intervals ++ B.intervals) := by
    rw [union, normalized]
    rcases hs : List.insertionSort pairLe (A.intervals ++ B.intervals)
      with _ | ⟨p, rest⟩
    · rw [hs] at hperm
      rw [(List.Perm.nil_eq hperm).symm]
    · have hsorted : List.Sorted pairLe (p :: rest) := by
        rw [← hs]
        exact List.sorted_insertionSort pairLe _
      have hchain : List.Chain pairLe p rest := hsorted.chain'
      rw [hs] at hperm
      have hne : ∀ q ∈ p :: rest, (q : XR × XR).2 ≠ XR.negInf :=
        fun q hq => h q (hperm.mem_iff.mp hq)
      have := mergeRun_memB rest p hchain
        (hne p (List.mem_cons_self p rest))
        (fun q hq => hne q (List.mem_cons_of_mem p hq)) x
      rw [this]
      exact memB_perm hperm x
  rw [hmem]
  simp [memB, List.any_append]

theorem fromDict_toDict (S : IntervalSet) : fromDict (toDict S) = S := by
  rcases S with ⟨l⟩
  simp [fromDict, toDict, List.map_map]

end IntervalSet

/-- C8, counterexample.  The claim fails as stated: for the IntervalSet
A = {(0, -inf)} (an interval whose upper bound is -inf, which the dataclass
accepts unvalidated) and B = {(5, 6)}, the merge loop's numpy.isinf branch
(intervals.py line 76, true also at -inf) glues the far-apart intervals into
(0, 6), so the union contains x = 2 although neither A nor B does. -/
theorem claim_C8_counterexample :
    (IntervalSet.union ⟨[(XR.fin 0, XR.negInf)]⟩ ⟨[(XR.fin 5, XR.fin 6)]⟩).contains 2 = true ∧
    IntervalSet.contains ⟨[(XR.fin 0, XR.negInf)]⟩ 2 = false ∧
    IntervalSet.contains ⟨[(XR.fin 5, XR.fin 6)]⟩ 2 = false := by
  refine ⟨?_, ?_, ?_⟩ <;> decide

/-- C8 (amended): for every pair of IntervalSets A and B, A.union(B) yields a
normalized representation whose intervals are sorted by lower bound and
pairwise non-overlapping (each upper bound strictly below the next lower
bound, hence also fully merged); provided no interval of A or B has upper
bound -inf (true of every well-formed interval), contains(x) on the union
agrees with membership of x in some interval of A or of B for every real x;
and from_dict(to_dict(S)) reproduces the interval bounds exactly, including
infinite bounds. -/
theorem claim_C8 :
    (∀ A B : IntervalSet,
      List.Pairwise (fun p q : XR × XR => p.1 ≤ q.1 ∧ p.2 < q.1)
        (A.union B).intervals)
    ∧ (∀ A B : IntervalSet,
        (∀ p ∈ A.intervals ++ B.intervals, p.2 ≠ XR.negInf) →
        ∀ x : ℚ, (A.union B).contains x = (A.contains x || B.contains x))
    ∧ (∀ S : IntervalSet, IntervalSet.fromDict (IntervalSet.toDict S) = S) :=
  ⟨IntervalSet.union_pairwise, IntervalSet.union_contains,
    IntervalSet.fromDict_toDict⟩

/-- Witness for C8: the amended theorem applied at the concrete pair
A = {(0, 1)}, B = {(0, 2)} and query point 3, with the no-bottom-bound
hypothesis discharged by evaluation. -/
theorem claim_C8_witness :
    (∀ p ∈ (([(XR.fin 0, XR.fin 1)] : List (XR × XR)) ++
        ([(XR.fin 0, XR.fin 2)] : List (XR × XR))), p.2 ≠ XR.negInf) ∧
    (IntervalSet.union ⟨[(XR.fin 0, XR.fin 1)]⟩ ⟨[(XR.fin 0, XR.fin 2)]⟩).contains 3
      = (IntervalSet.contains ⟨[(XR.fin 0, XR.fin 1)]⟩ 3 ||
          IntervalSet.contains ⟨[(XR.fin 0, XR.fin 2)]⟩ 3) :=
  ⟨by decide,
    claim_C8.2.1 ⟨[(XR.fin 0, XR.fin 1)]⟩ ⟨[(XR.fin 0, XR.fin 2)]⟩ (by decide) 3⟩

/-! ## Grid inversion (src/ivrobust/intervals.py, lines 86-177) -/

/-- Model of numpy.flatnonzero on a boolean vector: the indices holding true,
in increasing order. -/
def flatnonzero (l : List Bool) : List ℕ :=
  (List.range l.length).filter (fun i => l.getD i false)

/-- The segment-walking loop of invert_pvalue_grid (lines 118-128): walk the
accepted indices, extending the current run [start, prev] while indices are
consecutive and emitting it otherwise. -/
def segsLoop (start prev : ℕ) : List ℕ → List (ℕ × ℕ)
  | [] => [(start, prev)]
  | j :: rest =>
    if j = prev + 1 then segsLoop start j rest
    else (start, prev) :: segsLoop j j rest

/-- The bisection loop of invert_pvalue_grid (lines 145-157): at most the
given fuel many iterations, stopping at the tolerance and returning the final
midpoint when the fuel runs out. -/
def bisectLoop (pf : ℚ → ℚ) (alpha tol : ℚ) : ℚ → ℚ → ℚ → ℕ → ℚ
  | _, left, right, 0 => (left + right) / 2
  | fa, left, right, fuel + 1 =>
    let mid := (left + right) / 2
    let fm := pf mid - alpha
    if |fm| ≤ tol ∨ |right - left| ≤ tol then mid
    else if fa * fm ≤ 0 then bisectLoop pf alpha tol fa left mid fuel
    else bisectLoop pf alpha tol fm mid right fuel

/-- An iteration-counting copy of bisectLoop, used to state that the loop
body runs at most max_refine_iter times. -/
def bisectLoopCount (pf : ℚ → ℚ) (alpha tol : ℚ) : ℚ → ℚ → ℚ → ℕ → ℚ × ℕ
  | _, left, right, 0 => ((left + right) / 2, 0)
  | fa, left, right, fuel + 1 =>
    let mid := (left + right) / 2
    let fm := pf mid - alpha
    if |fm| ≤ tol ∨ |right - left| ≤ tol then (mid, 1)
    else if fa * fm ≤ 0 then
      let r := bisectLoopCount pf alpha tol fa left mid fuel
      (r.1, r.2 + 1)
    else
      let r := bisectLoopCount pf alpha tol fm mid right fuel
      (r.1, r.2 + 1)

/-- The bisect() closure of invert_pvalue_grid (lines 133-157): exact hits
return an endpoint, an unbracketed sign pattern returns the midpoint
fallback, otherwise the bisection loop runs. -/
def bisect (pf : Option (ℚ → ℚ)) (alpha tol : ℚ) (maxIter : ℕ) (a b : ℚ) : ℚ :=
  match pf with
  | none => (a + b) / 2
  | some f =>
    let fa := f a - alpha
    let fb := f b - alpha
    if fa = 0 then a
    else if fb = 0 then b
    else if fa * fb > 0 then (a + b) / 2
    else bisectLoop f alpha tol fa a b maxIter

/-- Conversion of one accepted segment (start index, end index) into an
interval (lines 159-175): endpoints at the segment's grid values, refined by
bisection against the rejecting neighbour when requested, and replaced by
∓inf when the segment touches the first or last grid index. -/
def segToInterval (g : List ℚ) (n : ℕ) (refine : Bool) (tol : ℚ) (maxIter : ℕ)
    (pf : Option (ℚ → ℚ)) (alphaQ : ℚ) (se : ℕ × ℕ) : XR × XR :=
  let left := g.getD se.1 0
  let right := g.getD se.2 0
  let left' := if refine = true ∧ ¬ se.1 = 0 then
      bisect pf alphaQ tol maxIter (g.getD (se.1 - 1) 0) left
    else left
  let right' := if refine = true ∧ ¬ se.2 = n - 1 then
      bisect pf alphaQ tol maxIter right (g.getD (se.2 + 1) 0)
    else right
  ((if se.1 = 0 then XR.negInf else XR.fin left'),
    (if se.2 = n - 1 then XR.posInf else XR.fin right'))

/-- The post-validation tail of invert_pvalue_grid: the early empty return
when no grid point is accepted (line 115-116), the refine/pvalue_func check
(line 130-131), and the per-segment interval construction; idx is the list
of accepted grid indices. -/
def ipgSegs (grid : List XR) (alpha : XR) (refine : Bool) (refineTol : ℚ)
    (maxRefineIter : ℕ) (pvalueFunc : Option (ℚ → ℚ)) (idx : List ℕ) :
    Except String IntervalSet :=
  match idx with
  | [] => .ok ⟨[]⟩
  | i0 :: rest =>
    if refine = true ∧ pvalueFunc.isNone = true then
      .error "pvalue_func must be provided when refine=True."
    else
      .ok ⟨(segsLoop i0 i0 rest).map
        (segToInterval (grid.map XR.toQ) grid.length refine refineTol
          maxRefineIter pvalueFunc alpha.toQ)⟩

/-- The strict-increase check of invert_pvalue_grid, literally numpy's
"no adjacent difference is ≤ 0". -/
def diffsOk : List XR → Bool
  | [] => true
  | [_] => true
  | a :: b :: rest => decide (a < b) && diffsOk (b :: rest)

theorem diffsOk_iff_chain' :
    ∀ l : List XR, diffsOk l = true ↔ List.Chain' (fun a b : XR => a < b) l
  | [] => by simp [diffsOk]
  | [_] => by simp [diffsOk]
  | a :: b :: rest => by
    rw [diffsOk, List.chain'_cons, Bool.and_eq_true, decide_eq_true_eq,
      diffsOk_iff_chain' (b :: rest)]

/-- invert_pvalue_grid (lines 86-177).  Raised ValueErrors become error
results; the returned IntervalSet is not normalized, exactly as in the
source. -/
def invert_pvalue_grid (grid pvalues : List XR) (alpha : XR) (refine : Bool)
    (refineTol : ℚ) (maxRefineIter : ℕ) (pvalueFunc : Option (ℚ → ℚ)) :
    Except String IntervalSet :=
  if ¬(XR.fin 0 < alpha ∧ alpha < XR.fin 1) then
    .error "alpha must be in (0, 1)."
  else if grid.length ≠ pvalues.length then
    .error "grid and pvalues must have the same length."
  else if grid.length = 0 then .ok ⟨[]⟩
  else if grid.any (fun x => !x.isFin) then .error "grid must be finite."
  else if !(diffsOk grid) then
    .error "grid must be strictly increasing."
  else
    ipgSegs grid alpha refine refineTol maxRefineIter pvalueFunc
      (flatnonzero (pvalues.map (fun p => decide (alpha ≤ p))))

/-! ## invert_test (src/ivrobust/weakiv/inversion.py, lines 13-78) -/

/-- Exact model of numpy.linspace on n points (n = 1 gives the left
endpoint, as in numpy). -/
def linspace (lo hi : ℚ) (n : ℕ) : List ℚ :=
  (List.range n).map (fun i : ℕ => lo + (hi - lo) * (i : ℚ) / ((n : ℚ) - 1))

/-- GridSpec dataclass. -/
structure GridSpec where
  grid : Option (List XR)
  betaBounds : Option (XR × XR)
  nGrid : ℕ

/-- InversionSpec dataclass (the hysteresis field is unused by the source
and omitted). -/
structure InversionSpec where
  refine : Bool
  refineTol : ℚ
  maxRefineIter : ℕ

/-- invert_test: validate the grid specification, build the evaluation grid,
evaluate the p-value function on it and delegate to invert_pvalue_grid (the
timing and grid_info bookkeeping carry no numeric content and are omitted). -/
def invert_test (testFn : ℚ → ℚ) (alpha : XR) (gs : GridSpec)
    (ispec : InversionSpec) : Except String IntervalSet :=
  if ¬(XR.fin 0 < alpha ∧ alpha < XR.fin 1) then
    .error "alpha must be in (0, 1)."
  else
    match gs.grid with
    | none =>
      match gs.betaBounds with
      | none => .error "beta_bounds must be provided when grid is None."
      | some (lo, hi) =>
        if ¬(lo.isFin = true ∧ hi.isFin = true ∧ lo < hi) then
          .error "beta_bounds must be finite with lo < hi."
        else if gs.nGrid < 301 then
          .error "n_grid must be at least 301 for stable inversion."
        else
          let grid := (linspace lo.toQ hi.toQ gs.nGrid).map XR.fin
          invert_pvalue_grid grid
            (grid.map (fun x => XR.fin (testFn x.toQ))) alpha ispec.refine
            ispec.refineTol ispec.maxRefineIter (some testFn)
    | some gl =>
      if gl.length < 3 then .error "grid must contain at least 3 points."
      else
        invert_pvalue_grid gl (gl.map (fun x => XR.fin (testFn x.toQ))) alpha
          ispec.refine ispec.refineTol ispec.maxRefineIter (some testFn)

/-! ## List support lemmas for the inversion proofs -/

theorem filter_range'_le {B : ℕ} :
    ∀ (k s : ℕ), B < s + k →
      (List.range' s k).filter (fun i => decide (i ≤ B))
        = List.range' s (B + 1 - s)
  | 0, s, h => by
    have : B + 1 - s = 0 := by omega
    simp [this]
  | k + 1, s, h => by
    rw [List.range'_succ]
    by_cases hs : s ≤ B
    · rw [List.filter_cons_of_pos (by simpa using hs)]
      rw [filter_range'_le k (s + 1) (by omega)]
      have h1 : B + 1 - s = (B + 1 - (s + 1)) + 1 := by omega
      rw [h1, List.range'_succ]
    · have hnil : (List.range' (s + 1) k).filter (fun i => decide (i ≤ B)) = [] := by
        rw [List.filter_eq_nil_iff]
        intro a ha
        rw [List.mem_range'] at ha
        obtain ⟨i, _, rfl⟩ := ha
        simpa using by omega
      rw [List.filter_cons_of_neg (by simpa using hs)]
      rw [hnil]
      have : B + 1 - s = 0 := by omega
      simp [this]

theorem filter_range_band {n A B : ℕ} (hAB : A ≤ B) (hBn : B < n) :
    (List.range n).filter (fun i => decide (A ≤ i ∧ i ≤ B))
      = List.range' A (B + 1 - A) := by
  have hsplit : List.range' 0 A ++ List.range' A (n - A) = List.range n := by
    rw [List.range_eq_range']
    have h' := List.range'_append 0 A (n - A) 1
    simp only [Nat.one_mul, Nat.zero_add] at h'
    rw [h']
    congr 1
    omega
  rw [← hsplit, List.filter_append]
  have h1 : (List.range' 0 A).filter (fun i => decide (A ≤ i ∧ i ≤ B)) = [] := by
    rw [List.filter_eq_nil_iff]
    intro a ha
    rw [List.mem_range'] at ha
    obtain ⟨i, hi, rfl⟩ := ha
    simpa using by omega
  have h2 : (List.range' A (n - A)).filter (fun i => decide (A ≤ i ∧ i ≤ B))
      = List.range' A (B + 1 - A) := by
    rw [List.filter_congr (q := fun i => decide (i ≤ B)) ?_]
    · exact filter_range'_le (n - A) A (by omega)
    · intro x hx
      rw [List.mem_range'] at hx
      obtain ⟨i, hi, rfl⟩ := hx
      simp only [decide_eq_decide]
      omega
  rw [h1, h2, List.nil_append]

theorem filter_range_two_bands {n A1 B1 A2 B2 : ℕ} (h11 : A1 ≤ B1)
    (h12 : B1 < A2) (h22 : A2 ≤ B2) (hB2 : B2 < n) :
    (List.range n).filter
        (fun i => decide ((A1 ≤ i ∧ i ≤ B1) ∨ (A2 ≤ i ∧ i ≤ B2)))
      = List.range' A1 (B1 + 1 - A1) ++ List.range' A2 (B2 + 1 - A2) := by
  have hsplit : List.range' 0 A2 ++ List.range' A2 (n - A2) = List.range n := by
    rw [List.range_eq_range']
    have h' := List.range'_append 0 A2 (n - A2) 1
    simp only [Nat.one_mul, Nat.zero_add] at h'
    rw [h']
    congr 1
    omega
  rw [← hsplit, List.filter_append]
  have h1 : (List.range' 0 A2).filter
      (fun i => decide ((A1 ≤ i ∧ i ≤ B1) ∨ (A2 ≤ i ∧ i ≤ B2)))
      = List.range' A1 (B1 + 1 - A1) := by
    rw [List.filter_congr (q := fun i => decide (A1 ≤ i ∧ i ≤ B1)) ?_]
    · have := filter_range_band (n := A2) h11 (by omega)
      rw [List.range_eq_range'] at this
      exact this
    · intro x hx
      rw [List.mem_range'] at hx
      obtain ⟨i, hi, rfl⟩ := hx
      simp only [decide_eq_decide]
      omega
  have h2 : (List.range' A2 (n - A2)).filter
      (fun i => decide ((A1 ≤ i ∧ i ≤ B1) ∨ (A2 ≤ i ∧ i ≤ B2)))
      = List.range' A2 (B2 + 1 - A2) := by
    rw [List.filter_congr (q := fun i => decide (i ≤ B2)) ?_]
    · exact filter_range'_le (n - A2) A2 (by omega)
    · intro x hx
      rw [List.mem_range'] at hx
      obtain ⟨i, hi, rfl⟩ := hx
      simp only [decide_eq_decide]
      omega
  rw [h1, h2]

theorem segsLoop_run (s : ℕ) :
    ∀ (k p : ℕ), segsLoop s p (List.range' (p + 1) k) = [(s, p + k)]
  | 0, p => by simp [segsLoop]
  | k + 1, p => by
    rw [List.range'_succ, segsLoop, if_pos rfl, segsLoop_run s k (p + 1)]
    have hpk : p + 1 + k = p + (k + 1) := by omega
    rw [hpk]

theorem segsLoop_break (s : ℕ) :
    ∀ (k p j : ℕ) (l : List ℕ), j ≠ p + k + 1 →
      segsLoop s p (List.range' (p + 1) k ++ j :: l)
        = (s, p + k) :: segsLoop j j l
  | 0, p, j, l, h => by
    rw [List.range'_zero, List.nil_append, segsLoop, if_neg (by omega)]
    simp
  | k + 1, p, j, l, h => by
    rw [List.range'_succ, List.cons_append, segsLoop, if_pos rfl,
      segsLoop_break s k (p + 1) j l (by omega)]
    have hpk : p + 1 + k = p + (k + 1) := by omega
    rw [hpk]

theorem flatnonzero_map_range (n : ℕ) (f : ℕ → Bool) :
    flatnonzero ((List.range n).map f) = (List.range n).filter f := by
  unfold flatnonzero
  rw [List.length_map, List.length_range]
  refine List.filter_congr ?_
  intro i hi
  rw [List.mem_range] at hi
  rw [List.getD_eq_getElem?_getD, List.getElem?_map, List.getElem?_range hi]
  rfl

theorem flatnonzero_all_false {l : List Bool} (h : ∀ b ∈ l, b = false) :
    flatnonzero l = [] := by
  unfold flatnonzero
  rw [List.filter_eq_nil_iff]
  intro i hi
  rw [List.mem_range] at hi
  rw [List.getD_eq_getElem?_getD, List.getElem?_eq_getElem hi]
  simp [h (l[i]) (List.getElem_mem hi)]

theorem invert_pvalue_grid_valid {grid pvalues : List XR} {alpha : XR}
    {refine : Bool} {tol : ℚ} {maxIter : ℕ} {pf : Option (ℚ → ℚ)}
    (hal : XR.fin 0 < alpha ∧ alpha < XR.fin 1)
    (hlen : grid.length = pvalues.length)
    (hfin : ∀ x ∈ grid, x.isFin = true)
    (hinc : List.Chain' (fun a b : XR => a < b) grid) :
    invert_pvalue_grid grid pvalues alpha refine tol maxIter pf
      = if grid.length = 0 then .ok ⟨[]⟩ else
          ipgSegs grid alpha refine tol maxIter pf
            (flatnonzero (pvalues.map (fun p => decide (alpha ≤ p)))) := by
  unfold invert_pvalue_grid
  rw [if_neg (not_not_intro hal), if_neg (not_not_intro hlen)]
  by_cases h0 : grid.length = 0
  · rw [if_pos h0, if_pos h0]
  · rw [if_neg h0, if_neg h0]
    have hany : grid.any (fun x => !x.isFin) = false := by
      rw [List.any_eq_false]
      intro x hx
      rw [hfin x hx]
      simp
    have hdiff : diffsOk grid = true := (diffsOk_iff_chain' grid).mpr hinc
    rw [hany, if_neg (by simp), hdiff, if_neg (by simp)]

theorem ipg_error_of_invalid {grid pvalues : List XR} {alpha : XR}
    {refine : Bool} {tol : ℚ} {maxIter : ℕ} {pf : Option (ℚ → ℚ)}
    (h : ¬(XR.fin 0 < alpha ∧ alpha < XR.fin 1)
        ∨ (∃ x ∈ grid, x.isFin = false)
        ∨ ¬ List.Chain' (fun a b : XR => a < b) grid) :
    ∃ msg, invert_pvalue_grid grid pvalues alpha refine tol maxIter pf
      = .error msg := by
  unfold invert_pvalue_grid
  by_cases hal : XR.fin 0 < alpha ∧ alpha < XR.fin 1
  · rw [if_neg (not_not_intro hal)]
    by_cases hlen : grid.length ≠ pvalues.length
    · rw [if_pos hlen]
      exact ⟨_, rfl⟩
    · rw [if_neg hlen]
      by_cases h0 : grid.length = 0
      · exfalso
        have hnil : grid = [] := List.length_eq_zero.mp h0
        rcases h with h | ⟨x, hx, _⟩ | h
        · exact h hal
        · rw [hnil] at hx
          exact List.not_mem_nil x hx
        · rw [hnil] at h
          exact h List.chain'_nil
      · rw [if_neg h0]
        by_cases hany : grid.any (fun x => !x.isFin) = true
        · rw [if_pos hany]
          exact ⟨_, rfl⟩
        · rw [if_neg hany]
          have hchain : ¬ List.Chain' (fun a b : XR => a < b) grid := by
            rcases h with h | ⟨x, hx, hxf⟩ | h
            · exact absurd hal h
            · exfalso
              apply hany
              rw [List.any_eq_true]
              exact ⟨x, hx, by rw [hxf]; rfl⟩
            · exact h
          have hdiff : diffsOk grid = false := by
            rcases hd : diffsOk grid with _ | _
            · rfl
            · exact absurd ((diffsOk_iff_chain' grid).mp hd) hchain
          rw [hdiff, if_pos (by simp)]
          exact ⟨_, rfl⟩
  · rw [if_pos hal]
    exact ⟨_, rfl⟩

theorem invert_test_error {testFn : ℚ → ℚ} {alpha : XR} {gs : GridSpec}
    {ispec : InversionSpec} (hgrid : gs.grid = none)
    (h : gs.nGrid < 301 ∨ (∀ lohi : XR × XR, gs.betaBounds = some lohi →
        ¬(lohi.1.isFin = true ∧ lohi.2.isFin = true ∧ lohi.1 < lohi.2))) :
    ∃ msg, invert_test testFn alpha gs ispec = .error msg := by
  unfold invert_test
  by_cases hal : XR.fin 0 < alpha ∧ alpha < XR.fin 1
  · rw [if_neg (not_not_intro hal), hgrid]
    rcases hbb : gs.betaBounds with _ | ⟨lo, hi⟩
    · exact ⟨_, rfl⟩
    · simp only
      by_cases hgood : lo.isFin = true ∧ hi.isFin = true ∧ lo < hi
      · rw [if_neg (not_not_intro hgood)]
        have hn : gs.nGrid < 301 := by
          rcases h with h | h
          · exact h
          · exact absurd hgood (h (lo, hi) hbb)
        rw [if_pos hn]
        exact ⟨_, rfl⟩
      · rw [if_pos hgood]
        exact ⟨_, rfl⟩
  · rw [if_pos hal]
    exact ⟨_, rfl⟩

theorem ipg_empty_of_all_rejected {grid pvalues : List XR} {alpha : XR}
    {refine : Bool} {tol : ℚ} {maxIter : ℕ} {pf : Option (ℚ → ℚ)}
    (hal : XR.fin 0 < alpha ∧ alpha < XR.fin 1)
    (hlen : grid.length = pvalues.length)
    (hfin : ∀ x ∈ grid, x.isFin = true)
    (hinc : List.Chain' (fun a b : XR => a < b) grid)
    (hrej : ∀ p ∈ pvalues, p < alpha) :
    invert_pvalue_grid grid pvalues alpha refine tol maxIter pf = .ok ⟨[]⟩ := by
  rw [invert_pvalue_grid_valid hal hlen hfin hinc]
  by_cases h0 : grid.length = 0
  · rw [if_pos h0]
  · rw [if_neg h0]
    have hfz : flatnonzero (pvalues.map (fun p => decide (alpha ≤ p))) = [] := by
      apply flatnonzero_all_false
      intro b hb
      rw [List.mem_map] at hb
      obtain ⟨p, hp, rfl⟩ := hb
      simpa using not_le.mpr (hrej p hp)
    rw [hfz]
    rfl

/-- C6: invert_pvalue_grid raises ValueError when alpha is outside (0, 1),
when the grid contains a non-finite value, or when the grid is not strictly
increasing; invert_test additionally raises ValueError when no explicit grid
is supplied and n_grid is below 301 or beta_bounds are not finite with
lo < hi (a missing beta_bounds also raises); and when every grid point has
p-value below alpha the result is an empty IntervalSet returned normally,
never an exception. -/
theorem claim_C6 :
    (∀ (grid pvalues : List XR) (alpha : XR) (refine : Bool) (tol : ℚ)
        (maxIter : ℕ) (pf : Option (ℚ → ℚ)),
      (¬(XR.fin 0 < alpha ∧ alpha < XR.fin 1)
          ∨ (∃ x ∈ grid, x.isFin = false)
          ∨ ¬ List.Chain' (fun a b : XR => a < b) grid) →
      ∃ msg, invert_pvalue_grid grid pvalues alpha refine tol maxIter pf
        = .error msg)
    ∧ (∀ (testFn : ℚ → ℚ) (alpha : XR) (gs : GridSpec) (ispec : InversionSpec),
        gs.grid = none →
        (gs.nGrid < 301 ∨ (∀ lohi : XR × XR, gs.betaBounds = some lohi →
            ¬(lohi.1.isFin = true ∧ lohi.2.isFin = true ∧ lohi.1 < lohi.2))) →
        ∃ msg, invert_test testFn alpha gs ispec = .error msg)
    ∧ (∀ (grid pvalues : List XR) (alpha : XR) (refine : Bool) (tol : ℚ)
        (maxIter : ℕ) (pf : Option (ℚ → ℚ)),
        (XR.fin 0 < alpha ∧ alpha < XR.fin 1) →
        grid.length = pvalues.length →
        (∀ x ∈ grid, x.isFin = true) →
        List.Chain' (fun a b : XR => a < b) grid →
        (∀ p ∈ pvalues, p < alpha) →
        invert_pvalue_grid grid pvalues alpha refine tol maxIter pf
          = .ok ⟨[]⟩) :=
  ⟨fun _ _ _ _ _ _ _ h => ipg_error_of_invalid h,
    fun _ _ _ _ hg h => invert_test_error hg h,
    fun _ _ _ _ _ _ _ hal hlen hfin hinc hrej =>
      ipg_empty_of_all_rejected hal hlen hfin hinc hrej⟩

/-- Witness for C6: alpha = 2 is rejected by invert_pvalue_grid; an
invert_test call with no grid and n_grid = 100 is rejected; and a two-point
grid whose p-values (0.01) all fall below alpha = 0.05 yields the empty
IntervalSet. -/
theorem claim_C6_witness :
    (∃ msg, invert_pvalue_grid [XR.fin 0, XR.fin 1] [XR.fin 1, XR.fin 1]
        (XR.fin 2) false 1 10 none = .error msg)
    ∧ (∃ msg, invert_test (fun _ => 1) (XR.fin 2)
        ⟨none, some (XR.fin 0, XR.fin 1), 100⟩ ⟨false, 1, 10⟩ = .error msg)
    ∧ invert_pvalue_grid [XR.fin 0, XR.fin 1] [XR.fin 0, XR.fin 0]
        (XR.fin (mkRat 1 2)) false 1 10 none = .ok ⟨[]⟩ :=
  ⟨claim_C6.1 _ _ _ _ _ _ _ (Or.inl (by decide)),
    claim_C6.2.1 _ _ _ _ rfl (Or.inl (by decide)),
    claim_C6.2.2 _ _ _ _ _ _ _ (by decide) (by decide) (by decide)
      (by simp [List.chain'_pair]) (by decide)⟩

instance : DecidableEq (Except String IntervalSet) := fun a b =>
  match a, b with
  | .ok x, .ok y => decidable_of_iff (x = y) (by simp)
  | .error x, .error y => decidable_of_iff (x = y) (by simp)
  | .ok _, .error _ => isFalse (by simp)
  | .error _, .ok _ => isFalse (by simp)

theorem flatnonzero_all_true {l : List Bool} (h : ∀ b ∈ l, b = true) :
    flatnonzero l = List.range l.length := by
  unfold flatnonzero
  rw [List.filter_eq_self]
  intro i hi
  rw [List.mem_range] at hi
  rw [List.getD_eq_getElem?_getD, List.getElem?_eq_getElem hi]
  exact h (l[i]) (List.getElem_mem hi)

theorem map_fin_toQ (l : List ℚ) : (l.map XR.fin).map XR.toQ = l := by
  rw [List.map_map]
  have h : XR.toQ ∘ XR.fin = id := funext XR.toQ_fin
  rw [h, List.map_id]

theorem fin_mem_map_isFin {l : List ℚ} : ∀ x ∈ l.map XR.fin, x.isFin = true := by
  intro x hx
  rw [List.mem_map] at hx
  obtain ⟨q, _, rfl⟩ := hx
  simp

theorem ipg_single_band {gq : List ℚ} {pvalues : List XR} {alpha : XR}
    {tol : ℚ} {maxIter : ℕ} {pf : Option (ℚ → ℚ)} {n A B : ℕ}
    (hn : gq.length = n)
    (hal : XR.fin 0 < alpha ∧ alpha < XR.fin 1)
    (hlen : n = pvalues.length)
    (hinc : List.Chain' (fun a b : XR => a < b) (gq.map XR.fin))
    (hmap : pvalues.map (fun p => decide (alpha ≤ p))
        = (List.range n).map (fun i => decide (A ≤ i ∧ i ≤ B)))
    (hA : 0 < A) (hAB : A ≤ B) (hB : B < n - 1) :
    invert_pvalue_grid (gq.map XR.fin) pvalues alpha false tol maxIter pf
      = .ok ⟨[(XR.fin (gq.getD A 0), XR.fin (gq.getD B 0))]⟩ := by
  have hlen' : (gq.map XR.fin).length = n := by rw [List.length_map, hn]
  rw [invert_pvalue_grid_valid hal (by rw [hlen', ← hlen]) fin_mem_map_isFin hinc]
  rw [if_neg (by rw [hlen']; omega)]
  rw [hmap, flatnonzero_map_range, filter_range_band hAB (by omega)]
  rw [show B + 1 - A = (B - A) + 1 from by omega, List.range'_succ]
  simp only [ipgSegs]
  rw [if_neg (by simp)]
  rw [segsLoop_run, show A + (B - A) = B from by omega]
  simp only [List.map_cons, List.map_nil, segToInterval, map_fin_toQ, hlen']
  have hA0 : ¬ A = 0 := by omega
  have hBn : ¬ B = n - 1 := by omega
  simp [hA0, hBn]

theorem ipg_two_bands {gq : List ℚ} {pvalues : List XR} {alpha : XR}
    {tol : ℚ} {maxIter : ℕ} {pf : Option (ℚ → ℚ)} {n A1 B1 A2 B2 : ℕ}
    (hn : gq.length = n)
    (hal : XR.fin 0 < alpha ∧ alpha < XR.fin 1)
    (hlen : n = pvalues.length)
    (hinc : List.Chain' (fun a b : XR => a < b) (gq.map XR.fin))
    (hmap : pvalues.map (fun p => decide (alpha ≤ p))
        = (List.range n).map
            (fun i => decide ((A1 ≤ i ∧ i ≤ B1) ∨ (A2 ≤ i ∧ i ≤ B2))))
    (hA1 : 0 < A1) (h11 : A1 ≤ B1) (hgap : B1 + 2 ≤ A2) (h22 : A2 ≤ B2)
    (hB2 : B2 < n - 1) :
    invert_pvalue_grid (gq.map XR.fin) pvalues alpha false tol maxIter pf
      = .ok ⟨[(XR.fin (gq.getD A1 0), XR.fin (gq.getD B1 0)),
              (XR.fin (gq.getD A2 0), XR.fin (gq.getD B2 0))]⟩ := by
  have hlen' : (gq.map XR.fin).length = n := by rw [List.length_map, hn]
  rw [invert_pvalue_grid_valid hal (by rw [hlen', ← hlen]) fin_mem_map_isFin hinc]
  rw [if_neg (by rw [hlen']; omega)]
  rw [hmap, flatnonzero_map_range,
    filter_range_two_bands h11 (by omega) h22 (by omega)]
  rw [show B1 + 1 - A1 = (B1 - A1) + 1 from by omega, List.range'_succ,
    show B2 + 1 - A2 = (B2 - A2) + 1 from by omega, List.range'_succ,
    List.cons_append]
  simp only [ipgSegs]
  rw [if_neg (by simp)]
  rw [segsLoop_break _ _ _ _ _ (by omega), segsLoop_run,
    show A1 + (B1 - A1) = B1 from by omega,
    show A2 + (B2 - A2) = B2 from by omega]
  simp only [List.map_cons, List.map_nil, segToInterval, map_fin_toQ, hlen']
  have hA10 : ¬ A1 = 0 := by omega
  have hB1n : ¬ B1 = n - 1 := by omega
  have hA20 : ¬ A2 = 0 := by omega
  have hB2n : ¬ B2 = n - 1 := by omega
  simp [hA10, hB1n, hA20, hB2n]

theorem ipg_all_accepted {grid pvalues : List XR} {alpha : XR}
    {tol : ℚ} {maxIter : ℕ} {pf : Option (ℚ → ℚ)}
    (hne : grid ≠ [])
    (hal : XR.fin 0 < alpha ∧ alpha < XR.fin 1)
    (hlen : grid.length = pvalues.length)
    (hfin : ∀ x ∈ grid, x.isFin = true)
    (hinc : List.Chain' (fun a b : XR => a < b) grid)
    (hacc : ∀ p ∈ pvalues, alpha ≤ p) :
    invert_pvalue_grid grid pvalues alpha false tol maxIter pf
      = .ok ⟨[(XR.negInf, XR.posInf)]⟩ := by
  have h0 : grid.length ≠ 0 := by
    intro h
    exact hne (List.length_eq_zero.mp h)
  rw [invert_pvalue_grid_valid hal hlen hfin hinc, if_neg h0]
  have htrue : flatnonzero (pvalues.map (fun p => decide (alpha ≤ p)))
      = List.range pvalues.length := by
    rw [flatnonzero_all_true, List.length_map]
    intro b hb
    rw [List.mem_map] at hb
    obtain ⟨p, hp, rfl⟩ := hb
    simpa using hacc p hp
  rw [htrue, List.range_eq_range',
    show pvalues.length = (pvalues.length - 1) + 1 from by omega,
    List.range'_succ]
  simp only [ipgSegs]
  rw [if_neg (by simp)]
  rw [show (0:ℕ) + 1 = 1 from rfl, segsLoop_run]
  simp only [List.map_cons, List.map_nil, segToInterval]
  have he : (0 : ℕ) + (pvalues.length - 1) = grid.length - 1 := by omega
  simp [he]

/-- Arithmetic characterization of acceptance for the first literal grid
scenario: on the n-point uniform grid over [-2, 2], the synthetic p-value
1{|beta| ≤ 1} is ≥ 1/2 exactly on a contiguous index band. -/
theorem band1_iff {n i : ℕ} (hn : 401 ≤ n) (hi : i < n) :
    |(-2 : ℚ) + (2 - -2) * (i : ℚ) / ((n : ℚ) - 1)| ≤ 1
      ↔ ((n - 1 + 3) / 4 ≤ i ∧ i ≤ 3 * (n - 1) / 4) := by
  set m : ℕ := n - 1 with hm
  have hm1 : ((n : ℚ) - 1) = (m : ℚ) := by
    rw [hm]
    rw [Nat.cast_sub (by omega)]
    norm_num
  have hmpos : (0 : ℚ) < (m : ℚ) := by
    have : 0 < m := by omega
    exact_mod_cast this
  have hx : (-2 : ℚ) + (2 - -2) * (i : ℚ) / ((n : ℚ) - 1)
      = -2 + 4 * (i : ℚ) / (m : ℚ) := by
    rw [hm1]
    ring
  rw [hx, abs_le]
  constructor
  · rintro ⟨h1, h2⟩
    have e1 : (m : ℚ) ≤ 4 * i := by
      have h1' : (1 : ℚ) ≤ 4 * (i : ℚ) / (m : ℚ) := by linarith
      have := (le_div_iff₀ hmpos).mp h1'
      linarith
    have e2 : (4 : ℚ) * i ≤ 3 * m := by
      have h2' : 4 * (i : ℚ) / (m : ℚ) ≤ 3 := by linarith
      have := (div_le_iff₀ hmpos).mp h2'
      linarith
    have e1' : m ≤ 4 * i := by exact_mod_cast e1
    have e2' : 4 * i ≤ 3 * m := by exact_mod_cast e2
    constructor
    · omega
    · omega
  · rintro ⟨h1, h2⟩
    have e1' : m ≤ 4 * i := by omega
    have e2' : 4 * i ≤ 3 * m := by omega
    have e1 : (m : ℚ) ≤ 4 * i := by exact_mod_cast e1'
    have e2 : (4 : ℚ) * i ≤ 3 * m := by exact_mod_cast e2'
    have d1 : (1 : ℚ) ≤ 4 * (i : ℚ) / (m : ℚ) := by
      rw [le_div_iff₀ hmpos]
      linarith
    have d2 : 4 * (i : ℚ) / (m : ℚ) ≤ 3 := by
      rw [div_le_iff₀ hmpos]
      linarith
    constructor
    · linarith
    · linarith

/-- Arithmetic characterization of acceptance for the second literal grid
scenario: on the n-point uniform grid over [-3, 3], the p-value
1{beta in [-2,-1] union [1,2]} is ≥ 1/2 exactly on two index bands. -/
theorem band2_iff {n i : ℕ} (hn : 301 ≤ n) (hi : i < n) :
    (((-2 : ℚ) ≤ -3 + (3 - -3) * (i : ℚ) / ((n : ℚ) - 1)
          ∧ (-3 : ℚ) + (3 - -3) * (i : ℚ) / ((n : ℚ) - 1) ≤ -1)
        ∨ ((1 : ℚ) ≤ -3 + (3 - -3) * (i : ℚ) / ((n : ℚ) - 1)
          ∧ (-3 : ℚ) + (3 - -3) * (i : ℚ) / ((n : ℚ) - 1) ≤ 2))
      ↔ (((n - 1 + 5) / 6 ≤ i ∧ i ≤ 2 * (n - 1) / 6)
          ∨ ((4 * (n - 1) + 5) / 6 ≤ i ∧ i ≤ 5 * (n - 1) / 6)) := by
  set m : ℕ := n - 1 with hm
  have hm1 : ((n : ℚ) - 1) = (m : ℚ) := by
    rw [hm, Nat.cast_sub (by omega)]
    norm_num
  have hmpos : (0 : ℚ) < (m : ℚ) := by
    have : 0 < m := by omega
    exact_mod_cast this
  have hx : (-3 : ℚ) + (3 - -3) * (i : ℚ) / ((n : ℚ) - 1)
      = -3 + 6 * (i : ℚ) / (m : ℚ) := by
    rw [hm1]
    ring
  rw [hx]
  have key : ∀ c : ℚ, (c ≤ -3 + 6 * (i : ℚ) / (m : ℚ) ↔ (c + 3) * m ≤ 6 * i)
      ∧ (-3 + 6 * (i : ℚ) / (m : ℚ) ≤ c ↔ 6 * (i : ℚ) ≤ (c + 3) * m) := by
    intro c
    constructor
    · rw [show (c ≤ -3 + 6 * (i : ℚ) / (m : ℚ)) ↔ (c + 3 ≤ 6 * (i : ℚ) / (m : ℚ)) from by
        constructor <;> intro h <;> linarith]
      rw [le_div_iff₀ hmpos]
    · rw [show (-3 + 6 * (i : ℚ) / (m : ℚ) ≤ c) ↔ (6 * (i : ℚ) / (m : ℚ) ≤ c + 3) from by
        constructor <;> intro h <;> linarith]
      rw [div_le_iff₀ hmpos]
  rw [(key (-2)).1, (key (-1)).2, (key 1).1, (key 2).2]
  have c1 : ((-2 : ℚ) + 3) * m ≤ 6 * i ↔ (m : ℚ) ≤ 6 * i := by
    constructor <;> intro h <;> linarith
  have c2 : 6 * (i : ℚ) ≤ ((-1 : ℚ) + 3) * m ↔ 6 * (i : ℚ) ≤ 2 * m := by
    constructor <;> intro h <;> linarith
  have c3 : ((1 : ℚ) + 3) * m ≤ 6 * i ↔ (4 : ℚ) * m ≤ 6 * i := by
    constructor <;> intro h <;> linarith
  have c4 : 6 * (i : ℚ) ≤ ((2 : ℚ) + 3) * m ↔ 6 * (i : ℚ) ≤ 5 * m := by
    constructor <;> intro h <;> linarith
  rw [c1, c2, c3, c4]
  have n1 : (m : ℚ) ≤ 6 * i ↔ m ≤ 6 * i := by exact_mod_cast Iff.rfl
  have n2 : 6 * (i : ℚ) ≤ 2 * m ↔ 6 * i ≤ 2 * m := by exact_mod_cast Iff.rfl
  have n3 : (4 : ℚ) * m ≤ 6 * i ↔ 4 * m ≤ 6 * i := by exact_mod_cast Iff.rfl
  have n4 : 6 * (i : ℚ) ≤ 5 * m ↔ 6 * i ≤ 5 * m := by exact_mod_cast Iff.rfl
  rw [n1, n2, n3, n4]
  omega

theorem linspace_length (lo hi : ℚ) (n : ℕ) : (linspace lo hi n).length = n := by
  simp [linspace]

theorem linspace_getD {lo hi : ℚ} {n i : ℕ} (h : i < n) :
    (linspace lo hi n).getD i 0 = lo + (hi - lo) * (i : ℚ) / ((n : ℚ) - 1) := by
  rw [linspace, List.getD_eq_getElem?_getD, List.getElem?_map,
    List.getElem?_range h]
  rfl

theorem linspace_chain' {lo hi : ℚ} (h : lo < hi) {n : ℕ} (hn : 1 ≤ n) :
    List.Chain' (fun a b : XR => a < b) ((linspace lo hi n).map XR.fin) := by
  rw [linspace, List.map_map]
  rw [List.chain'_map]
  obtain ⟨m, rfl⟩ : ∃ m, n = m + 1 := ⟨n - 1, by omega⟩
  rw [List.chain'_range_succ]
  intro i hilt
  simp only [Function.comp_apply, XR.fin_lt_fin]
  have hm1 : ((m + 1 : ℕ) : ℚ) - 1 = (m : ℚ) := by
    push_cast
    ring
  rw [hm1]
  have hmpos : (0 : ℚ) < (m : ℚ) := by
    have : 0 < m := by omega
    exact_mod_cast this
  have hd : (0 : ℚ) < hi - lo := sub_pos.mpr h
  have hii : ((i + 1 : ℕ) : ℚ) = (i : ℚ) + 1 := by push_cast; ring
  rw [hii]
  have hnum : (0 : ℚ) < (hi - lo) * ((i : ℚ) + 1) - (hi - lo) * (i : ℚ) := by
    nlinarith
  have hq : (0 : ℚ) <
      ((hi - lo) * ((i : ℚ) + 1) - (hi - lo) * (i : ℚ)) / (m : ℚ) :=
    div_pos hnum hmpos
  rw [sub_div] at hq
  linarith

theorem pv1_map {n : ℕ} (hn : 401 ≤ n) :
    ((linspace (-2) 2 n).map
        (fun q => XR.fin (if |q| ≤ 1 then 1 else 0))).map
        (fun p => decide (XR.fin (1/2) ≤ p))
      = (List.range n).map
          (fun i => decide ((n - 1 + 3) / 4 ≤ i ∧ i ≤ 3 * (n - 1) / 4)) := by
  rw [linspace, List.map_map, List.map_map]
  apply List.map_congr_left
  intro i hi
  rw [List.mem_range] at hi
  simp only [Function.comp_apply]
  rw [decide_eq_decide]
  by_cases hb : |(-2 : ℚ) + (2 - -2) * (i : ℚ) / ((n : ℚ) - 1)| ≤ 1
  · rw [if_pos hb, XR.fin_le_fin]
    constructor
    · intro _
      exact (band1_iff hn hi).mp hb
    · intro _
      norm_num
  · rw [if_neg hb, XR.fin_le_fin]
    constructor
    · intro h
      norm_num at h
    · intro hband
      exact absurd ((band1_iff hn hi).mpr hband) hb

theorem pv2_map {n : ℕ} (hn : 301 ≤ n) :
    ((linspace (-3) 3 n).map
        (fun q => XR.fin
          (if (-2 ≤ q ∧ q ≤ -1) ∨ (1 ≤ q ∧ q ≤ 2) then 1 else 0))).map
        (fun p => decide (XR.fin (1/2) ≤ p))
      = (List.range n).map
          (fun i => decide (((n - 1 + 5) / 6 ≤ i ∧ i ≤ 2 * (n - 1) / 6)
            ∨ ((4 * (n - 1) + 5) / 6 ≤ i ∧ i ≤ 5 * (n - 1) / 6))) := by
  rw [linspace, List.map_map, List.map_map]
  apply List.map_congr_left
  intro i hi
  rw [List.mem_range] at hi
  simp only [Function.comp_apply]
  rw [decide_eq_decide]
  by_cases hb : ((-2 : ℚ) ≤ -3 + (3 - -3) * (i : ℚ) / ((n : ℚ) - 1)
        ∧ (-3 : ℚ) + (3 - -3) * (i : ℚ) / ((n : ℚ) - 1) ≤ -1)
      ∨ ((1 : ℚ) ≤ -3 + (3 - -3) * (i : ℚ) / ((n : ℚ) - 1)
        ∧ (-3 : ℚ) + (3 - -3) * (i : ℚ) / ((n : ℚ) - 1) ≤ 2)
  · rw [if_pos hb, XR.fin_le_fin]
    constructor
    · intro _
      exact (band2_iff hn hi).mp hb
    · intro _
      norm_num
  · rw [if_neg hb, XR.fin_le_fin]
    constructor
    · intro h
      norm_num at h
    · intro hband
      exact absurd ((band2_iff hn hi).mpr hband) hb

/-- C3 counterexample grid: 401 strictly increasing points spanning [-2, 2],
with the middle 399 points packed into [-0.4975, 0.4975] so that the accepted
region never reaches ±0.99. -/
def cexGrid : List XR :=
  XR.fin (-2) ::
    ((List.range 399).map (fun i : ℕ => XR.fin (mkRat ((i : ℤ) - 199) 400)))
    ++ [XR.fin 2]

/-- The synthetic p-values 1{|beta| ≤ 1} evaluated on the counterexample
grid. -/
def cexPv : List XR := cexGrid.map (fun x => XR.fin (if |x.toQ| ≤ 1 then 1 else 0))

set_option maxRecDepth 8000 in
/-- C3, counterexample.  The claim as stated quantifies over every strictly
increasing grid spanning [-2, 2] with at least 401 points; for the
non-uniform 401-point grid cexGrid (strictly increasing, first point -2,
last point 2), with the synthetic p-value function 1{|beta| ≤ 1} and
alpha = 1/2, invert_pvalue_grid without refinement returns the single
interval [-199/400, 199/400], whose left endpoint -199/400 is not ≤ -0.99. -/
theorem claim_C3_counterexample :
    invert_pvalue_grid cexGrid cexPv (XR.fin (mkRat 1 2)) false 1 80 none
        = .ok ⟨[(XR.fin (mkRat (-199) 400), XR.fin (mkRat 199 400))]⟩
    ∧ cexGrid.length = 401
    ∧ List.Chain' (fun a b : XR => a < b) cexGrid
    ∧ cexGrid.getD 0 (XR.fin 0) = XR.fin (-2)
    ∧ cexGrid.getD 400 (XR.fin 0) = XR.fin 2
    ∧ (mkRat 1 2 : ℚ) = 1/2
    ∧ ¬((mkRat (-199) 400 : ℚ) ≤ -(99/100)) := by
  refine ⟨by decide, by decide, ?_, by decide, by decide, ?_, ?_⟩
  · rw [← diffsOk_iff_chain']
    decide
  · rw [Rat.mkRat_eq_divInt]
    norm_num [Rat.divInt_eq_div]
  · rw [show (-(99/100) : ℚ) = mkRat (-99) 100 from by
      rw [Rat.mkRat_eq_divInt]
      norm_num [Rat.divInt_eq_div]]
    decide

theorem lo1_bound {n : ℕ} (hn : 401 ≤ n) :
    (-2 : ℚ) + (2 - -2) * (((n - 1 + 3) / 4 : ℕ) : ℚ) / ((n : ℚ) - 1)
      ≤ -(99/100) := by
  set m := n - 1 with hm
  set A := (m + 3) / 4 with hA
  have hm1 : ((n : ℚ) - 1) = (m : ℚ) := by
    rw [hm, Nat.cast_sub (by omega)]
    norm_num
  have hmpos : (0 : ℚ) < (m : ℚ) := by
    have : 0 < m := by omega
    exact_mod_cast this
  have h400 : (400 : ℕ) * A ≤ 101 * m := by omega
  have h400q : (400 : ℚ) * (A : ℚ) ≤ 101 * (m : ℚ) := by exact_mod_cast h400
  rw [hm1]
  have hdiv : (2 - -2 : ℚ) * (A : ℚ) / (m : ℚ) ≤ 101/100 := by
    rw [div_le_iff₀ hmpos]
    nlinarith
  linarith

theorem hi1_bound {n : ℕ} (hn : 401 ≤ n) :
    (99/100 : ℚ)
      ≤ (-2 : ℚ) + (2 - -2) * ((3 * (n - 1) / 4 : ℕ) : ℚ) / ((n : ℚ) - 1) := by
  set m := n - 1 with hm
  set B := 3 * m / 4 with hB
  have hm1 : ((n : ℚ) - 1) = (m : ℚ) := by
    rw [hm, Nat.cast_sub (by omega)]
    norm_num
  have hmpos : (0 : ℚ) < (m : ℚ) := by
    have : 0 < m := by omega
    exact_mod_cast this
  have h299 : (299 : ℕ) * m ≤ 400 * B := by omega
  have h299q : (299 : ℚ) * (m : ℚ) ≤ 400 * (B : ℚ) := by exact_mod_cast h299
  rw [hm1]
  have hdiv : (299/100 : ℚ) ≤ (2 - -2 : ℚ) * (B : ℚ) / (m : ℚ) := by
    rw [le_div_iff₀ hmpos]
    nlinarith
  linarith

theorem b1_le_neg_one {n : ℕ} (hn : 301 ≤ n) :
    (-3 : ℚ) + (3 - -3) * ((2 * (n - 1) / 6 : ℕ) : ℚ) / ((n : ℚ) - 1)
      ≤ -1 := by
  set m := n - 1 with hm
  set B := 2 * m / 6 with hB
  have hm1 : ((n : ℚ) - 1) = (m : ℚ) := by
    rw [hm, Nat.cast_sub (by omega)]
    norm_num
  have hmpos : (0 : ℚ) < (m : ℚ) := by
    have : 0 < m := by omega
    exact_mod_cast this
  have h6 : (6 : ℕ) * B ≤ 2 * m := by omega
  have h6q : (6 : ℚ) * (B : ℚ) ≤ 2 * (m : ℚ) := by exact_mod_cast h6
  rw [hm1]
  have hdiv : (3 - -3 : ℚ) * (B : ℚ) / (m : ℚ) ≤ 2 := by
    rw [div_le_iff₀ hmpos]
    nlinarith
  linarith

theorem a2_ge_one {n : ℕ} (hn : 301 ≤ n) :
    (1 : ℚ)
      ≤ (-3 : ℚ) + (3 - -3) * (((4 * (n - 1) + 5) / 6 : ℕ) : ℚ) / ((n : ℚ) - 1) := by
  set m := n - 1 with hm
  set A := (4 * m + 5) / 6 with hA
  have hm1 : ((n : ℚ) - 1) = (m : ℚ) := by
    rw [hm, Nat.cast_sub (by omega)]
    norm_num
  have hmpos : (0 : ℚ) < (m : ℚ) := by
    have : 0 < m := by omega
    exact_mod_cast this
  have h6 : (4 : ℕ) * m ≤ 6 * A := by omega
  have h6q : (4 : ℚ) * (m : ℚ) ≤ 6 * (A : ℚ) := by exact_mod_cast h6
  rw [hm1]
  have hdiv : (4 : ℚ) ≤ (3 - -3 : ℚ) * (A : ℚ) / (m : ℚ) := by
    rw [le_div_iff₀ hmpos]
    nlinarith
  linarith

/-- C3 (amended): the literal grid-inversion examples hold on the uniformly
spaced (numpy.linspace) grids the specification's test scenario constructs:
for the synthetic p-value function 1{|beta| ≤ 1}, alpha = 1/2 and the uniform
grid of n ≥ 401 points spanning [-2, 2], invert_pvalue_grid without
refinement returns exactly one interval [lo, hi] with lo ≤ -0.99 and
hi ≥ 0.99; for the p-value function 1{beta in [-2,-1] or [1,2]} on the
uniform grid of n ≥ 301 points spanning [-3, 3], it returns exactly two
disjoint intervals; and for any constant p-value 0.9 (> alpha) on any
bounded strictly increasing finite grid, it returns the single unbounded
interval (-inf, +inf). -/
theorem claim_C3 :
    (∀ (n : ℕ) (tol : ℚ) (maxIter : ℕ), 401 ≤ n →
      ∃ lo hi : ℚ,
        invert_pvalue_grid ((linspace (-2) 2 n).map XR.fin)
            ((linspace (-2) 2 n).map
              (fun q => XR.fin (if |q| ≤ 1 then 1 else 0)))
            (XR.fin (1/2)) false tol maxIter none
          = .ok ⟨[(XR.fin lo, XR.fin hi)]⟩
        ∧ lo ≤ -(99/100) ∧ (99/100) ≤ hi)
    ∧ (∀ (n : ℕ) (tol : ℚ) (maxIter : ℕ), 301 ≤ n →
      ∃ a1 b1 a2 b2 : ℚ,
        invert_pvalue_grid ((linspace (-3) 3 n).map XR.fin)
            ((linspace (-3) 3 n).map
              (fun q => XR.fin
                (if (-2 ≤ q ∧ q ≤ -1) ∨ (1 ≤ q ∧ q ≤ 2) then 1 else 0)))
            (XR.fin (1/2)) false tol maxIter none
          = .ok ⟨[(XR.fin a1, XR.fin b1), (XR.fin a2, XR.fin b2)]⟩
        ∧ b1 < a2)
    ∧ (∀ (grid : List XR) (alpha : XR) (tol : ℚ) (maxIter : ℕ),
        grid ≠ [] → (∀ x ∈ grid, x.isFin = true) →
        List.Chain' (fun a b : XR => a < b) grid →
        (XR.fin 0 < alpha ∧ alpha < XR.fin 1) → alpha < XR.fin (9/10) →
        invert_pvalue_grid grid (grid.map (fun _ => XR.fin (9/10))) alpha
            false tol maxIter none
          = .ok ⟨[(XR.negInf, XR.posInf)]⟩) := by
  refine ⟨?_, ?_, ?_⟩
  · intro n tol maxIter hn
    refine ⟨(linspace (-2) 2 n).getD ((n - 1 + 3) / 4) 0,
      (linspace (-2) 2 n).getD (3 * (n - 1) / 4) 0, ?_, ?_, ?_⟩
    · exact ipg_single_band (linspace_length _ _ _) (by norm_num [XR.fin_lt_fin])
        (by rw [List.length_map, linspace_length])
        (linspace_chain' (by norm_num) (by omega)) (pv1_map hn)
        (by omega) (by omega) (by omega)
    · rw [linspace_getD (by omega)]
      exact lo1_bound hn
    · rw [linspace_getD (by omega)]
      exact hi1_bound hn
  · intro n tol maxIter hn
    refine ⟨(linspace (-3) 3 n).getD ((n - 1 + 5) / 6) 0,
      (linspace (-3) 3 n).getD (2 * (n - 1) / 6) 0,
      (linspace (-3) 3 n).getD ((4 * (n - 1) + 5) / 6) 0,
      (linspace (-3) 3 n).getD (5 * (n - 1) / 6) 0, ?_, ?_⟩
    · exact ipg_two_bands (linspace_length _ _ _) (by norm_num [XR.fin_lt_fin])
        (by rw [List.length_map, linspace_length])
        (linspace_chain' (by norm_num) (by omega)) (pv2_map hn)
        (by omega) (by omega) (by omega) (by omega) (by omega)
    · rw [linspace_getD (by omega), linspace_getD (by omega)]
      calc (-3 : ℚ) + (3 - -3) * ((2 * (n - 1) / 6 : ℕ) : ℚ) / ((n : ℚ) - 1)
          ≤ -1 := b1_le_neg_one hn
        _ < 1 := by norm_num
        _ ≤ _ := a2_ge_one hn
  · intro grid alpha tol maxIter hne hfin hinc hal hlt
    refine ipg_all_accepted hne hal (by rw [List.length_map]) hfin hinc ?_
    intro p hp
    rw [List.mem_map] at hp
    obtain ⟨x, _, rfl⟩ := hp
    exact hlt.le

/-- Witness for C3: the amended theorem applied at n = 401, n = 301, and the
concrete two-point grid [0, 1] with alpha = 1/2. -/
theorem claim_C3_witness :
    (∃ lo hi : ℚ,
      invert_pvalue_grid ((linspace (-2) 2 401).map XR.fin)
          ((linspace (-2) 2 401).map
            (fun q => XR.fin (if |q| ≤ 1 then 1 else 0)))
          (XR.fin (1/2)) false 1 80 none
        = .ok ⟨[(XR.fin lo, XR.fin hi)]⟩
      ∧ lo ≤ -(99/100) ∧ (99/100) ≤ hi)
    ∧ (∃ a1 b1 a2 b2 : ℚ,
      invert_pvalue_grid ((linspace (-3) 3 301).map XR.fin)
          ((linspace (-3) 3 301).map
            (fun q => XR.fin
              (if (-2 ≤ q ∧ q ≤ -1) ∨ (1 ≤ q ∧ q ≤ 2) then 1 else 0)))
          (XR.fin (1/2)) false 1 80 none
        = .ok ⟨[(XR.fin a1, XR.fin b1), (XR.fin a2, XR.fin b2)]⟩
      ∧ b1 < a2)
    ∧ invert_pvalue_grid [XR.fin 0, XR.fin 1]
        ([XR.fin 0, XR.fin 1].map (fun _ => XR.fin (9/10))) (XR.fin (1/2))
        false 1 80 none
      = .ok ⟨[(XR.negInf, XR.posInf)]⟩ :=
  ⟨claim_C3.1 401 1 80 (by decide),
    claim_C3.2.1 301 1 80 (by decide),
    claim_C3.2.2 [XR.fin 0, XR.fin 1] (XR.fin (1/2)) 1 80 (by decide)
      (by decide) (by simp [List.chain'_pair]) (by norm_num [XR.fin_lt_fin])
      (by norm_num [XR.fin_lt_fin])⟩

/-! ## Refinement-bracket support lemmas (claim C10) -/

theorem fin_ne_negInf (q : ℚ) : XR.fin q ≠ XR.negInf := WithBot.coe_ne_bot

theorem negInf_ne_fin (q : ℚ) : XR.negInf ≠ XR.fin q :=
  fun h => fin_ne_negInf q h.symm

theorem posInf_ne_fin (q : ℚ) : XR.posInf ≠ XR.fin q := by
  intro h
  exact WithTop.coe_ne_top (WithBot.coe_inj.mp h).symm

theorem fin_inj {a b : ℚ} (h : XR.fin a = XR.fin b) : a = b := by
  have := WithBot.coe_inj.mp h
  exact_mod_cast this

theorem bisectLoop_mem (f : ℚ → ℚ) (alpha tol : ℚ) :
    ∀ (fuel : ℕ) (fa l r : ℚ), l ≤ r →
      l ≤ bisectLoop f alpha tol fa l r fuel
        ∧ bisectLoop f alpha tol fa l r fuel ≤ r
  | 0, fa, l, r, h => by
    simp only [bisectLoop]
    constructor <;> linarith
  | fuel + 1, fa, l, r, h => by
    simp only [bisectLoop]
    have hm1 : l ≤ (l + r) / 2 := by linarith
    have hm2 : (l + r) / 2 ≤ r := by linarith
    by_cases hc : |f ((l + r) / 2) - alpha| ≤ tol ∨ |r - l| ≤ tol
    · rw [if_pos hc]
      exact ⟨hm1, hm2⟩
    · rw [if_neg hc]
      by_cases hs : fa * (f ((l + r) / 2) - alpha) ≤ 0
      · rw [if_pos hs]
        have ih := bisectLoop_mem f alpha tol fuel fa l ((l + r) / 2) hm1
        exact ⟨ih.1, ih.2.trans hm2⟩
      · rw [if_neg hs]
        have ih := bisectLoop_mem f alpha tol fuel (f ((l + r) / 2) - alpha)
          ((l + r) / 2) r hm2
        exact ⟨hm1.trans ih.1, ih.2⟩

theorem bisect_mem (pf : Option (ℚ → ℚ)) (alpha tol : ℚ) (maxIter : ℕ)
    {a b : ℚ} (h : a ≤ b) :
    a ≤ bisect pf alpha tol maxIter a b ∧ bisect pf alpha tol maxIter a b ≤ b := by
  match pf with
  | none =>
    simp only [bisect]
    constructor <;> linarith
  | some f =>
    simp only [bisect]
    by_cases h1 : f a - alpha = 0
    · rw [if_pos h1]
      exact ⟨le_refl a, h⟩
    · rw [if_neg h1]
      by_cases h2 : f b - alpha = 0
      · rw [if_pos h2]
        exact ⟨h, le_refl b⟩
      · rw [if_neg h2]
        by_cases h3 : (f a - alpha) * (f b - alpha) > 0
        · rw [if_pos h3]
          constructor <;> linarith
        · rw [if_neg h3]
          exact bisectLoop_mem f alpha tol maxIter (f a - alpha) a b h

theorem bisect_midpoint_fallback (f : ℚ → ℚ) (alpha tol : ℚ) (maxIter : ℕ)
    (a b : ℚ) (h : (f a - alpha) * (f b - alpha) > 0) :
    bisect (some f) alpha tol maxIter a b = (a + b) / 2 := by
  simp only [bisect]
  have h1 : ¬ f a - alpha = 0 := by
    intro h0
    rw [h0, zero_mul] at h
    exact lt_irrefl 0 h
  have h2 : ¬ f b - alpha = 0 := by
    intro h0
    rw [h0, mul_zero] at h
    exact lt_irrefl 0 h
  rw [if_neg h1, if_neg h2, if_pos h]

theorem bisectLoopCount_spec (f : ℚ → ℚ) (alpha tol : ℚ) :
    ∀ (fuel : ℕ) (fa l r : ℚ),
      (bisectLoopCount f alpha tol fa l r fuel).2 ≤ fuel
        ∧ (bisectLoopCount f alpha tol fa l r fuel).1
            = bisectLoop f alpha tol fa l r fuel
  | 0, fa, l, r => by
    simp [bisectLoopCount, bisectLoop]
  | fuel + 1, fa, l, r => by
    simp only [bisectLoopCount, bisectLoop]
    by_cases hc : |f ((l + r) / 2) - alpha| ≤ tol ∨ |r - l| ≤ tol
    · rw [if_pos hc, if_pos hc]
      exact ⟨by omega, rfl⟩
    · rw [if_neg hc, if_neg hc]
      by_cases hs : fa * (f ((l + r) / 2) - alpha) ≤ 0
      · rw [if_pos hs, if_pos hs]
        have ih := bisectLoopCount_spec f alpha tol fuel fa l ((l + r) / 2)
        exact ⟨by omega, ih.2⟩
      · rw [if_neg hs, if_neg hs]
        have ih := bisectLoopCount_spec f alpha tol fuel
          (f ((l + r) / 2) - alpha) ((l + r) / 2) r
        exact ⟨by omega, ih.2⟩

theorem grid_eq_map_fin {grid : List XR} (hfin : ∀ x ∈ grid, x.isFin = true) :
    grid = (grid.map XR.toQ).map XR.fin := by
  rw [List.map_map]
  conv_lhs => rw [← List.map_id grid]
  apply List.map_congr_left
  intro x hx
  obtain ⟨q, rfl⟩ := (XR.isFin_iff x).mp (hfin x hx)
  rfl

theorem chain_toQ {grid : List XR} (hfin : ∀ x ∈ grid, x.isFin = true)
    (hinc : List.Chain' (fun a b : XR => a < b) grid) :
    List.Chain' (fun a b : ℚ => a < b) (grid.map XR.toQ) := by
  have hg := grid_eq_map_fin hfin
  rw [hg, List.chain'_map] at hinc
  exact hinc.imp (fun a b h => XR.fin_lt_fin.mp h)

theorem sorted_getD_le {gq : List ℚ}
    (hch : List.Chain' (fun a b : ℚ => a < b) gq)
    {i j : ℕ} (hij : i ≤ j) (hj : j < gq.length) :
    gq.getD i 0 ≤ gq.getD j 0 := by
  rcases eq_or_lt_of_le hij with rfl | hlt
  · exact le_refl _
  · have hp : List.Pairwise (fun a b : ℚ => a < b) gq :=
      List.chain'_iff_pairwise.mp hch
    rw [List.pairwise_iff_get] at hp
    have hi : i < gq.length := lt_trans hlt hj
    have hr := hp ⟨i, hi⟩ ⟨j, hj⟩ (Fin.mk_lt_mk.mpr hlt)
    rw [List.getD_eq_getElem?_getD, List.getElem?_eq_getElem hi,
      List.getD_eq_getElem?_getD, List.getElem?_eq_getElem hj]
    simpa [List.get_eq_getElem] using hr.le

theorem segsLoop_bounds {N : ℕ} :
    ∀ (l : List ℕ) (start prev : ℕ), start ≤ prev → prev < N →
      List.Chain (fun a b : ℕ => a < b) prev l → (∀ j ∈ l, j < N) →
      ∀ se ∈ segsLoop start prev l, se.1 ≤ se.2 ∧ se.2 < N
  | [], start, prev, h1, h2, _, _ => by
    intro se hse
    rw [segsLoop] at hse
    rw [List.mem_singleton] at hse
    subst hse
    exact ⟨h1, h2⟩
  | j :: rest, start, prev, h1, h2, hch, hlt => by
    rw [List.chain_cons] at hch
    rw [segsLoop]
    by_cases hj : j = prev + 1
    · rw [if_pos hj]
      exact segsLoop_bounds rest start j (by omega)
        (hlt j (List.mem_cons_self j rest)) hch.2
        (fun k hk => hlt k (List.mem_cons_of_mem j hk))
    · rw [if_neg hj]
      intro se hse
      rcases List.mem_cons.mp hse with rfl | hse
      · exact ⟨h1, h2⟩
      · exact segsLoop_bounds rest j j (le_refl j)
          (hlt j (List.mem_cons_self j rest)) hch.2
          (fun k hk => hlt k (List.mem_cons_of_mem j hk)) se hse

theorem flatnonzero_lt_length {l : List Bool} :
    ∀ i ∈ flatnonzero l, i < l.length := by
  intro i hi
  unfold flatnonzero at hi
  rw [List.mem_filter] at hi
  exact List.mem_range.mp hi.1

theorem flatnonzero_pairwise (l : List Bool) :
    List.Pairwise (fun a b : ℕ => a < b) (flatnonzero l) := by
  unfold flatnonzero
  exact (List.pairwise_lt_range _).sublist (List.filter_sublist _)

/-- The full bracket property of one produced interval, stated relative to
the rational grid gq of length n and the segment (s, e) that produced it. -/
def BracketProp (gq : List ℚ) (n : ℕ) (iv : XR × XR) (s e : ℕ) : Prop :=
  s ≤ e ∧ e < n
  ∧ iv.1 ≤ iv.2
  ∧ (∀ q : ℚ, iv.1 = XR.fin q ∨ iv.2 = XR.fin q →
      gq.getD 0 0 ≤ q ∧ q ≤ gq.getD (n - 1) 0)
  ∧ (iv.1 = XR.negInf → s = 0)
  ∧ (∀ q : ℚ, iv.1 = XR.fin q →
      0 < s ∧ gq.getD (s - 1) 0 ≤ q ∧ q ≤ gq.getD s 0)
  ∧ (iv.2 = XR.posInf → e = n - 1)
  ∧ (∀ q : ℚ, iv.2 = XR.fin q →
      gq.getD e 0 ≤ q ∧ q ≤ gq.getD (e + 1) 0)

theorem segToInterval_eq (gq : List ℚ) (n : ℕ) (tol : ℚ) (maxIter : ℕ)
    (pf : Option (ℚ → ℚ)) (alphaQ : ℚ) (s e : ℕ) :
    segToInterval gq n true tol maxIter pf alphaQ (s, e)
      = ((if s = 0 then XR.negInf
          else XR.fin
            (bisect pf alphaQ tol maxIter (gq.getD (s - 1) 0) (gq.getD s 0))),
        (if e = n - 1 then XR.posInf
          else XR.fin
            (bisect pf alphaQ tol maxIter (gq.getD e 0) (gq.getD (e + 1) 0)))) := by
  simp only [segToInterval]
  by_cases hs : s = 0 <;> by_cases he : e = n - 1 <;> simp [hs, he]

theorem segToInterval_bracket {gq : List ℚ} {n : ℕ}
    (hch : List.Chain' (fun a b : ℚ => a < b) gq) (hlen : gq.length = n)
    (tol : ℚ) (maxIter : ℕ) (pf : Option (ℚ → ℚ)) (alphaQ : ℚ)
    {s e : ℕ} (hse : s ≤ e) (hen : e < n) :
    BracketProp gq n (segToInterval gq n true tol maxIter pf alphaQ (s, e)) s e := by
  rw [segToInterval_eq]
  have hmono : ∀ {i j : ℕ}, i ≤ j → j < n → gq.getD i 0 ≤ gq.getD j 0 :=
    fun hij hj => sorted_getD_le hch hij (by omega)
  unfold BracketProp
  by_cases hs0 : s = 0 <;> by_cases hen1 : e = n - 1
  · rw [if_pos hs0, if_pos hen1]
    refine ⟨hse, hen, bot_le, ?_, fun _ => hs0, ?_, fun _ => hen1, ?_⟩
    · rintro q (h | h)
      · exact absurd h (negInf_ne_fin q)
      · exact absurd h (posInf_ne_fin q)
    · intro q h
      exact absurd h (negInf_ne_fin q)
    · intro q h
      exact absurd h (posInf_ne_fin q)
  · rw [if_pos hs0, if_neg hen1]
    have hre : gq.getD e 0 ≤ gq.getD (e + 1) 0 := hmono (by omega) (by omega)
    have hmem := bisect_mem pf alphaQ tol maxIter hre
    refine ⟨hse, hen, bot_le, ?_, fun _ => hs0, ?_, ?_, ?_⟩
    · rintro q (h | h)
      · exact absurd h (negInf_ne_fin q)
      · have hq := fin_inj h.symm
        subst hq
        exact ⟨(hmono (by omega) (by omega)).trans hmem.1,
          hmem.2.trans (hmono (by omega) (by omega))⟩
    · intro q h
      exact absurd h (negInf_ne_fin q)
    · intro h
      exact absurd h.symm (posInf_ne_fin _)
    · intro q h
      have hq := fin_inj h.symm
      subst hq
      exact hmem
  · rw [if_neg hs0, if_pos hen1]
    have hle : gq.getD (s - 1) 0 ≤ gq.getD s 0 := hmono (by omega) (by omega)
    have hmem := bisect_mem pf alphaQ tol maxIter hle
    refine ⟨hse, hen, ?_, ?_, ?_, ?_, fun _ => hen1, ?_⟩
    · exact XR.le_posInf _
    · rintro q (h | h)
      · have hq := fin_inj h.symm
        subst hq
        exact ⟨(hmono (by omega) (by omega)).trans hmem.1,
          hmem.2.trans (hmono (by omega) (by omega))⟩
      · exact absurd h (posInf_ne_fin q)
    · intro h
      exact absurd h.symm (negInf_ne_fin _)
    · intro q h
      have hq := fin_inj h.symm
      subst hq
      exact ⟨by omega, hmem⟩
    · intro q h
      exact absurd h (posInf_ne_fin q)
  · rw [if_neg hs0, if_neg hen1]
    have hle : gq.getD (s - 1) 0 ≤ gq.getD s 0 := hmono (by omega) (by omega)
    have hre : gq.getD e 0 ≤ gq.getD (e + 1) 0 := hmono (by omega) (by omega)
    have hmemL := bisect_mem pf alphaQ tol maxIter hle
    have hmemR := bisect_mem pf alphaQ tol maxIter hre
    refine ⟨hse, hen, ?_, ?_, ?_, ?_, ?_, ?_⟩
    · rw [XR.fin_le_fin]
      exact hmemL.2.trans ((hmono hse (by omega)).trans hmemR.1)
    · rintro q (h | h)
      · have hq := fin_inj h.symm
        subst hq
        exact ⟨(hmono (by omega) (by omega)).trans hmemL.1,
          hmemL.2.trans (hmono (by omega) (by omega))⟩
      · have hq := fin_inj h.symm
        subst hq
        exact ⟨(hmono (by omega) (by omega)).trans hmemR.1,
          hmemR.2.trans (hmono (by omega) (by omega))⟩
    · intro h
      exact absurd h.symm (negInf_ne_fin _)
    · intro q h
      have hq := fin_inj h.symm
      subst hq
      exact ⟨by omega, hmemL⟩
    · intro h
      exact absurd h.symm (posInf_ne_fin _)
    · intro q h
      have hq := fin_inj h.symm
      subst hq
      exact hmemR

theorem ipg_refine_bracket {grid pvalues : List XR} {alpha : XR} {tol : ℚ}
    {maxIter : ℕ} {pf : ℚ → ℚ} {ivs : IntervalSet}
    (h : invert_pvalue_grid grid pvalues alpha true tol maxIter (some pf)
      = .ok ivs) :
    ∀ iv ∈ ivs.intervals, ∃ s e : ℕ,
      BracketProp (grid.map XR.toQ) grid.length iv s e := by
  unfold invert_pvalue_grid at h
  split_ifs at h with h1 h2 h3 h4 h5
  · rw [Except.ok.injEq] at h
    rw [← h]
    intro iv hiv
    exact absurd hiv (List.not_mem_nil iv)
  · have hfin : ∀ x ∈ grid, x.isFin = true := by
      intro x hx
      by_contra hxf
      apply h4
      rw [List.any_eq_true]
      exact ⟨x, hx, by simp [Bool.eq_false_iff.mpr hxf]⟩
    have hinc : List.Chain' (fun a b : XR => a < b) grid := by
      rw [← diffsOk_iff_chain']
      rcases hd : diffsOk grid with _ | _
      · exact absurd (by rw [hd]; rfl) h5
      · rfl
    have hchq : List.Chain' (fun a b : ℚ => a < b) (grid.map XR.toQ) :=
      chain_toQ hfin hinc
    have hleneq : grid.length = pvalues.length := not_not.mp h2
    rcases hidx : flatnonzero (pvalues.map (fun p => decide (alpha ≤ p)))
      with _ | ⟨i0, rest⟩
    · rw [hidx] at h
      simp only [ipgSegs, Except.ok.injEq] at h
      rw [← h]
      intro iv hiv
      exact absurd hiv (List.not_mem_nil iv)
    · rw [hidx] at h
      simp only [ipgSegs, Option.isNone_some] at h
      rw [if_neg (by simp), Except.ok.injEq] at h
      rw [← h]
      intro iv hiv
      rw [List.mem_map] at hiv
      obtain ⟨⟨s, e⟩, hmem, rfl⟩ := hiv
      have hNlen : (pvalues.map (fun p => decide (alpha ≤ p))).length
          = grid.length := by
        rw [List.length_map, hleneq]
      have hi0mem : i0 ∈ flatnonzero (pvalues.map (fun p => decide (alpha ≤ p))) := by
        rw [hidx]
        exact List.mem_cons_self i0 rest
      have hi0 : i0 < grid.length := by
        have := flatnonzero_lt_length i0 hi0mem
        omega
      have hpw := flatnonzero_pairwise (pvalues.map (fun p => decide (alpha ≤ p)))
      rw [hidx] at hpw
      have hchain : List.Chain (fun a b : ℕ => a < b) i0 rest :=
        List.chain_iff_pairwise.mpr hpw
      have hrest : ∀ j ∈ rest, j < grid.length := by
        intro j hj
        have : j ∈ flatnonzero (pvalues.map (fun p => decide (alpha ≤ p))) := by
          rw [hidx]
          exact List.mem_cons_of_mem i0 hj
        have := flatnonzero_lt_length j this
        omega
      have hbounds := segsLoop_bounds rest i0 i0 (le_refl i0) hi0 hchain hrest
        (s, e) hmem
      exact ⟨s, e, segToInterval_bracket hchq (List.length_map _ _) tol maxIter
        (some pf) alpha.toQ hbounds.1 hbounds.2⟩

/-- C10: for every grid, p-value array, and pvalue_func with which
invert_pvalue_grid succeeds under refine=True, each produced interval comes
from an accepted segment [s, e] with s ≤ e; its bounds satisfy lower ≤ upper;
a -inf lower bound occurs only for s = 0 and a finite (refined) lower bound
lies in the closed cell [grid[s-1], grid[s]] (symmetrically for the upper
bound), so all finite endpoints lie within [grid[0], grid[-1]]; the bisect
helper returns the midpoint fallback, rather than failing, when the bracket
does not sign-change; and the bisection loop body runs at most
max_refine_iter times. -/
theorem claim_C10 :
    (∀ (grid pvalues : List XR) (alpha : XR) (tol : ℚ) (maxIter : ℕ)
        (pf : ℚ → ℚ) (ivs : IntervalSet),
      invert_pvalue_grid grid pvalues alpha true tol maxIter (some pf)
        = .ok ivs →
      ∀ iv ∈ ivs.intervals, ∃ s e : ℕ,
        BracketProp (grid.map XR.toQ) grid.length iv s e)
    ∧ (∀ (f : ℚ → ℚ) (alpha tol : ℚ) (maxIter : ℕ) (a b : ℚ),
        (f a - alpha) * (f b - alpha) > 0 →
        bisect (some f) alpha tol maxIter a b = (a + b) / 2)
    ∧ (∀ (f : ℚ → ℚ) (alpha tol fa l r : ℚ) (fuel : ℕ),
        (bisectLoopCount f alpha tol fa l r fuel).2 ≤ fuel
        ∧ (bisectLoopCount f alpha tol fa l r fuel).1
            = bisectLoop f alpha tol fa l r fuel) :=
  ⟨fun _ _ _ _ _ _ _ h => ipg_refine_bracket h,
    bisect_midpoint_fallback,
    fun f alpha tol fa l r fuel => bisectLoopCount_spec f alpha tol fuel fa l r⟩

/-- Witness for C10: a concrete inversion under refine=True on the grid
[0, 1, 2] whose single accepted segment spans the whole grid, plus a
concrete midpoint fallback where the bracket does not sign-change. -/
theorem claim_C10_witness :
    (∀ iv ∈ (⟨[(XR.negInf, XR.posInf)]⟩ : IntervalSet).intervals,
        ∃ s e : ℕ,
          BracketProp (([XR.fin 0, XR.fin 1, XR.fin 2] : List XR).map XR.toQ)
            ([XR.fin 0, XR.fin 1, XR.fin 2] : List XR).length iv s e)
    ∧ ((fun _ : ℚ => (1 : ℚ)) 0 - 0) * ((fun _ : ℚ => (1 : ℚ)) 1 - 0) > 0
    ∧ bisect (some (fun _ : ℚ => (1 : ℚ))) 0 1 5 0 1 = (0 + 1) / 2 :=
  ⟨claim_C10.1 [XR.fin 0, XR.fin 1, XR.fin 2]
      [XR.fin 1, XR.fin 1, XR.fin 1] (XR.fin (mkRat 1 2)) 1 80
      (fun _ => mkRat 1 2) ⟨[(XR.negInf, XR.posInf)]⟩ (by decide),
    by norm_num,
    claim_C10.2.1 (fun _ : ℚ => (1 : ℚ)) 0 1 5 0 1 (by norm_num)⟩

/-! ## CLR p-value degenerate paths (src/ivrobust/clr.py, lines 43-78) -/

/-- Model of _clr_pvalue.  The chi-square survival function (scipy
chi2.sf) and the conditional quadrature (scipy.integrate.quad of the
incomplete-gamma integrand against the algebraic Beta weight on [1-a, 1],
of which the source keeps res[0]) are transcendental scipy calls, modelled
as the oracles chi2sf and quad; the branch structure, which is what claim
C2 is about, is translated literally.  The source's p = 1, q = k, alpha,
beta and const only feed the quadrature branch. -/
def clr_pvalue (chi2sf : ℚ → ℕ → ℚ) (quad : ℚ → ℕ → ℚ → ℚ)
    (stat : ℚ) (k : ℕ) (lambda1 : ℚ) : ℚ :=
  if stat ≤ 0 then 1
  else if k ≤ 1 ∨ lambda1 ≤ 0 then chi2sf stat k
  else
    let a := lambda1 / (stat + lambda1)
    if a ≤ 0 then chi2sf stat k
    else 1 - quad stat k lambda1

/-- C2: for every CLR p-value computation, a statistic ≤ 0 yields exactly
p = 1; otherwise k_instr = 1 or lambda1 ≤ 0 yields exactly the chi-square
(k_instr) survival function of the statistic; and for k_instr = 1 the CLR
p-value equals the chi-square(1) survival function of its statistic
outright (using that the survival function is 1 at nonpositive arguments,
as scipy's is).  All degenerate paths are total: no exception is raised. -/
theorem claim_C2 (chi2sf : ℚ → ℕ → ℚ) (quad : ℚ → ℕ → ℚ → ℚ)
    (stat : ℚ) (k : ℕ) (lambda1 : ℚ) :
    (stat ≤ 0 → clr_pvalue chi2sf quad stat k lambda1 = 1)
    ∧ (0 < stat → (k = 1 ∨ lambda1 ≤ 0) →
        clr_pvalue chi2sf quad stat k lambda1 = chi2sf stat k)
    ∧ ((∀ x : ℚ, x ≤ 0 → chi2sf x 1 = 1) → k = 1 →
        clr_pvalue chi2sf quad stat k lambda1 = chi2sf stat 1) := by
  refine ⟨?_, ?_, ?_⟩
  · intro h
    rw [clr_pvalue, if_pos h]
  · intro hpos hdeg
    rw [clr_pvalue, if_neg (not_le.mpr hpos), if_pos ?_]
    rcases hdeg with rfl | h
    · exact Or.inl (le_refl 1)
    · exact Or.inr h
  · intro hsf hk
    subst hk
    by_cases h : stat ≤ 0
    · rw [clr_pvalue, if_pos h, hsf stat h]
    · rw [clr_pvalue, if_neg h, if_pos (Or.inl (le_refl 1))]

/-- Witness for C2: the three degenerate paths evaluated at concrete
statistics and oracles. -/
theorem claim_C2_witness :
    ((-1 : ℚ) ≤ 0
      ∧ clr_pvalue (fun _ _ => 0) (fun _ _ _ => 0) (-1) 2 1 = 1)
    ∧ ((0 : ℚ) < 2 ∧ ((2 : ℚ) ≤ 0 → False)
      ∧ clr_pvalue (fun _ _ => 0) (fun _ _ _ => 0) 2 1 5
          = (fun _ _ => (0 : ℚ)) (2 : ℚ) 1)
    ∧ clr_pvalue (fun x _ => if x ≤ 0 then (1 : ℚ) else 0) (fun _ _ _ => 0)
        (-3) 1 7
      = (fun x _ => if x ≤ 0 then (1 : ℚ) else 0) (-3 : ℚ) 1 :=
  ⟨⟨by norm_num,
      (claim_C2 (fun _ _ => 0) (fun _ _ _ => 0) (-1) 2 1).1 (by norm_num)⟩,
    ⟨by norm_num, by norm_num,
      (claim_C2 (fun _ _ => 0) (fun _ _ _ => 0) 2 1 5).2.1 (by norm_num)
        (Or.inl rfl)⟩,
    (claim_C2 (fun x _ => if x ≤ 0 then (1 : ℚ) else 0) (fun _ _ _ => 0)
        (-3) 1 7).2.2
      (fun x hx => by rw [if_pos hx]) rfl⟩

/-! ## Exact-arithmetic linear algebra layer

`qInv` is the adjugate-based, computable matrix inverse over ℚ; it coincides
with Mathlib's junk-value inverse `A⁻¹`, so `qInv A * A = 1` exactly when
`A.det` is a unit.  It is the exact-arithmetic model of `numpy.linalg.lstsq`
(via the normal equations), `numpy.linalg.solve` and `_pinv_sym` on
full-column-rank input, which is what the theorems below assume. -/

open Matrix

/-- Computable inverse of a rational matrix (adjugate over determinant). -/
def qInv {m : Type} [Fintype m] [DecidableEq m] (A : Matrix m m ℚ) : Matrix m m ℚ :=
  (A.det)⁻¹ • A.adjugate

theorem qInv_eq {m : Type} [Fintype m] [DecidableEq m] (A : Matrix m m ℚ) :
    qInv A = A⁻¹ := by
  rw [Matrix.inv_def, Ring.inverse_eq_inv]
  rfl

theorem inv_triple {m : Type} [Fintype m] [DecidableEq m] (P A Q : Matrix m m ℚ) :
    (P * A * Q)⁻¹ = Q⁻¹ * A⁻¹ * P⁻¹ := by
  rw [Matrix.mul_inv_rev, Matrix.mul_inv_rev, Matrix.mul_assoc]

/-- partial_out (weakiv_utils.py lines 29-48), for one right-hand-side block:
residualize the columns of `v` on `x` by least squares, modelled by the
normal-equations solution.  (With zero columns in `x` the product below is
the zero matrix, matching the source's early return of `args` unchanged.) -/
def residualize {n p : ℕ} {c : Type} [Fintype c] (x : Matrix (Fin n) (Fin p) ℚ)
    (v : Matrix (Fin n) c ℚ) : Matrix (Fin n) c ℚ :=
  v - x * (qInv (xᵀ * x) * (xᵀ * v))

/-- proj (weakiv_utils.py lines 51-69): fitted values from regressing the
columns of `v` on `Z`. -/
def projOn {n : ℕ} {c m : Type} [Fintype c] [Fintype m] [DecidableEq m]
    (Z : Matrix (Fin n) m ℚ) (v : Matrix (Fin n) c ℚ) : Matrix (Fin n) c ℚ :=
  Z * (qInv (Zᵀ * Z) * (Zᵀ * v))

/-- The normalized covariance regimes of covariance.py (the image of
_normalize_cov_type; small_sample = True, its default, is assumed
throughout, and the warning side channels of the covariance layer are not
modelled). -/
inductive CovKind
  | unadjusted
  | hc0
  | hc1
  | hc2
  | hc3
  | cluster
  | hac
deriving DecidableEq

/-- HAC kernels recognized by _kernel_weight. -/
inductive HacKernel
  | bartlett
  | parzen
deriving DecidableEq

/-- _kernel_weight (covariance.py lines 147-160). -/
def kernelWeight (lag L : ℕ) (ker : HacKernel) : ℚ :=
  if L = 0 then 1
  else
    let x : ℚ := (lag : ℚ) / ((L : ℚ) + 1)
    match ker with
    | HacKernel.bartlett => 1 - x
    | HacKernel.parzen =>
        if x ≤ 1 / 2 then 1 - 6 * x ^ 2 + 6 * x ^ 3 else 2 * (1 - x) ^ 3

/-- _leverage (covariance.py lines 124-127): diagonal of the hat matrix,
clipped to [0, 1]. -/
def leverage {n : ℕ} {m : Type} [Fintype m] [DecidableEq m]
    (X : Matrix (Fin n) m ℚ) (i : Fin n) : ℚ :=
  min (max ((X * qInv (Xᵀ * X) * Xᵀ) i i) 0) 1

/-- The HC2/HC3 residual scale np.clip(1 - h, 1e-12, None). -/
def hcScale {n : ℕ} {m : Type} [Fintype m] [DecidableEq m]
    (X : Matrix (Fin n) m ℚ) (i : Fin n) : ℚ :=
  max (1 - leverage X i) (1 / 1000000000000)

/-- Elementwise row scaling X2 * w (numpy broadcast of a column against X). -/
def rowScale {n : ℕ} {m : Type} (X : Matrix (Fin n) m ℚ) (w : Fin n → ℚ) :
    Matrix (Fin n) m ℚ :=
  Matrix.of fun i j => X i j * w i

/-- The heteroskedasticity meat X2.T @ (X2 * w). -/
def weightedMeat {n : ℕ} {m : Type} [Fintype m] (X : Matrix (Fin n) m ℚ)
    (w : Fin n → ℚ) : Matrix m m ℚ :=
  Xᵀ * rowScale X w

/-- One cluster score Xg.T @ rg (rows outside the cluster masked to zero). -/
def clusterScore {n : ℕ} {m : Type} [Fintype m] (X : Matrix (Fin n) m ℚ)
    (r : Matrix (Fin n) (Fin 1) ℚ) (cl : Fin n → ℕ) (c : ℕ) :
    Matrix m (Fin 1) ℚ :=
  Xᵀ * Matrix.of fun i j => if cl i = c then r i j else 0

/-- The cluster meat: sum over clusters of s1 @ s2.T. -/
def clusterMeat {n : ℕ} {m : Type} [Fintype m] (X : Matrix (Fin n) m ℚ)
    (r1 r2 : Matrix (Fin n) (Fin 1) ℚ) (cl : Fin n → ℕ) : Matrix m m ℚ :=
  ∑ c ∈ Finset.image cl Finset.univ,
    clusterScore X r1 cl c * (clusterScore X r2 cl c)ᵀ

/-- The number of distinct clusters G. -/
def nClusters {n : ℕ} (cl : Fin n → ℕ) : ℕ := (Finset.image cl Finset.univ).card

/-- Row shift: Xu[lag:] padded with zero rows, so that
`(rowShift lag Xu1)ᵀ * Xu2` equals numpy's `Xu1[lag:].T @ Xu2[:-lag]`
(the padded rows hit only zero factors). -/
def rowShift {n : ℕ} {m : Type} (lag : ℕ) (Xu : Matrix (Fin n) m ℚ) :
    Matrix (Fin n) m ℚ :=
  Matrix.of fun i j => if h : (i : ℕ) + lag < n then Xu ⟨(i : ℕ) + lag, h⟩ j else 0

/-- One autocovariance term gamma = Xu1[lag:].T @ Xu2[:-lag]. -/
def hacGamma {n : ℕ} {m : Type} [Fintype m] (Xu1 Xu2 : Matrix (Fin n) m ℚ)
    (lag : ℕ) : Matrix m m ℚ :=
  (rowShift lag Xu1)ᵀ * Xu2

/-- _hac_meat (covariance.py lines 171-193): kernel-weighted long-run meat;
a lag is skipped exactly when its weight is ≤ 0. -/
def hacMeat {n : ℕ} {m : Type} [Fintype m] (X : Matrix (Fin n) m ℚ)
    (r1 r2 : Matrix (Fin n) (Fin 1) ℚ) (lags : ℕ) (ker : HacKernel) :
    Matrix m m ℚ :=
  let Xu1 := rowScale X (fun i => r1 i 0)
  let Xu2 := rowScale X (fun i => r2 i 0)
  Xu1ᵀ * Xu2 +
    ∑ lag ∈ Finset.range lags,
      if 0 < kernelWeight (lag + 1) lags ker then
        kernelWeight (lag + 1) lags ker •
          (hacGamma Xu1 Xu2 (lag + 1) + (hacGamma Xu1 Xu2 (lag + 1))ᵀ)
      else 0

/-- _moment_meat (covariance.py lines 313-364): cross meat of two residual
vectors.  For HC2/HC3 the two residuals are both divided by sqrt(scale)
resp. scale, so the resulting weight r1*r2/scale (resp. /scale²) is exact
rational arithmetic. -/
def momentMeat {n : ℕ} {m : Type} [Fintype m] [DecidableEq m] (kind : CovKind)
    (X : Matrix (Fin n) m ℚ) (r1 r2 : Matrix (Fin n) (Fin 1) ℚ)
    (cl : Fin n → ℕ) (lags : ℕ) (ker : HacKernel) : Matrix m m ℚ :=
  match kind with
  | CovKind.cluster => clusterMeat X r1 r2 cl
  | CovKind.hac => hacMeat X r1 r2 lags ker
  | CovKind.hc2 => weightedMeat X (fun i => r1 i 0 * r2 i 0 / hcScale X i)
  | CovKind.hc3 => weightedMeat X (fun i => r1 i 0 * r2 i 0 / hcScale X i ^ 2)
  | _ => weightedMeat X (fun i => r1 i 0 * r2 i 0)

/-- cov_ols (covariance.py lines 192-302) with small_sample = True: the
sandwich covariance matrix of OLS coefficients.  The per-kind meats of
cov_ols coincide with _moment_meat at resid1 = resid2 = r. -/
def covOls {n : ℕ} {m : Type} [Fintype m] [DecidableEq m] (kind : CovKind)
    (X : Matrix (Fin n) m ℚ) (r : Matrix (Fin n) (Fin 1) ℚ)
    (cl : Fin n → ℕ) (lags : ℕ) (ker : HacKernel) : Matrix m m ℚ :=
  let bread := qInv (Xᵀ * X)
  let dfq : ℚ := (n : ℚ) - (Fintype.card m : ℚ)
  match kind with
  | CovKind.unadjusted => ((rᵀ * r) 0 0 / dfq) • bread
  | CovKind.hc1 =>
      ((n : ℚ) / dfq) • (bread * momentMeat CovKind.hc1 X r r cl lags ker * bread)
  | CovKind.cluster =>
      (((nClusters cl : ℚ) / ((nClusters cl : ℚ) - 1)) * (((n : ℚ) - 1) / dfq)) •
        (bread * momentMeat CovKind.cluster X r r cl lags ker * bread)
  | _ => bread * momentMeat kind X r r cl lags ker * bread

/-- The df actually used by cov_reduced_form for the small-sample
adjustment (covariance.py line 493): the caller-supplied df_resid_adj when
present, else df_resid — with no clamping in either case. -/
def cov_reduced_form_df_adj (dfResid : ℤ) (dfResidAdj : Option ℤ) : ℤ :=
  dfResidAdj.getD dfResid

/-- cov_reduced_form (covariance.py lines 454-565) with
small_sample_adj = True: joint covariance of the two reduced-form
coefficient vectors, assembled as np.block [[V_yy, V_yd], [V_yd.T, V_dd]]. -/
def covReducedForm {n k : ℕ} (kind : CovKind) (X : Matrix (Fin n) (Fin k) ℚ)
    (ry rd : Matrix (Fin n) (Fin 1) ℚ) (cl : Fin n → ℕ) (lags : ℕ)
    (ker : HacKernel) (dfResidAdj : Option ℤ) :
    Matrix (Fin k ⊕ Fin k) (Fin k ⊕ Fin k) ℚ :=
  let bread := qInv (Xᵀ * X)
  let dfAdj : ℚ := ((cov_reduced_form_df_adj ((n : ℤ) - (k : ℤ)) dfResidAdj : ℤ) : ℚ)
  let Vyy := bread * momentMeat kind X ry ry cl lags ker * bread
  let Vdd := bread * momentMeat kind X rd rd cl lags ker * bread
  let Vyd := bread * momentMeat kind X ry rd cl lags ker * bread
  match kind with
  | CovKind.unadjusted =>
      Matrix.fromBlocks (((ryᵀ * ry) 0 0 / dfAdj) • bread)
        (((ryᵀ * rd) 0 0 / dfAdj) • bread)
        ((((ryᵀ * rd) 0 0 / dfAdj) • bread)ᵀ)
        (((rdᵀ * rd) 0 0 / dfAdj) • bread)
  | CovKind.hc1 =>
      Matrix.fromBlocks (((n : ℚ) / dfAdj) • Vyy) (((n : ℚ) / dfAdj) • Vyd)
        ((((n : ℚ) / dfAdj) • Vyd)ᵀ) (((n : ℚ) / dfAdj) • Vdd)
  | CovKind.cluster =>
      let adj : ℚ :=
        ((nClusters cl : ℚ) / ((nClusters cl : ℚ) - 1)) * (((n : ℚ) - 1) / dfAdj)
      Matrix.fromBlocks (adj • Vyy) (adj • Vyd) ((adj • Vyd)ᵀ) (adj • Vdd)
  | _ => Matrix.fromBlocks Vyy Vyd (Vydᵀ) Vdd

/-- Output bundle of reduced_form (weakiv_utils.py lines 72-125). -/
structure RFResult (n k : ℕ) where
  z : Matrix (Fin n) (Fin k) ℚ
  y : Matrix (Fin n) (Fin 1) ℚ
  d : Matrix (Fin n) (Fin 1) ℚ
  pi_y : Matrix (Fin k) (Fin 1) ℚ
  pi_d : Matrix (Fin k) (Fin 1) ℚ
  resid_y : Matrix (Fin n) (Fin 1) ℚ
  resid_d : Matrix (Fin n) (Fin 1) ℚ
  cov : Matrix (Fin k ⊕ Fin k) (Fin k ⊕ Fin k) ℚ

/-- reduced_form (weakiv_utils.py lines 72-125): the joint lstsq of
[y_tilde, d_tilde] on z_tilde acts column by column, so each coefficient
column is the corresponding normal-equations solution; the df adjustment
passed down is nobs - k_instr - p_exog. -/
def reduced_form {n p k : ℕ} (kind : CovKind) (y d : Matrix (Fin n) (Fin 1) ℚ)
    (x : Matrix (Fin n) (Fin p) ℚ) (z : Matrix (Fin n) (Fin k) ℚ)
    (cl : Fin n → ℕ) (lags : ℕ) (ker : HacKernel) : RFResult n k :=
  let yt := residualize x y
  let dt := residualize x d
  let zt := residualize x z
  let piy := qInv (ztᵀ * zt) * (ztᵀ * yt)
  let pid := qInv (ztᵀ * zt) * (ztᵀ * dt)
  { z := zt, y := yt, d := dt, pi_y := piy, pi_d := pid,
    resid_y := yt - zt * piy, resid_d := dt - zt * pid,
    cov := covReducedForm kind zt (yt - zt * piy) (dt - zt * pid) cl lags ker
      (some ((n : ℤ) - (k : ℤ) - (p : ℤ))) }

/-- The df reduced_form hands to cov_reduced_form, composed with the
latter's selection logic. -/
def reduced_form_df_used (n k p : ℕ) : ℤ :=
  cov_reduced_form_df_adj ((n : ℤ) - (k : ℤ)) (some ((n : ℤ) - (k : ℤ) - (p : ℤ)))

/-- The specification's description of that df: n - k_instr - p_exog,
clamped to n - k_instr when nonpositive.  (Stated from the spec text, for
comparison with `reduced_form_df_used`.) -/
def reduced_form_df_claimed (n k p : ℕ) : ℤ :=
  if (n : ℤ) - (k : ℤ) - (p : ℤ) ≤ 0 then (n : ℤ) - (k : ℤ)
  else (n : ℤ) - (k : ℤ) - (p : ℤ)

/-- md_optimal_pi (weakiv_utils.py lines 128-154): the normal matrix A. -/
def mdA {k : ℕ} (b0 : ℚ) (Vinv : Matrix (Fin k ⊕ Fin k) (Fin k ⊕ Fin k) ℚ) :
    Matrix (Fin k) (Fin k) ℚ :=
  b0 ^ 2 • Vinv.toBlocks₁₁ + b0 • (Vinv.toBlocks₁₂ + Vinv.toBlocks₂₁) +
    Vinv.toBlocks₂₂

/-- md_optimal_pi: the right-hand side B. -/
def mdB {k : ℕ} (b0 : ℚ) (Vinv : Matrix (Fin k ⊕ Fin k) (Fin k ⊕ Fin k) ℚ)
    (piy pid : Matrix (Fin k) (Fin 1) ℚ) : Matrix (Fin k) (Fin 1) ℚ :=
  b0 • (Vinv.toBlocks₁₁ * piy + Vinv.toBlocks₁₂ * pid) +
    (Vinv.toBlocks₂₁ * piy + Vinv.toBlocks₂₂ * pid)

/-- md_optimal_pi: pi_hat = solve(A, B). -/
def mdPiHat {k : ℕ} (b0 : ℚ) (Vinv : Matrix (Fin k ⊕ Fin k) (Fin k ⊕ Fin k) ℚ)
    (piy pid : Matrix (Fin k) (Fin 1) ℚ) : Matrix (Fin k) (Fin 1) ℚ :=
  qInv (mdA b0 Vinv) * mdB b0 Vinv piy pid

/-- md_optimal_pi: the stacked distance r = [pi_y - beta pi_hat; pi_d - pi_hat]. -/
def mdR {k : ℕ} (b0 : ℚ) (Vinv : Matrix (Fin k ⊕ Fin k) (Fin k ⊕ Fin k) ℚ)
    (piy pid : Matrix (Fin k) (Fin 1) ℚ) : Matrix (Fin k ⊕ Fin k) (Fin 1) ℚ :=
  Matrix.fromRows (piy - b0 • mdPiHat b0 Vinv piy pid)
    (pid - mdPiHat b0 Vinv piy pid)

/-- md_optimal_pi: the quadratic form q = r' V_inv r. -/
def mdQ {k : ℕ} (b0 : ℚ) (Vinv : Matrix (Fin k ⊕ Fin k) (Fin k ⊕ Fin k) ℚ)
    (piy pid : Matrix (Fin k) (Fin 1) ℚ) : ℚ :=
  ((mdR b0 Vinv piy pid)ᵀ * Vinv * mdR b0 Vinv piy pid) 0 0

/-- The statistic/df/p-value triple returned by ar_test and clr_test. -/
structure TestResultQ where
  statistic : ℚ
  df : ℕ
  pvalue : ℚ

/-- ar_test (ar.py lines 73-146): coefficients of the regression of
y - beta0 d on W = [x, z]. -/
def arCoef {n p k : ℕ} (y d : Matrix (Fin n) (Fin 1) ℚ)
    (x : Matrix (Fin n) (Fin p) ℚ) (z : Matrix (Fin n) (Fin k) ℚ) (b0 : ℚ) :
    Matrix (Fin p ⊕ Fin k) (Fin 1) ℚ :=
  let W := Matrix.fromColumns x z
  qInv (Wᵀ * W) * (Wᵀ * (y - b0 • d))

/-- ar_test: the residual of that regression. -/
def arResid {n p k : ℕ} (y d : Matrix (Fin n) (Fin 1) ℚ)
    (x : Matrix (Fin n) (Fin p) ℚ) (z : Matrix (Fin n) (Fin k) ℚ) (b0 : ℚ) :
    Matrix (Fin n) (Fin 1) ℚ :=
  (y - b0 • d) - Matrix.fromColumns x z * arCoef y d x z b0

/-- ar_test: the Wald statistic b_z' pinv(V_z) b_z of the instrument block. -/
def arStat {n p k : ℕ} (kind : CovKind) (y d : Matrix (Fin n) (Fin 1) ℚ)
    (x : Matrix (Fin n) (Fin p) ℚ) (z : Matrix (Fin n) (Fin k) ℚ) (b0 : ℚ)
    (cl : Fin n → ℕ) (lags : ℕ) (ker : HacKernel) : ℚ :=
  let covR := covOls kind (Matrix.fromColumns x z) (arResid y d x z b0) cl lags ker
  let bz := (arCoef y d x z b0).submatrix Sum.inr id
  (bzᵀ * qInv (covR.submatrix Sum.inr Sum.inr) * bz) 0 0

/-- ar_test: the returned result (statistic, df = k_instr, chi-square
p-value). -/
def ar_test {n p k : ℕ} (chi2sf : ℚ → ℕ → ℚ) (kind : CovKind)
    (y d : Matrix (Fin n) (Fin 1) ℚ) (x : Matrix (Fin n) (Fin p) ℚ)
    (z : Matrix (Fin n) (Fin k) ℚ) (b0 : ℚ) (cl : Fin n → ℕ) (lags : ℕ)
    (ker : HacKernel) : TestResultQ :=
  { statistic := arStat kind y d x z b0 cl lags ker, df := k,
    pvalue := chi2sf (arStat kind y d x z b0 cl lags ker) k }

/-- lm_test (lm.py lines 36-41): sigma_hat, the squared norm of the
Z-orthogonalized null residual. -/
def lmSigmaHat {n k : ℕ} (rf : RFResult n k) (b0 : ℚ) : ℚ :=
  let residuals := rf.y - b0 • rf.d
  let ro := residuals - projOn rf.z residuals
  (roᵀ * ro) 0 0

/-- lm_test (lm.py lines 45-48): the projected score direction x_tilde_proj. -/
def lmXtp {n k : ℕ} (rf : RFResult n k) (b0 : ℚ) : Matrix (Fin n) (Fin 1) ℚ :=
  let residuals := rf.y - b0 • rf.d
  let rp := projOn rf.z residuals
  projOn rf.z rf.d - (((residuals - rp)ᵀ * rf.d) 0 0 / lmSigmaHat rf b0) • rp

/-- lm_test: xtx, the squared norm of x_tilde_proj. -/
def lmXtx {n k : ℕ} (rf : RFResult n k) (b0 : ℚ) : ℚ :=
  ((lmXtp rf b0)ᵀ * lmXtp rf b0) 0 0

/-- lm_test (lm.py lines 36-58), unadjusted branch: statistic plus warning
messages, with the zero-statistic fallbacks and the dof clamp.  (On ℚ the
np.isfinite guards are vacuous.) -/
def lmUnadjStat (nobs kInstr pExog : ℕ) {n k : ℕ} (rf : RFResult n k)
    (b0 : ℚ) : ℚ × List String :=
  if lmSigmaHat rf b0 ≤ 0 then
    (0, ["LM sigma_hat not positive; statistic set to 0"])
  else if lmXtx rf b0 ≤ 0 then
    (0, ["LM projection not positive; statistic set to 0"])
  else
    let residuals := rf.y - b0 • rf.d
    let projResid := (((lmXtp rf b0)ᵀ * residuals) 0 0 / lmXtx rf b0) • lmXtp rf b0
    let dof0 : ℤ := (nobs : ℤ) - (kInstr : ℤ) - (pExog : ℤ)
    let dof : ℤ := if dof0 ≤ 0 then (nobs : ℤ) - (kInstr : ℤ) else dof0
    (((dof : ℤ) : ℚ) * (projResidᵀ * projResid) 0 0 / lmSigmaHat rf b0,
      if dof0 ≤ 0 then ["LM degrees of freedom nonpositive"] else [])

/-- lm_test (lm.py lines 60-66), covariance branch: the score d' V_inv r. -/
def lmScore {n k : ℕ} (rf : RFResult n k) (b0 : ℚ) : ℚ :=
  let Vinv := qInv rf.cov
  ((Matrix.fromRows (mdPiHat b0 Vinv rf.pi_y rf.pi_d)
      (0 : Matrix (Fin k) (Fin 1) ℚ))ᵀ * Vinv * mdR b0 Vinv rf.pi_y rf.pi_d) 0 0

/-- lm_test, covariance branch: the information term d' V_inv d. -/
def lmInfo {n k : ℕ} (rf : RFResult n k) (b0 : ℚ) : ℚ :=
  let Vinv := qInv rf.cov
  let dvec := Matrix.fromRows (mdPiHat b0 Vinv rf.pi_y rf.pi_d)
    (0 : Matrix (Fin k) (Fin 1) ℚ)
  (dvecᵀ * Vinv * dvec) 0 0

/-- lm_test, covariance branch: statistic plus warnings. -/
def lmCovStat {n k : ℕ} (rf : RFResult n k) (b0 : ℚ) : ℚ × List String :=
  if lmInfo rf b0 ≤ 0 then
    (0, ["LM information term not positive; statistic set to 0"])
  else (lmScore rf b0 ^ 2 / lmInfo rf b0, [])

/-- The result quadruple of lm_test. -/
structure LMResultQ where
  statistic : ℚ
  pvalue : ℚ
  df : ℕ
  warnings : List String

/-- lm_test (lm.py lines 15-84): the full test, with p-value
chi2.sf(stat, df=1). -/
def lm_test {n p k : ℕ} (chi2sf : ℚ → ℕ → ℚ) (kind : CovKind)
    (y d : Matrix (Fin n) (Fin 1) ℚ) (x : Matrix (Fin n) (Fin p) ℚ)
    (z : Matrix (Fin n) (Fin k) ℚ) (b0 : ℚ) (cl : Fin n → ℕ) (lags : ℕ)
    (ker : HacKernel) : LMResultQ :=
  let rf := reduced_form kind y d x z cl lags ker
  let sw := if kind = CovKind.unadjusted then lmUnadjStat n k p rf b0
    else lmCovStat rf b0
  { statistic := sw.1, pvalue := chi2sf sw.1 1, df := 1, warnings := sw.2 }

/-- _clr_lambda (clr.py lines 17-40). -/
def clr_lambda {n k : ℕ} (pExog : ℕ) (rf : RFResult n k) (b0 : ℚ) : ℚ :=
  let resid := rf.y - b0 • rf.d
  let residProj := projOn rf.z resid
  let residOrth := resid - residProj
  let dProj := projOn rf.z rf.d
  let sigmaHat := (residOrthᵀ * residOrth) 0 0
  if sigmaHat ≤ 0 then 0
  else
    let Sg := (residOrthᵀ * rf.d) 0 0 / sigmaHat
    let dTildeProj := dProj - Sg • residProj
    let dTildeOrth := (rf.d - Sg • resid) - dTildeProj
    let denom := (dTildeOrthᵀ * dTildeOrth) 0 0
    if denom ≤ 0 then 0
    else if (n : ℤ) - (k : ℤ) - (pExog : ℤ) ≤ 0 then 0
    else
      max 0 ((((n : ℤ) - (k : ℤ) - (pExog : ℤ) : ℤ) : ℚ) *
        ((dTildeProjᵀ * dTildeProj) 0 0) / denom)

/-- clr_test (clr.py lines 103-149).  `opt` is the bounded scalar-minimizer
oracle of _md_q_min, returning the minimum value found; `betaBounds` is the
default_beta_bounds oracle, a function of the raw y and d columns. -/
def clr_test {n p k : ℕ} (chi2sf : ℚ → ℕ → ℚ) (quad : ℚ → ℕ → ℚ → ℚ)
    (opt : (ℚ → ℚ) → ℚ × ℚ → ℚ)
    (betaBounds : Matrix (Fin n) (Fin 1) ℚ → Matrix (Fin n) (Fin 1) ℚ → ℚ × ℚ)
    (kind : CovKind) (y d : Matrix (Fin n) (Fin 1) ℚ)
    (x : Matrix (Fin n) (Fin p) ℚ) (z : Matrix (Fin n) (Fin k) ℚ) (b0 : ℚ)
    (cl : Fin n → ℕ) (lags : ℕ) (ker : HacKernel) : TestResultQ :=
  let rf := reduced_form kind y d x z cl lags ker
  let Vinv := qInv rf.cov
  let qBeta := mdQ b0 Vinv rf.pi_y rf.pi_d
  let qMin := opt (fun b => mdQ b Vinv rf.pi_y rf.pi_d) (betaBounds y d)
  let stat := max 0 (qBeta - qMin)
  { statistic := stat, df := k,
    pvalue := clr_pvalue chi2sf quad stat k (clr_lambda p rf b0) }

/-- _generalized_eigvals (estimators/liml.py lines 21-28) applied to the
eigenvalue oracle's output: clip to [0, ∞) then sort ascending. -/
def generalizedEigvals (vals : List ℚ) : List ℚ :=
  List.insertionSort (fun a b => a ≤ b) (vals.map (fun v => max v 0))

/-- _kappa_liml (estimators/liml.py lines 30-39): the projected
cross-product matrix A = Xy_proj' Xy_proj of [X, y]. -/
def limlA {n : ℕ} {r m : Type} [Fintype r] [DecidableEq r] [Fintype m]
    [DecidableEq m] (X : Matrix (Fin n) r ℚ) (y : Matrix (Fin n) (Fin 1) ℚ)
    (Z : Matrix (Fin n) m ℚ) : Matrix (r ⊕ Fin 1) (r ⊕ Fin 1) ℚ :=
  let P := projOn Z (Matrix.fromColumns X y)
  Pᵀ * P

/-- _kappa_liml: the orthogonal-complement cross product B = Xy_orth' Xy_orth. -/
def limlB {n : ℕ} {r m : Type} [Fintype r] [DecidableEq r] [Fintype m]
    [DecidableEq m] (X : Matrix (Fin n) r ℚ) (y : Matrix (Fin n) (Fin 1) ℚ)
    (Z : Matrix (Fin n) m ℚ) : Matrix (r ⊕ Fin 1) (r ⊕ Fin 1) ℚ :=
  let Xy := Matrix.fromColumns X y
  let O := Xy - projOn Z Xy
  Oᵀ * O

/-- _kappa_liml: kappa = 1 + (smallest clipped generalized eigenvalue, 0 on
an empty spectrum), with `eig` the scipy.linalg.eigvalsh oracle. -/
def kappa_liml {n : ℕ} {r m : Type} [Fintype r] [DecidableEq r] [Fintype m]
    [DecidableEq m]
    (eig : Matrix (r ⊕ Fin 1) (r ⊕ Fin 1) ℚ → Matrix (r ⊕ Fin 1) (r ⊕ Fin 1) ℚ → List ℚ)
    (X : Matrix (Fin n) r ℚ) (y : Matrix (Fin n) (Fin 1) ℚ)
    (Z : Matrix (Fin n) m ℚ) : ℚ :=
  1 + (generalizedEigvals (eig (limlA X y Z) (limlB X y Z))).headD 0

/-- liml (estimators/liml.py lines 152-177): compute kappa_LIML from
X = [x, d] and Z = [x, z] and delegate to kclass (modelled by the oracle
`kc`). -/
def liml {n p k : ℕ} {R : Type}
    (eig : Matrix ((Fin p ⊕ Fin 1) ⊕ Fin 1) ((Fin p ⊕ Fin 1) ⊕ Fin 1) ℚ →
      Matrix ((Fin p ⊕ Fin 1) ⊕ Fin 1) ((Fin p ⊕ Fin 1) ⊕ Fin 1) ℚ → List ℚ)
    (kc : ℚ → R) (y d : Matrix (Fin n) (Fin 1) ℚ)
    (x : Matrix (Fin n) (Fin p) ℚ) (z : Matrix (Fin n) (Fin k) ℚ) : R :=
  kc (kappa_liml eig (Matrix.fromColumns x d) y (Matrix.fromColumns x z))

/-- The default Fuller tuning constant alpha. -/
def fuller_default_alpha : ℚ := 1

/-- fuller (estimators/liml.py lines 180-207): dof = n - (p_exog + k_instr)
(the column count of Z = [x, z]); raise when dof ≤ 0, else delegate to
kclass with kappa = kappa_LIML - alpha / dof. -/
def fuller {n p k : ℕ} {R : Type}
    (eig : Matrix ((Fin p ⊕ Fin 1) ⊕ Fin 1) ((Fin p ⊕ Fin 1) ⊕ Fin 1) ℚ →
      Matrix ((Fin p ⊕ Fin 1) ⊕ Fin 1) ((Fin p ⊕ Fin 1) ⊕ Fin 1) ℚ → List ℚ)
    (kc : ℚ → R) (alpha : ℚ) (y d : Matrix (Fin n) (Fin 1) ℚ)
    (x : Matrix (Fin n) (Fin p) ℚ) (z : Matrix (Fin n) (Fin k) ℚ) :
    Except String R :=
  let dof : ℤ := (n : ℤ) - ((p : ℤ) + (k : ℤ))
  if dof ≤ 0 then
    Except.error "Need n > number of instruments for Fuller estimator."
  else
    Except.ok (kc (kappa_liml eig (Matrix.fromColumns x d) y
      (Matrix.fromColumns x z) - alpha / ((dof : ℤ) : ℚ)))

/-! ## C5: the reduced-form degrees-of-freedom adjustment -/

/-- Claim C5 counterexample: at n = 3, k_instr = 1, p_exog = 2 the df that
reduced_form hands to cov_reduced_form — and that the latter then uses — is
n - k - p = 0, not the claimed clamped value n - k = 2.  There is no
clamping anywhere on this path. -/
theorem claim_C5_counterexample :
    reduced_form_df_used 3 1 2 = 0 ∧ reduced_form_df_claimed 3 1 2 = 2 ∧
      reduced_form_df_used 3 1 2 ≠ reduced_form_df_claimed 3 1 2 := by
  refine ⟨by decide, by decide, by decide⟩

/-- Claim C5 (amended): cov_reduced_form uses the caller's df_resid_adj
verbatim when supplied (falling back to df_resid = n - k when absent), with
no clamping; reduced_form always supplies n - k_instr - p_exog, so the df
used for the small-sample adjustment is n - k_instr - p_exog
unconditionally, as witnessed by the unadjusted covariance blocks; and the
covariance reduced_form returns is exactly cov_reduced_form evaluated at
its residuals with that df. -/
theorem claim_C5 :
    (∀ (dfResid a : ℤ), cov_reduced_form_df_adj dfResid (some a) = a) ∧
    (∀ (dfResid : ℤ), cov_reduced_form_df_adj dfResid none = dfResid) ∧
    (∀ (n k p : ℕ), reduced_form_df_used n k p = (n : ℤ) - (k : ℤ) - (p : ℤ)) ∧
    (∀ (n k : ℕ) (X : Matrix (Fin n) (Fin k) ℚ) (ry rd : Matrix (Fin n) (Fin 1) ℚ)
      (cl : Fin n → ℕ) (lags : ℕ) (ker : HacKernel) (dfa : ℤ),
      covReducedForm CovKind.unadjusted X ry rd cl lags ker (some dfa) =
        Matrix.fromBlocks (((ryᵀ * ry) 0 0 / (dfa : ℚ)) • qInv (Xᵀ * X))
          (((ryᵀ * rd) 0 0 / (dfa : ℚ)) • qInv (Xᵀ * X))
          ((((ryᵀ * rd) 0 0 / (dfa : ℚ)) • qInv (Xᵀ * X))ᵀ)
          (((rdᵀ * rd) 0 0 / (dfa : ℚ)) • qInv (Xᵀ * X))) ∧
    (∀ (n p k : ℕ) (kind : CovKind) (y d : Matrix (Fin n) (Fin 1) ℚ)
      (x : Matrix (Fin n) (Fin p) ℚ) (z : Matrix (Fin n) (Fin k) ℚ)
      (cl : Fin n → ℕ) (lags : ℕ) (ker : HacKernel),
      (reduced_form kind y d x z cl lags ker).cov =
        covReducedForm kind (residualize x z)
          ((reduced_form kind y d x z cl lags ker).resid_y)
          ((reduced_form kind y d x z cl lags ker).resid_d) cl lags ker
          (some ((n : ℤ) - (k : ℤ) - (p : ℤ)))) := by
  refine ⟨fun _ _ => rfl, fun _ => rfl, fun _ _ _ => rfl, fun n k X ry rd cl lags ker dfa => rfl,
    fun n p k kind y d x z cl lags ker => rfl⟩

/-! ## C9: the LIML and Fuller kappa derivations -/

/-- Claim C9: (i) on a nonempty, nonnegative oracle spectrum the clipped
sort-then-head of _generalized_eigvals picks out exactly the smallest
eigenvalue; (ii) _kappa_liml is 1 plus that head, computed from the
projected cross product A and the orthogonal-complement cross product B of
[X, y]; (iii) liml delegates to kclass with kappa = kappa_LIML for
X = [x, d], Z = [x, z]; (iv) fuller raises when n - (p_exog + k_instr) ≤ 0;
(v) otherwise fuller delegates to kclass with
kappa = kappa_LIML - alpha / (n - k_instr - p_exog); (vi) the default
tuning constant is alpha = 1. -/
theorem claim_C9 :
    (∀ (vals : List ℚ), vals ≠ [] → (∀ v ∈ vals, 0 ≤ v) →
      ∃ m ∈ vals, (∀ v ∈ vals, m ≤ v) ∧ (generalizedEigvals vals).headD 0 = m) ∧
    (∀ {n : ℕ} {r m : Type} [Fintype r] [DecidableEq r] [Fintype m] [DecidableEq m]
      (eig : Matrix (r ⊕ Fin 1) (r ⊕ Fin 1) ℚ → Matrix (r ⊕ Fin 1) (r ⊕ Fin 1) ℚ → List ℚ)
      (X : Matrix (Fin n) r ℚ) (y : Matrix (Fin n) (Fin 1) ℚ) (Z : Matrix (Fin n) m ℚ),
      kappa_liml eig X y Z =
        1 + (generalizedEigvals (eig (limlA X y Z) (limlB X y Z))).headD 0) ∧
    (∀ {n p k : ℕ} {R : Type}
      (eig : Matrix ((Fin p ⊕ Fin 1) ⊕ Fin 1) ((Fin p ⊕ Fin 1) ⊕ Fin 1) ℚ →
        Matrix ((Fin p ⊕ Fin 1) ⊕ Fin 1) ((Fin p ⊕ Fin 1) ⊕ Fin 1) ℚ → List ℚ)
      (kc : ℚ → R) (y d : Matrix (Fin n) (Fin 1) ℚ) (x : Matrix (Fin n) (Fin p) ℚ)
      (z : Matrix (Fin n) (Fin k) ℚ),
      liml eig kc y d x z =
        kc (kappa_liml eig (Matrix.fromColumns x d) y (Matrix.fromColumns x z))) ∧
    (∀ {n p k : ℕ} {R : Type}
      (eig : Matrix ((Fin p ⊕ Fin 1) ⊕ Fin 1) ((Fin p ⊕ Fin 1) ⊕ Fin 1) ℚ →
        Matrix ((Fin p ⊕ Fin 1) ⊕ Fin 1) ((Fin p ⊕ Fin 1) ⊕ Fin 1) ℚ → List ℚ)
      (kc : ℚ → R) (alpha : ℚ) (y d : Matrix (Fin n) (Fin 1) ℚ)
      (x : Matrix (Fin n) (Fin p) ℚ) (z : Matrix (Fin n) (Fin k) ℚ),
      (n : ℤ) ≤ (p : ℤ) + (k : ℤ) →
      fuller eig kc alpha y d x z =
        Except.error "Need n > number of instruments for Fuller estimator.") ∧
    (∀ {n p k : ℕ} {R : Type}
      (eig : Matrix ((Fin p ⊕ Fin 1) ⊕ Fin 1) ((Fin p ⊕ Fin 1) ⊕ Fin 1) ℚ →
        Matrix ((Fin p ⊕ Fin 1) ⊕ Fin 1) ((Fin p ⊕ Fin 1) ⊕ Fin 1) ℚ → List ℚ)
      (kc : ℚ → R) (alpha : ℚ) (y d : Matrix (Fin n) (Fin 1) ℚ)
      (x : Matrix (Fin n) (Fin p) ℚ) (z : Matrix (Fin n) (Fin k) ℚ),
      (p : ℤ) + (k : ℤ) < (n : ℤ) →
      fuller eig kc alpha y d x z =
        Except.ok (kc (kappa_liml eig (Matrix.fromColumns x d) y
          (Matrix.fromColumns x z) - alpha / ((n : ℚ) - (k : ℚ) - (p : ℚ))))) ∧
    fuller_default_alpha = 1 := by
  refine ⟨?_, fun eig X y Z => rfl, fun eig kc y d x z => rfl, ?_, ?_, rfl⟩
  · intro vals hne hnn
    have hmap : List.map (fun v => max v 0) vals = vals := by
      conv_rhs => rw [← List.map_id vals]
      exact List.map_congr_left fun a ha => max_eq_left (hnn a ha)
    have hperm : (generalizedEigvals vals).Perm vals := by
      unfold generalizedEigvals
      rw [hmap]
      exact List.perm_insertionSort _ vals
    have hsorted : List.Sorted (fun a b : ℚ => a ≤ b) (generalizedEigvals vals) :=
      List.sorted_insertionSort _ _
    cases hs : generalizedEigvals vals with
    | nil =>
        exfalso
        rw [hs] at hperm
        exact hne (List.Perm.eq_nil hperm.symm)
    | cons a t =>
        refine ⟨a, ?_, ?_, rfl⟩
        · exact (hperm.mem_iff).mp (by rw [hs]; exact List.mem_cons_self a t)
        · intro v hv
          have hv' : v ∈ a :: t := by
            rw [← hs]
            exact (hperm.mem_iff).mpr hv
          rcases List.mem_cons.mp hv' with h | h
          · exact le_of_eq h.symm
          · have := List.sorted_cons.mp (hs ▸ hsorted)
            exact this.1 v h
  · intro n p k R eig kc alpha y d x z hle
    unfold fuller
    rw [if_pos (by omega)]
  · intro n p k R eig kc alpha y d x z hlt
    unfold fuller
    rw [if_neg (by omega)]
    have hcast : (((n : ℤ) - ((p : ℤ) + (k : ℤ)) : ℤ) : ℚ) = (n : ℚ) - (k : ℚ) - (p : ℚ) := by
      push_cast
      ring
    rw [hcast]

/-- Claim C9 witness: the eigenvalue-selection fact at the concrete
spectrum [2, 1/2], the Fuller error at n = 2, p = k = 1, and the Fuller
delegation at n = 3, p = k = 1, all on zero data matrices with a constant
empty-spectrum oracle and kclass modelled by the identity. -/
theorem claim_C9_witness :
    (∃ m ∈ [(2 : ℚ), mkRat 1 2], (∀ v ∈ [(2 : ℚ), mkRat 1 2], m ≤ v) ∧
      (generalizedEigvals [(2 : ℚ), mkRat 1 2]).headD 0 = m) ∧
    fuller (n := 2) (fun _ _ => ([] : List ℚ)) (fun q : ℚ => q) 1
        (0 : Matrix (Fin 2) (Fin 1) ℚ) 0 (0 : Matrix (Fin 2) (Fin 1) ℚ)
        (0 : Matrix (Fin 2) (Fin 1) ℚ) =
      Except.error "Need n > number of instruments for Fuller estimator." ∧
    fuller (n := 3) (fun _ _ => ([] : List ℚ)) (fun q : ℚ => q) 1
        (0 : Matrix (Fin 3) (Fin 1) ℚ) 0 (0 : Matrix (Fin 3) (Fin 1) ℚ)
        (0 : Matrix (Fin 3) (Fin 1) ℚ) =
      Except.ok (kappa_liml (fun _ _ => ([] : List ℚ))
        (Matrix.fromColumns (0 : Matrix (Fin 3) (Fin 1) ℚ)
          (0 : Matrix (Fin 3) (Fin 1) ℚ)) 0
        (Matrix.fromColumns (0 : Matrix (Fin 3) (Fin 1) ℚ)
          (0 : Matrix (Fin 3) (Fin 1) ℚ)) -
        1 / ((3 : ℚ) - (1 : ℚ) - (1 : ℚ))) :=
  ⟨claim_C9.1 [(2 : ℚ), mkRat 1 2] (by decide) (by decide),
    claim_C9.2.2.2.1 _ _ 1 _ _ _ _ (by decide),
    claim_C9.2.2.2.2.1 _ _ 1 _ _ _ _ (by decide)⟩

/-! ## Frisch-Waugh-Lovell machinery for the AR / reduced-form equivalence -/

/-- The annihilator M_x = I - x (x'x)⁻¹ x' of the exogenous block. -/
def annih {n p : ℕ} (x : Matrix (Fin n) (Fin p) ℚ) : Matrix (Fin n) (Fin n) ℚ :=
  1 - x * (qInv (xᵀ * x) * xᵀ)

theorem residualize_eq {n p : ℕ} {c : Type} [Fintype c] (x : Matrix (Fin n) (Fin p) ℚ)
    (v : Matrix (Fin n) c ℚ) : residualize x v = annih x * v := by
  unfold residualize annih
  rw [Matrix.sub_mul, Matrix.one_mul]
  simp only [Matrix.mul_assoc]

theorem qInv_transpose {m : Type} [Fintype m] [DecidableEq m] {A : Matrix m m ℚ}
    (hA : Aᵀ = A) : (qInv A)ᵀ = qInv A := by
  rw [qInv_eq, Matrix.transpose_nonsing_inv, hA]

theorem annih_transpose {n p : ℕ} (x : Matrix (Fin n) (Fin p) ℚ) :
    (annih x)ᵀ = annih x := by
  unfold annih
  rw [Matrix.transpose_sub, Matrix.transpose_one, Matrix.transpose_mul,
    Matrix.transpose_mul, Matrix.transpose_transpose,
    qInv_transpose (by rw [Matrix.transpose_mul, Matrix.transpose_transpose])]
  simp only [Matrix.mul_assoc]

theorem annih_idem {n p : ℕ} {x : Matrix (Fin n) (Fin p) ℚ}
    (hx : IsUnit (xᵀ * x).det) : annih x * annih x = annih x := by
  unfold annih
  have h1 : qInv (xᵀ * x) * (xᵀ * x) = 1 := by
    rw [qInv_eq]
    exact Matrix.nonsing_inv_mul _ hx
  have h2 : x * (qInv (xᵀ * x) * xᵀ) * (x * (qInv (xᵀ * x) * xᵀ)) =
      x * (qInv (xᵀ * x) * xᵀ) := by
    calc x * (qInv (xᵀ * x) * xᵀ) * (x * (qInv (xᵀ * x) * xᵀ))
        = x * (qInv (xᵀ * x) * (xᵀ * x) * (qInv (xᵀ * x) * xᵀ)) := by
          simp only [Matrix.mul_assoc]
      _ = x * (qInv (xᵀ * x) * xᵀ) := by rw [h1, Matrix.one_mul]
  rw [Matrix.sub_mul, Matrix.one_mul, Matrix.mul_sub, Matrix.mul_one, h2, sub_self,
    sub_zero]

theorem resid_inner {n p : ℕ} {c c' : Type} [Fintype c] [Fintype c']
    {x : Matrix (Fin n) (Fin p) ℚ} (hx : IsUnit (xᵀ * x).det)
    (a : Matrix (Fin n) c ℚ) (b : Matrix (Fin n) c' ℚ) :
    (residualize x a)ᵀ * residualize x b = aᵀ * residualize x b := by
  rw [residualize_eq x a, residualize_eq x b, Matrix.transpose_mul, annih_transpose,
    Matrix.mul_assoc, ← Matrix.mul_assoc (annih x) (annih x) b, annih_idem hx]

theorem residualize_sub_smul {n p : ℕ} (x : Matrix (Fin n) (Fin p) ℚ)
    (a b : Matrix (Fin n) (Fin 1) ℚ) (c : ℚ) :
    residualize x a - c • residualize x b = residualize x (a - c • b) := by
  rw [residualize_eq, residualize_eq, residualize_eq, Matrix.mul_sub, Matrix.mul_smul]

theorem col_inner_comm {n : ℕ} (a b : Matrix (Fin n) (Fin 1) ℚ) :
    (aᵀ * b) 0 0 = (bᵀ * a) 0 0 := by
  simp only [Matrix.mul_apply, Matrix.transpose_apply]
  exact Finset.sum_congr rfl fun i _ => mul_comm _ _

theorem fromBlocks_submatrix_inr_inr {a b c d : Type} (A : Matrix a c ℚ)
    (B : Matrix a d ℚ) (C : Matrix b c ℚ) (D : Matrix b d ℚ) :
    (Matrix.fromBlocks A B C D).submatrix Sum.inr Sum.inr = D := rfl

theorem submatrix_inr_fromRows {a b c : Type} (A : Matrix a c ℚ) (B : Matrix b c ℚ) :
    (Matrix.fromRows A B).submatrix Sum.inr id = B := rfl

theorem schur_right_inv {a b : Type} [Fintype a] [DecidableEq a] [Fintype b]
    [DecidableEq b] (G E : Matrix a a ℚ) (C : Matrix a b ℚ) (Ct : Matrix b a ℚ)
    (D Sc F : Matrix b b ℚ) (hGE : G * E = 1) (hD : D = Sc + Ct * E * C)
    (hSF : Sc * F = 1) :
    Matrix.fromBlocks G C Ct D *
      Matrix.fromBlocks (E + E * C * F * Ct * E) (-(E * C * F)) (-(F * Ct * E)) F =
      1 := by
  subst hD
  rw [Matrix.fromBlocks_multiply, ← Matrix.fromBlocks_one]
  refine Matrix.fromBlocks_inj.mpr ⟨?_, ?_, ?_, ?_⟩ <;>
    · simp only [Matrix.mul_add, Matrix.add_mul, Matrix.mul_neg, Matrix.neg_mul,
        ← Matrix.mul_assoc, hGE, hSF, Matrix.one_mul, Matrix.mul_one]
      abel

theorem resid_gram {n p k : ℕ} {x : Matrix (Fin n) (Fin p) ℚ}
    (hx : IsUnit (xᵀ * x).det) (z : Matrix (Fin n) (Fin k) ℚ) :
    zᵀ * z = (residualize x z)ᵀ * residualize x z +
      zᵀ * x * qInv (xᵀ * x) * (xᵀ * z) := by
  rw [resid_inner hx]
  unfold residualize
  rw [Matrix.mul_sub]
  have h : zᵀ * (x * (qInv (xᵀ * x) * (xᵀ * z))) =
      zᵀ * x * qInv (xᵀ * x) * (xᵀ * z) := by
    simp only [Matrix.mul_assoc]
  rw [h, sub_add_cancel]

theorem gram_fromColumns {n p k : ℕ} (x : Matrix (Fin n) (Fin p) ℚ)
    (z : Matrix (Fin n) (Fin k) ℚ) :
    (Matrix.fromColumns x z)ᵀ * Matrix.fromColumns x z =
      Matrix.fromBlocks (xᵀ * x) (xᵀ * z) (zᵀ * x) (zᵀ * z) := by
  rw [Matrix.transpose_fromColumns, Matrix.fromRows_mul_fromColumns]

theorem qInv_gram_fromColumns {n p k : ℕ} {x : Matrix (Fin n) (Fin p) ℚ}
    {z : Matrix (Fin n) (Fin k) ℚ} (hx : IsUnit (xᵀ * x).det)
    (hs : IsUnit ((residualize x z)ᵀ * residualize x z).det) :
    qInv ((Matrix.fromColumns x z)ᵀ * Matrix.fromColumns x z) =
      Matrix.fromBlocks
        (qInv (xᵀ * x) + qInv (xᵀ * x) * (xᵀ * z) *
          qInv ((residualize x z)ᵀ * residualize x z) * (zᵀ * x) * qInv (xᵀ * x))
        (-(qInv (xᵀ * x) * (xᵀ * z) * qInv ((residualize x z)ᵀ * residualize x z)))
        (-(qInv ((residualize x z)ᵀ * residualize x z) * (zᵀ * x) * qInv (xᵀ * x)))
        (qInv ((residualize x z)ᵀ * residualize x z)) := by
  rw [qInv_eq]
  apply Matrix.inv_eq_right_inv
  rw [gram_fromColumns]
  exact schur_right_inv (xᵀ * x) (qInv (xᵀ * x)) (xᵀ * z) (zᵀ * x) (zᵀ * z)
    ((residualize x z)ᵀ * residualize x z)
    (qInv ((residualize x z)ᵀ * residualize x z))
    (by rw [qInv_eq]; exact Matrix.mul_nonsing_inv _ hx)
    (resid_gram hx z)
    (by rw [qInv_eq]; exact Matrix.mul_nonsing_inv _ hs)

theorem reduced_form_pi_y {n p k : ℕ} (kind : CovKind)
    (y d : Matrix (Fin n) (Fin 1) ℚ) (x : Matrix (Fin n) (Fin p) ℚ)
    (z : Matrix (Fin n) (Fin k) ℚ) (cl : Fin n → ℕ) (lags : ℕ) (ker : HacKernel) :
    (reduced_form kind y d x z cl lags ker).pi_y =
      qInv ((residualize x z)ᵀ * residualize x z) *
        ((residualize x z)ᵀ * residualize x y) := rfl

theorem reduced_form_pi_d {n p k : ℕ} (kind : CovKind)
    (y d : Matrix (Fin n) (Fin 1) ℚ) (x : Matrix (Fin n) (Fin p) ℚ)
    (z : Matrix (Fin n) (Fin k) ℚ) (cl : Fin n → ℕ) (lags : ℕ) (ker : HacKernel) :
    (reduced_form kind y d x z cl lags ker).pi_d =
      qInv ((residualize x z)ᵀ * residualize x z) *
        ((residualize x z)ᵀ * residualize x d) := rfl

theorem reduced_form_resid_y {n p k : ℕ} (kind : CovKind)
    (y d : Matrix (Fin n) (Fin 1) ℚ) (x : Matrix (Fin n) (Fin p) ℚ)
    (z : Matrix (Fin n) (Fin k) ℚ) (cl : Fin n → ℕ) (lags : ℕ) (ker : HacKernel) :
    (reduced_form kind y d x z cl lags ker).resid_y =
      residualize x y - residualize x z *
        (qInv ((residualize x z)ᵀ * residualize x z) *
          ((residualize x z)ᵀ * residualize x y)) := rfl

theorem reduced_form_resid_d {n p k : ℕ} (kind : CovKind)
    (y d : Matrix (Fin n) (Fin 1) ℚ) (x : Matrix (Fin n) (Fin p) ℚ)
    (z : Matrix (Fin n) (Fin k) ℚ) (cl : Fin n → ℕ) (lags : ℕ) (ker : HacKernel) :
    (reduced_form kind y d x z cl lags ker).resid_d =
      residualize x d - residualize x z *
        (qInv ((residualize x z)ᵀ * residualize x z) *
          ((residualize x z)ᵀ * residualize x d)) := rfl

theorem reduced_form_cov {n p k : ℕ} (kind : CovKind)
    (y d : Matrix (Fin n) (Fin 1) ℚ) (x : Matrix (Fin n) (Fin p) ℚ)
    (z : Matrix (Fin n) (Fin k) ℚ) (cl : Fin n → ℕ) (lags : ℕ) (ker : HacKernel) :
    (reduced_form kind y d x z cl lags ker).cov =
      covReducedForm kind (residualize x z)
        ((reduced_form kind y d x z cl lags ker).resid_y)
        ((reduced_form kind y d x z cl lags ker).resid_d) cl lags ker
        (some ((n : ℤ) - (k : ℤ) - (p : ℤ))) := rfl

theorem covOls_unadjusted {n : ℕ} {m : Type} [Fintype m] [DecidableEq m]
    (X : Matrix (Fin n) m ℚ) (r : Matrix (Fin n) (Fin 1) ℚ) (cl : Fin n → ℕ)
    (lags : ℕ) (ker : HacKernel) :
    covOls CovKind.unadjusted X r cl lags ker =
      ((rᵀ * r) 0 0 / ((n : ℚ) - (Fintype.card m : ℚ))) • qInv (Xᵀ * X) := rfl

theorem covReducedForm_unadjusted {n k : ℕ} (X : Matrix (Fin n) (Fin k) ℚ)
    (ry rd : Matrix (Fin n) (Fin 1) ℚ) (cl : Fin n → ℕ) (lags : ℕ)
    (ker : HacKernel) (dfa : ℤ) :
    covReducedForm CovKind.unadjusted X ry rd cl lags ker (some dfa) =
      Matrix.fromBlocks (((ryᵀ * ry) 0 0 / (dfa : ℚ)) • qInv (Xᵀ * X))
        (((ryᵀ * rd) 0 0 / (dfa : ℚ)) • qInv (Xᵀ * X))
        ((((ryᵀ * rd) 0 0 / (dfa : ℚ)) • qInv (Xᵀ * X))ᵀ)
        (((rdᵀ * rd) 0 0 / (dfa : ℚ)) • qInv (Xᵀ * X)) := rfl

theorem ar_bz {n p k : ℕ} {x : Matrix (Fin n) (Fin p) ℚ}
    {z : Matrix (Fin n) (Fin k) ℚ} (hx : IsUnit (xᵀ * x).det)
    (hs : IsUnit ((residualize x z)ᵀ * residualize x z).det)
    (w : Matrix (Fin n) (Fin 1) ℚ) :
    (qInv ((Matrix.fromColumns x z)ᵀ * Matrix.fromColumns x z) *
      ((Matrix.fromColumns x z)ᵀ * w)).submatrix Sum.inr id =
      qInv ((residualize x z)ᵀ * residualize x z) *
        ((residualize x z)ᵀ * residualize x w) := by
  rw [qInv_gram_fromColumns hx hs, Matrix.transpose_fromColumns, Matrix.fromRows_mul,
    Matrix.fromBlocks_mul_fromRows, submatrix_inr_fromRows, resid_inner hx z w]
  unfold residualize
  simp only [Matrix.mul_sub, Matrix.neg_mul, ← Matrix.mul_assoc]
  abel

theorem ar_resid_eq {n p k : ℕ} {x : Matrix (Fin n) (Fin p) ℚ}
    {z : Matrix (Fin n) (Fin k) ℚ} (hx : IsUnit (xᵀ * x).det)
    (hs : IsUnit ((residualize x z)ᵀ * residualize x z).det)
    (w : Matrix (Fin n) (Fin 1) ℚ) :
    w - Matrix.fromColumns x z *
      (qInv ((Matrix.fromColumns x z)ᵀ * Matrix.fromColumns x z) *
        ((Matrix.fromColumns x z)ᵀ * w)) =
      residualize x w - residualize x z *
        (qInv ((residualize x z)ᵀ * residualize x z) *
          ((residualize x z)ᵀ * residualize x w)) := by
  rw [qInv_gram_fromColumns hx hs, Matrix.transpose_fromColumns, Matrix.fromRows_mul,
    Matrix.fromBlocks_mul_fromRows, Matrix.fromColumns_mul_fromRows,
    resid_inner hx z w]
  unfold residualize
  simp only [Matrix.mul_add, Matrix.add_mul, Matrix.mul_sub, Matrix.sub_mul,
    Matrix.mul_neg, Matrix.neg_mul, ← Matrix.mul_assoc]
  abel

theorem submatrix_smul_inr {a b c d : Type} (r : ℚ) (A : Matrix (a ⊕ b) (c ⊕ d) ℚ) :
    (r • A).submatrix Sum.inr Sum.inr = r • A.submatrix Sum.inr Sum.inr := rfl

theorem col_quad_expand {n : ℕ} (a b : Matrix (Fin n) (Fin 1) ℚ) (c : ℚ) :
    ((a - c • b)ᵀ * (a - c • b)) 0 0 =
      (aᵀ * a) 0 0 - 2 * c * ((aᵀ * b) 0 0) + c ^ 2 * ((bᵀ * b) 0 0) := by
  simp only [Matrix.transpose_sub, Matrix.transpose_smul, Matrix.sub_mul,
    Matrix.mul_sub, Matrix.smul_mul, Matrix.mul_smul, smul_smul,
    Matrix.sub_apply, Matrix.smul_apply, smul_eq_mul]
  rw [col_inner_comm b a]
  ring

/-- The specification's reduced-form contrast g(beta0) = pi_y - beta0 pi_d
(stated from the spec text, for comparison with ar_test). -/
def rfG {n k : ℕ} (rf : RFResult n k) (b0 : ℚ) : Matrix (Fin k) (Fin 1) ℚ :=
  rf.pi_y - b0 • rf.pi_d

/-- The specification's V_g = V_yy - beta0 (V_yd + V_yd') + beta0² V_dd,
built from the blocks of the reduced_form covariance (stated from the spec
text, for comparison with ar_test). -/
def rfVg {n k : ℕ} (rf : RFResult n k) (b0 : ℚ) : Matrix (Fin k) (Fin k) ℚ :=
  rf.cov.toBlocks₁₁ - b0 • (rf.cov.toBlocks₁₂ + (rf.cov.toBlocks₁₂)ᵀ) +
    b0 ^ 2 • rf.cov.toBlocks₂₂

/-- The specification's reduced-form quadratic form g' V_g⁻¹ g. -/
def rfWald {n k : ℕ} (rf : RFResult n k) (b0 : ℚ) : ℚ :=
  ((rfG rf b0)ᵀ * qInv (rfVg rf b0) * rfG rf b0) 0 0

theorem ar_stat_eq_rfWald {n p k : ℕ} (y d : Matrix (Fin n) (Fin 1) ℚ)
    (x : Matrix (Fin n) (Fin p) ℚ) (z : Matrix (Fin n) (Fin k) ℚ) (b0 : ℚ)
    (cl : Fin n → ℕ) (lags : ℕ) (ker : HacKernel)
    (hx : IsUnit (xᵀ * x).det)
    (hs : IsUnit ((residualize x z)ᵀ * residualize x z).det) :
    arStat CovKind.unadjusted y d x z b0 cl lags ker =
      rfWald (reduced_form CovKind.unadjusted y d x z cl lags ker) b0 := by
  have hbz : (arCoef y d x z b0).submatrix Sum.inr id =
      qInv ((residualize x z)ᵀ * residualize x z) *
        ((residualize x z)ᵀ * residualize x (y - b0 • d)) :=
    ar_bz hx hs (y - b0 • d)
  have hresid : arResid y d x z b0 =
      residualize x (y - b0 • d) - residualize x z *
        (qInv ((residualize x z)ᵀ * residualize x z) *
          ((residualize x z)ᵀ * residualize x (y - b0 • d))) :=
    ar_resid_eq hx hs (y - b0 • d)
  have hg : rfG (reduced_form CovKind.unadjusted y d x z cl lags ker) b0 =
      qInv ((residualize x z)ᵀ * residualize x z) *
        ((residualize x z)ᵀ * residualize x (y - b0 • d)) := by
    unfold rfG
    rw [reduced_form_pi_y, reduced_form_pi_d, ← residualize_sub_smul x y d b0]
    simp only [Matrix.mul_sub, Matrix.mul_smul]
  have hrt : (reduced_form CovKind.unadjusted y d x z cl lags ker).resid_y -
      b0 • (reduced_form CovKind.unadjusted y d x z cl lags ker).resid_d =
      residualize x (y - b0 • d) - residualize x z *
        (qInv ((residualize x z)ᵀ * residualize x z) *
          ((residualize x z)ᵀ * residualize x (y - b0 • d))) := by
    rw [reduced_form_resid_y, reduced_form_resid_d, ← residualize_sub_smul x y d b0]
    simp only [Matrix.mul_sub, Matrix.mul_smul, smul_sub]
    abel
  have hsym : ((residualize x z)ᵀ * residualize x z)ᵀ =
      (residualize x z)ᵀ * residualize x z := by
    rw [Matrix.transpose_mul, Matrix.transpose_transpose]
  have hcard : (n : ℚ) - (Fintype.card (Fin p ⊕ Fin k) : ℚ) =
      (((n : ℤ) - (k : ℤ) - (p : ℤ) : ℤ) : ℚ) := by
    simp only [Fintype.card_sum, Fintype.card_fin]
    push_cast
    ring
  have hVz : (covOls CovKind.unadjusted (Matrix.fromColumns x z)
      (arResid y d x z b0) cl lags ker).submatrix Sum.inr Sum.inr =
      (((arResid y d x z b0)ᵀ * arResid y d x z b0) 0 0 /
        ((n : ℚ) - (Fintype.card (Fin p ⊕ Fin k) : ℚ))) •
        qInv ((residualize x z)ᵀ * residualize x z) := by
    rw [covOls_unadjusted, submatrix_smul_inr, qInv_gram_fromColumns hx hs,
      fromBlocks_submatrix_inr_inr]
  have hVg : rfVg (reduced_form CovKind.unadjusted y d x z cl lags ker) b0 =
      ((((reduced_form CovKind.unadjusted y d x z cl lags ker).resid_y -
          b0 • (reduced_form CovKind.unadjusted y d x z cl lags ker).resid_d)ᵀ *
        ((reduced_form CovKind.unadjusted y d x z cl lags ker).resid_y -
          b0 • (reduced_form CovKind.unadjusted y d x z cl lags ker).resid_d)) 0 0 /
        (((n : ℤ) - (k : ℤ) - (p : ℤ) : ℤ) : ℚ)) •
        qInv ((residualize x z)ᵀ * residualize x z) := by
    unfold rfVg
    rw [reduced_form_cov, covReducedForm_unadjusted, Matrix.toBlocks_fromBlocks₁₁,
      Matrix.toBlocks_fromBlocks₁₂, Matrix.toBlocks_fromBlocks₂₂,
      Matrix.transpose_smul, qInv_transpose hsym, col_quad_expand]
    match_scalars
    ring
  show (((arCoef y d x z b0).submatrix Sum.inr id)ᵀ *
      qInv ((covOls CovKind.unadjusted (Matrix.fromColumns x z)
        (arResid y d x z b0) cl lags ker).submatrix Sum.inr Sum.inr) *
      ((arCoef y d x z b0).submatrix Sum.inr id)) 0 0 =
    rfWald (reduced_form CovKind.unadjusted y d x z cl lags ker) b0
  unfold rfWald
  rw [hVz, hresid, hcard, hbz, hg, hVg, hrt]

/-- Claim C4: with the unadjusted covariance regime and full-column-rank
[x, z] (equivalently, invertible x'x and invertible Gram matrix of the
x-residualized instruments), the AR Wald statistic of the instrument
coefficients in the regression of y - beta0 d on [x, z] equals, in exact
arithmetic, the reduced-form quadratic form g' V_g⁻¹ g with
g = pi_y - beta0 pi_d and V_g = V_yy - beta0 (V_yd + V_yd') + beta0² V_dd
built from reduced_form output under the same regime, and ar_test refers
that statistic to the chi-square(k_instr) survival function with
df = k_instr. -/
theorem claim_C4 {n p k : ℕ} (chi2sf : ℚ → ℕ → ℚ) (y d : Matrix (Fin n) (Fin 1) ℚ)
    (x : Matrix (Fin n) (Fin p) ℚ) (z : Matrix (Fin n) (Fin k) ℚ) (b0 : ℚ)
    (cl : Fin n → ℕ) (lags : ℕ) (ker : HacKernel)
    (hx : IsUnit (xᵀ * x).det)
    (hs : IsUnit ((residualize x z)ᵀ * residualize x z).det) :
    arStat CovKind.unadjusted y d x z b0 cl lags ker =
      rfWald (reduced_form CovKind.unadjusted y d x z cl lags ker) b0 ∧
    ar_test chi2sf CovKind.unadjusted y d x z b0 cl lags ker =
      { statistic := rfWald (reduced_form CovKind.unadjusted y d x z cl lags ker) b0,
        df := k,
        pvalue :=
          chi2sf (rfWald (reduced_form CovKind.unadjusted y d x z cl lags ker) b0) k } := by
  have h := ar_stat_eq_rfWald y d x z b0 cl lags ker hx hs
  exact ⟨h, by unfold ar_test; rw [h]⟩

/-- Claim C4 witness: the equivalence at the concrete full-rank instance
n = 2, p = k = 1, x = (1,0)', z = (0,1)' (so that x'x and the residualized
instrument Gram matrix are both the 1x1 identity), y = d = 0, beta0 = 0. -/
theorem claim_C4_witness :
    IsUnit (((Matrix.of ![![(1 : ℚ)], ![0]] : Matrix (Fin 2) (Fin 1) ℚ)ᵀ *
      Matrix.of ![![(1 : ℚ)], ![0]]).det) ∧
    IsUnit (((residualize (Matrix.of ![![(1 : ℚ)], ![0]])
        (Matrix.of ![![(0 : ℚ)], ![1]] : Matrix (Fin 2) (Fin 1) ℚ))ᵀ *
      residualize (Matrix.of ![![(1 : ℚ)], ![0]])
        (Matrix.of ![![(0 : ℚ)], ![1]])).det) ∧
    arStat CovKind.unadjusted 0 0 (Matrix.of ![![(1 : ℚ)], ![0]])
        (Matrix.of ![![(0 : ℚ)], ![1]]) 0 (fun _ => 0) 0 HacKernel.bartlett =
      rfWald (reduced_form CovKind.unadjusted 0 0 (Matrix.of ![![(1 : ℚ)], ![0]])
        (Matrix.of ![![(0 : ℚ)], ![1]]) (fun _ => 0) 0 HacKernel.bartlett) 0 := by
  have hz : residualize (Matrix.of ![![(1 : ℚ)], ![0]])
      (Matrix.of ![![(0 : ℚ)], ![1]] : Matrix (Fin 2) (Fin 1) ℚ) =
      Matrix.of ![![(0 : ℚ)], ![1]] := by
    unfold residualize
    have h1 : (Matrix.of ![![(1 : ℚ)], ![0]] : Matrix (Fin 2) (Fin 1) ℚ)ᵀ *
        Matrix.of ![![(0 : ℚ)], ![1]] = 0 := by
      ext i j
      fin_cases i
      fin_cases j
      simp [Matrix.mul_apply, Fin.sum_univ_two, Matrix.transpose_apply, Matrix.vecHead, Matrix.vecTail]
    rw [h1, Matrix.mul_zero, Matrix.mul_zero, sub_zero]
  have hdet1 : ((Matrix.of ![![(1 : ℚ)], ![0]] : Matrix (Fin 2) (Fin 1) ℚ)ᵀ *
      Matrix.of ![![(1 : ℚ)], ![0]]).det = 1 := by
    rw [Matrix.det_fin_one]
    simp [Matrix.mul_apply, Fin.sum_univ_two, Matrix.transpose_apply, Matrix.vecHead, Matrix.vecTail]
  have hdet2 : ((Matrix.of ![![(0 : ℚ)], ![1]] : Matrix (Fin 2) (Fin 1) ℚ)ᵀ *
      Matrix.of ![![(0 : ℚ)], ![1]]).det = 1 := by
    rw [Matrix.det_fin_one]
    simp [Matrix.mul_apply, Fin.sum_univ_two, Matrix.transpose_apply, Matrix.vecHead, Matrix.vecTail]
  have hx : IsUnit (((Matrix.of ![![(1 : ℚ)], ![0]] : Matrix (Fin 2) (Fin 1) ℚ)ᵀ *
      Matrix.of ![![(1 : ℚ)], ![0]]).det) := by
    rw [hdet1]; exact isUnit_one
  have hs : IsUnit (((residualize (Matrix.of ![![(1 : ℚ)], ![0]])
      (Matrix.of ![![(0 : ℚ)], ![1]] : Matrix (Fin 2) (Fin 1) ℚ))ᵀ *
      residualize (Matrix.of ![![(1 : ℚ)], ![0]])
        (Matrix.of ![![(0 : ℚ)], ![1]])).det) := by
    rw [hz, hdet2]; exact isUnit_one
  exact ⟨hx, hs,
    (claim_C4 (fun _ _ => 0) 0 0 (Matrix.of ![![(1 : ℚ)], ![0]])
      (Matrix.of ![![(0 : ℚ)], ![1]]) 0 (fun _ => 0) 0 HacKernel.bartlett hx hs).1⟩

/-! ## C7: lm_test postconditions -/

theorem reduced_form_y {n p k : ℕ} (kind : CovKind)
    (y d : Matrix (Fin n) (Fin 1) ℚ) (x : Matrix (Fin n) (Fin p) ℚ)
    (z : Matrix (Fin n) (Fin k) ℚ) (cl : Fin n → ℕ) (lags : ℕ) (ker : HacKernel) :
    (reduced_form kind y d x z cl lags ker).y = residualize x y := rfl

theorem reduced_form_d {n p k : ℕ} (kind : CovKind)
    (y d : Matrix (Fin n) (Fin 1) ℚ) (x : Matrix (Fin n) (Fin p) ℚ)
    (z : Matrix (Fin n) (Fin k) ℚ) (cl : Fin n → ℕ) (lags : ℕ) (ker : HacKernel) :
    (reduced_form kind y d x z cl lags ker).d = residualize x d := rfl

theorem reduced_form_z {n p k : ℕ} (kind : CovKind)
    (y d : Matrix (Fin n) (Fin 1) ℚ) (x : Matrix (Fin n) (Fin p) ℚ)
    (z : Matrix (Fin n) (Fin k) ℚ) (cl : Fin n → ℕ) (lags : ℕ) (ker : HacKernel) :
    (reduced_form kind y d x z cl lags ker).z = residualize x z := rfl

theorem residualize_zero {n p : ℕ} {c : Type} [Fintype c]
    (x : Matrix (Fin n) (Fin p) ℚ) : residualize x (0 : Matrix (Fin n) c ℚ) = 0 := by
  simp [residualize]

theorem residualize_zero_x {n p : ℕ} {c : Type} [Fintype c]
    (v : Matrix (Fin n) c ℚ) : residualize (0 : Matrix (Fin n) (Fin p) ℚ) v = v := by
  simp [residualize]

theorem projOn_zero_right {n : ℕ} {c m : Type} [Fintype c] [Fintype m] [DecidableEq m]
    (Z : Matrix (Fin n) m ℚ) : projOn Z (0 : Matrix (Fin n) c ℚ) = 0 := by
  simp [projOn]

theorem projOn_zero_left {n : ℕ} {c m : Type} [Fintype c] [Fintype m] [DecidableEq m]
    (v : Matrix (Fin n) c ℚ) : projOn (0 : Matrix (Fin n) m ℚ) v = 0 := by
  simp [projOn]

theorem lm_test_unadjusted {n p k : ℕ} (chi2sf : ℚ → ℕ → ℚ)
    (y d : Matrix (Fin n) (Fin 1) ℚ) (x : Matrix (Fin n) (Fin p) ℚ)
    (z : Matrix (Fin n) (Fin k) ℚ) (b0 : ℚ) (cl : Fin n → ℕ) (lags : ℕ)
    (ker : HacKernel) :
    lm_test chi2sf CovKind.unadjusted y d x z b0 cl lags ker =
      { statistic :=
          (lmUnadjStat n k p (reduced_form CovKind.unadjusted y d x z cl lags ker) b0).1,
        pvalue := chi2sf
          (lmUnadjStat n k p (reduced_form CovKind.unadjusted y d x z cl lags ker) b0).1 1,
        df := 1,
        warnings :=
          (lmUnadjStat n k p (reduced_form CovKind.unadjusted y d x z cl lags ker) b0).2 } :=
  rfl

theorem lm_test_cov {n p k : ℕ} (chi2sf : ℚ → ℕ → ℚ) {kind : CovKind}
    (hk : kind ≠ CovKind.unadjusted) (y d : Matrix (Fin n) (Fin 1) ℚ)
    (x : Matrix (Fin n) (Fin p) ℚ) (z : Matrix (Fin n) (Fin k) ℚ) (b0 : ℚ)
    (cl : Fin n → ℕ) (lags : ℕ) (ker : HacKernel) :
    lm_test chi2sf kind y d x z b0 cl lags ker =
      { statistic := (lmCovStat (reduced_form kind y d x z cl lags ker) b0).1,
        pvalue := chi2sf (lmCovStat (reduced_form kind y d x z cl lags ker) b0).1 1,
        df := 1,
        warnings := (lmCovStat (reduced_form kind y d x z cl lags ker) b0).2 } := by
  simp only [lm_test]
  rw [if_neg hk]

/-- Claim C7: lm_test always returns df = 1 and p-value equal to the
chi-square(1) survival function of its statistic, for every covariance
regime and every k_instr; in the unadjusted regime a nonpositive sigma_hat
(resp. a nonpositive projected-regressor norm xtx) degrades to statistic 0
with the corresponding warning message; in the covariance-based branch a
nonpositive information term likewise degrades to statistic 0 with a
warning, and no path raises. -/
theorem claim_C7 :
    (∀ {n p k : ℕ} (chi2sf : ℚ → ℕ → ℚ) (kind : CovKind)
      (y d : Matrix (Fin n) (Fin 1) ℚ) (x : Matrix (Fin n) (Fin p) ℚ)
      (z : Matrix (Fin n) (Fin k) ℚ) (b0 : ℚ) (cl : Fin n → ℕ) (lags : ℕ)
      (ker : HacKernel),
      (lm_test chi2sf kind y d x z b0 cl lags ker).df = 1 ∧
      (lm_test chi2sf kind y d x z b0 cl lags ker).pvalue =
        chi2sf (lm_test chi2sf kind y d x z b0 cl lags ker).statistic 1) ∧
    (∀ {n p k : ℕ} (chi2sf : ℚ → ℕ → ℚ) (y d : Matrix (Fin n) (Fin 1) ℚ)
      (x : Matrix (Fin n) (Fin p) ℚ) (z : Matrix (Fin n) (Fin k) ℚ) (b0 : ℚ)
      (cl : Fin n → ℕ) (lags : ℕ) (ker : HacKernel),
      lmSigmaHat (reduced_form CovKind.unadjusted y d x z cl lags ker) b0 ≤ 0 →
      (lm_test chi2sf CovKind.unadjusted y d x z b0 cl lags ker).statistic = 0 ∧
      "LM sigma_hat not positive; statistic set to 0" ∈
        (lm_test chi2sf CovKind.unadjusted y d x z b0 cl lags ker).warnings) ∧
    (∀ {n p k : ℕ} (chi2sf : ℚ → ℕ → ℚ) (y d : Matrix (Fin n) (Fin 1) ℚ)
      (x : Matrix (Fin n) (Fin p) ℚ) (z : Matrix (Fin n) (Fin k) ℚ) (b0 : ℚ)
      (cl : Fin n → ℕ) (lags : ℕ) (ker : HacKernel),
      0 < lmSigmaHat (reduced_form CovKind.unadjusted y d x z cl lags ker) b0 →
      lmXtx (reduced_form CovKind.unadjusted y d x z cl lags ker) b0 ≤ 0 →
      (lm_test chi2sf CovKind.unadjusted y d x z b0 cl lags ker).statistic = 0 ∧
      "LM projection not positive; statistic set to 0" ∈
        (lm_test chi2sf CovKind.unadjusted y d x z b0 cl lags ker).warnings) ∧
    (∀ {n p k : ℕ} (chi2sf : ℚ → ℕ → ℚ) (kind : CovKind)
      (y d : Matrix (Fin n) (Fin 1) ℚ) (x : Matrix (Fin n) (Fin p) ℚ)
      (z : Matrix (Fin n) (Fin k) ℚ) (b0 : ℚ) (cl : Fin n → ℕ) (lags : ℕ)
      (ker : HacKernel), kind ≠ CovKind.unadjusted →
      lmInfo (reduced_form kind y d x z cl lags ker) b0 ≤ 0 →
      (lm_test chi2sf kind y d x z b0 cl lags ker).statistic = 0 ∧
      "LM information term not positive; statistic set to 0" ∈
        (lm_test chi2sf kind y d x z b0 cl lags ker).warnings) := by
  refine ⟨fun chi2sf kind y d x z b0 cl lags ker => ⟨rfl, rfl⟩, ?_, ?_, ?_⟩
  · intro n p k chi2sf y d x z b0 cl lags ker h
    have hsw : lmUnadjStat n k p (reduced_form CovKind.unadjusted y d x z cl lags ker) b0 =
        (0, ["LM sigma_hat not positive; statistic set to 0"]) := by
      unfold lmUnadjStat
      rw [if_pos h]
    rw [lm_test_unadjusted, hsw]
    exact ⟨rfl, List.mem_singleton_self _⟩
  · intro n p k chi2sf y d x z b0 cl lags ker h1 h2
    have hsw : lmUnadjStat n k p (reduced_form CovKind.unadjusted y d x z cl lags ker) b0 =
        (0, ["LM projection not positive; statistic set to 0"]) := by
      unfold lmUnadjStat
      rw [if_neg (not_le.mpr h1), if_pos h2]
    rw [lm_test_unadjusted, hsw]
    exact ⟨rfl, List.mem_singleton_self _⟩
  · intro n p k chi2sf kind y d x z b0 cl lags ker hk h
    have hsw : lmCovStat (reduced_form kind y d x z cl lags ker) b0 =
        (0, ["LM information term not positive; statistic set to 0"]) := by
      unfold lmCovStat
      rw [if_pos h]
    rw [lm_test_cov chi2sf hk, hsw]
    exact ⟨rfl, List.mem_singleton_self _⟩

/-- Claim C7 witness: the sigma_hat fallback on all-zero data (n = p = k = 1,
unadjusted), the xtx fallback at y = (1,0)' with zero instruments (n = 2,
unadjusted), and the information-term fallback on all-zero data under HC0. -/
theorem claim_C7_witness :
    ((lm_test (fun _ _ => 0) CovKind.unadjusted (0 : Matrix (Fin 1) (Fin 1) ℚ) 0
        (0 : Matrix (Fin 1) (Fin 1) ℚ) (0 : Matrix (Fin 1) (Fin 1) ℚ) 0
        (fun _ => 0) 0 HacKernel.bartlett).statistic = 0 ∧
      "LM sigma_hat not positive; statistic set to 0" ∈
        (lm_test (fun _ _ => 0) CovKind.unadjusted (0 : Matrix (Fin 1) (Fin 1) ℚ) 0
          (0 : Matrix (Fin 1) (Fin 1) ℚ) (0 : Matrix (Fin 1) (Fin 1) ℚ) 0
          (fun _ => 0) 0 HacKernel.bartlett).warnings) ∧
    ((lm_test (fun _ _ => 0) CovKind.unadjusted
        (Matrix.of ![![(1 : ℚ)], ![0]]) 0 (0 : Matrix (Fin 2) (Fin 1) ℚ)
        (0 : Matrix (Fin 2) (Fin 1) ℚ) 0 (fun _ => 0) 0
        HacKernel.bartlett).statistic = 0 ∧
      "LM projection not positive; statistic set to 0" ∈
        (lm_test (fun _ _ => 0) CovKind.unadjusted
          (Matrix.of ![![(1 : ℚ)], ![0]]) 0 (0 : Matrix (Fin 2) (Fin 1) ℚ)
          (0 : Matrix (Fin 2) (Fin 1) ℚ) 0 (fun _ => 0) 0
          HacKernel.bartlett).warnings) ∧
    ((lm_test (fun _ _ => 0) CovKind.hc0 (0 : Matrix (Fin 1) (Fin 1) ℚ) 0
        (0 : Matrix (Fin 1) (Fin 1) ℚ) (0 : Matrix (Fin 1) (Fin 1) ℚ) 0
        (fun _ => 0) 0 HacKernel.bartlett).statistic = 0 ∧
      "LM information term not positive; statistic set to 0" ∈
        (lm_test (fun _ _ => 0) CovKind.hc0 (0 : Matrix (Fin 1) (Fin 1) ℚ) 0
          (0 : Matrix (Fin 1) (Fin 1) ℚ) (0 : Matrix (Fin 1) (Fin 1) ℚ) 0
          (fun _ => 0) 0 HacKernel.bartlett).warnings) := by
  have ha : lmSigmaHat (reduced_form CovKind.unadjusted (0 : Matrix (Fin 1) (Fin 1) ℚ)
      0 (0 : Matrix (Fin 1) (Fin 1) ℚ) (0 : Matrix (Fin 1) (Fin 1) ℚ)
      (fun _ => 0) 0 HacKernel.bartlett) 0 ≤ 0 := by
    simp [lmSigmaHat, reduced_form_y, reduced_form_d, reduced_form_z,
      residualize_zero, projOn_zero_right]
  have hb1 : 0 < lmSigmaHat (reduced_form CovKind.unadjusted
      (Matrix.of ![![(1 : ℚ)], ![0]]) 0 (0 : Matrix (Fin 2) (Fin 1) ℚ)
      (0 : Matrix (Fin 2) (Fin 1) ℚ) (fun _ => 0) 0 HacKernel.bartlett) 0 := by
    simp [lmSigmaHat, reduced_form_y, reduced_form_d, reduced_form_z,
      residualize_zero, residualize_zero_x, projOn_zero_left,
      Matrix.mul_apply, Fin.sum_univ_two, Matrix.transpose_apply,
      Matrix.vecHead, Matrix.vecTail]
  have hb2 : lmXtx (reduced_form CovKind.unadjusted
      (Matrix.of ![![(1 : ℚ)], ![0]]) 0 (0 : Matrix (Fin 2) (Fin 1) ℚ)
      (0 : Matrix (Fin 2) (Fin 1) ℚ) (fun _ => 0) 0 HacKernel.bartlett) 0 ≤ 0 := by
    simp [lmXtx, lmXtp, reduced_form_y, reduced_form_d, reduced_form_z,
      residualize_zero, residualize_zero_x, projOn_zero_left, projOn_zero_right]
  have hc : lmInfo (reduced_form CovKind.hc0 (0 : Matrix (Fin 1) (Fin 1) ℚ) 0
      (0 : Matrix (Fin 1) (Fin 1) ℚ) (0 : Matrix (Fin 1) (Fin 1) ℚ)
      (fun _ => 0) 0 HacKernel.bartlett) 0 ≤ 0 := by
    have hcov : (reduced_form CovKind.hc0 (0 : Matrix (Fin 1) (Fin 1) ℚ) 0
        (0 : Matrix (Fin 1) (Fin 1) ℚ) (0 : Matrix (Fin 1) (Fin 1) ℚ)
        (fun _ => 0) 0 HacKernel.bartlett).cov = 0 := by
      rw [reduced_form_cov]
      simp [covReducedForm, reduced_form_resid_y, reduced_form_resid_d,
        residualize_zero, qInv]
    have hq0 : (0 : ℚ)⁻¹ = 0 := by norm_num
    simp [lmInfo, hcov, qInv, hq0]
  exact ⟨claim_C7.2.1 _ _ _ _ _ _ _ _ _ ha,
    claim_C7.2.2.1 _ _ _ _ _ _ _ _ _ hb1 hb2,
    claim_C7.2.2.2 _ CovKind.hc0 _ _ _ _ _ _ _ _ (by decide) hc⟩

/-! ## C1: invariance under invertible diagonal rescaling of the instruments -/

theorem gram_scale {n : ℕ} {m : Type} [Fintype m] (X : Matrix (Fin n) m ℚ)
    (S : Matrix m m ℚ) : (X * S)ᵀ * (X * S) = Sᵀ * (Xᵀ * X) * S := by
  rw [Matrix.transpose_mul]
  simp only [Matrix.mul_assoc]

theorem qInv_conj {m : Type} [Fintype m] [DecidableEq m] (A S : Matrix m m ℚ) :
    qInv (Sᵀ * A * S) = qInv S * qInv A * qInv Sᵀ := by
  simp only [qInv_eq]
  exact inv_triple Sᵀ A S

theorem det_transpose_unit {m : Type} [Fintype m] [DecidableEq m]
    {S : Matrix m m ℚ} (hS : IsUnit S.det) : IsUnit Sᵀ.det := by
  rwa [Matrix.det_transpose]

theorem projOn_scale {n : ℕ} {c m : Type} [Fintype c] [Fintype m] [DecidableEq m]
    (Z : Matrix (Fin n) m ℚ) {S : Matrix m m ℚ} (hS : IsUnit S.det)
    (v : Matrix (Fin n) c ℚ) : projOn (Z * S) v = projOn Z v := by
  unfold projOn
  rw [gram_scale, qInv_conj, Matrix.transpose_mul]
  simp only [qInv_eq, ← Matrix.mul_assoc]
  rw [Matrix.mul_nonsing_inv_cancel_right _ _ hS,
    Matrix.nonsing_inv_mul_cancel_right _ _ (det_transpose_unit hS)]

theorem hat_scale {n : ℕ} {m : Type} [Fintype m] [DecidableEq m]
    (X : Matrix (Fin n) m ℚ) {S : Matrix m m ℚ} (hS : IsUnit S.det) :
    X * S * qInv ((X * S)ᵀ * (X * S)) * (X * S)ᵀ = X * qInv (Xᵀ * X) * Xᵀ := by
  rw [gram_scale, qInv_conj, Matrix.transpose_mul]
  simp only [qInv_eq, ← Matrix.mul_assoc]
  rw [Matrix.mul_nonsing_inv_cancel_right _ _ hS,
    Matrix.nonsing_inv_mul_cancel_right _ _ (det_transpose_unit hS)]

theorem leverage_scale {n : ℕ} {m : Type} [Fintype m] [DecidableEq m]
    (X : Matrix (Fin n) m ℚ) {S : Matrix m m ℚ} (hS : IsUnit S.det) :
    leverage (X * S) = leverage X := by
  funext i
  unfold leverage
  rw [hat_scale X hS]

theorem hcScale_scale {n : ℕ} {m : Type} [Fintype m] [DecidableEq m]
    (X : Matrix (Fin n) m ℚ) {S : Matrix m m ℚ} (hS : IsUnit S.det) :
    hcScale (X * S) = hcScale X := by
  funext i
  unfold hcScale
  rw [leverage_scale X hS]

theorem rowScale_mul {n : ℕ} {m m' : Type} [Fintype m] (X : Matrix (Fin n) m ℚ)
    (S : Matrix m m' ℚ) (w : Fin n → ℚ) :
    rowScale (X * S) w = rowScale X w * S := by
  ext i j
  simp only [rowScale, Matrix.mul_apply, Matrix.of_apply, Finset.sum_mul]
  exact Finset.sum_congr rfl fun a _ => by ring

theorem weightedMeat_scale {n : ℕ} {m : Type} [Fintype m] (X : Matrix (Fin n) m ℚ)
    (S : Matrix m m ℚ) (w : Fin n → ℚ) :
    weightedMeat (X * S) w = Sᵀ * weightedMeat X w * S := by
  unfold weightedMeat
  rw [rowScale_mul, Matrix.transpose_mul]
  simp only [Matrix.mul_assoc]

theorem clusterScore_scale {n : ℕ} {m : Type} [Fintype m] (X : Matrix (Fin n) m ℚ)
    (S : Matrix m m ℚ) (r : Matrix (Fin n) (Fin 1) ℚ) (cl : Fin n → ℕ) (c : ℕ) :
    clusterScore (X * S) r cl c = Sᵀ * clusterScore X r cl c := by
  unfold clusterScore
  rw [Matrix.transpose_mul]
  simp only [Matrix.mul_assoc]

theorem clusterMeat_scale {n : ℕ} {m : Type} [Fintype m] (X : Matrix (Fin n) m ℚ)
    (S : Matrix m m ℚ) (r1 r2 : Matrix (Fin n) (Fin 1) ℚ) (cl : Fin n → ℕ) :
    clusterMeat (X * S) r1 r2 cl = Sᵀ * clusterMeat X r1 r2 cl * S := by
  unfold clusterMeat
  rw [Matrix.mul_sum, Matrix.sum_mul]
  refine Finset.sum_congr rfl fun c _ => ?_
  rw [clusterScore_scale, clusterScore_scale, Matrix.transpose_mul,
    Matrix.transpose_transpose]
  simp only [Matrix.mul_assoc]

theorem rowShift_mul {n : ℕ} {m m' : Type} [Fintype m] (lag : ℕ)
    (Xu : Matrix (Fin n) m ℚ) (S : Matrix m m' ℚ) :
    rowShift lag (Xu * S) = rowShift lag Xu * S := by
  ext i j
  by_cases h : (i : ℕ) + lag < n <;>
    simp [rowShift, Matrix.mul_apply, h]

theorem hacGamma_scale {n : ℕ} {m : Type} [Fintype m] (Xu1 Xu2 : Matrix (Fin n) m ℚ)
    (S : Matrix m m ℚ) (lag : ℕ) :
    hacGamma (Xu1 * S) (Xu2 * S) lag = Sᵀ * hacGamma Xu1 Xu2 lag * S := by
  unfold hacGamma
  rw [rowShift_mul, Matrix.transpose_mul]
  simp only [Matrix.mul_assoc]

theorem hacMeat_scale {n : ℕ} {m : Type} [Fintype m] (X : Matrix (Fin n) m ℚ)
    (S : Matrix m m ℚ) (r1 r2 : Matrix (Fin n) (Fin 1) ℚ) (lags : ℕ)
    (ker : HacKernel) :
    hacMeat (X * S) r1 r2 lags ker = Sᵀ * hacMeat X r1 r2 lags ker * S := by
  simp only [hacMeat]
  rw [rowScale_mul, rowScale_mul]
  set Xu1 := rowScale X (fun i => r1 i 0) with hXu1
  set Xu2 := rowScale X (fun i => r2 i 0) with hXu2
  rw [Matrix.mul_add, Matrix.add_mul]
  congr 1
  · rw [Matrix.transpose_mul]
    simp only [Matrix.mul_assoc]
  · rw [Matrix.mul_sum, Matrix.sum_mul]
    refine Finset.sum_congr rfl fun lag _ => ?_
    rw [hacGamma_scale Xu1 Xu2 S (lag + 1), mul_ite, ite_mul, Matrix.mul_zero,
      Matrix.zero_mul]
    by_cases h : 0 < kernelWeight (lag + 1) lags ker
    · rw [if_pos h, if_pos h, Matrix.mul_smul, Matrix.smul_mul]
      congr 1
      rw [Matrix.transpose_mul, Matrix.transpose_mul, Matrix.transpose_transpose,
        Matrix.mul_add, Matrix.add_mul]
      simp only [Matrix.mul_assoc]
    · rw [if_neg h, if_neg h]

theorem momentMeat_scale {n : ℕ} {m : Type} [Fintype m] [DecidableEq m]
    (kind : CovKind) (X : Matrix (Fin n) m ℚ) {S : Matrix m m ℚ}
    (hS : IsUnit S.det) (r1 r2 : Matrix (Fin n) (Fin 1) ℚ) (cl : Fin n → ℕ)
    (lags : ℕ) (ker : HacKernel) :
    momentMeat kind (X * S) r1 r2 cl lags ker =
      Sᵀ * momentMeat kind X r1 r2 cl lags ker * S := by
  cases kind with
  | cluster => exact clusterMeat_scale X S r1 r2 cl
  | hac => exact hacMeat_scale X S r1 r2 lags ker
  | hc2 =>
      show weightedMeat (X * S) (fun i => r1 i 0 * r2 i 0 / hcScale (X * S) i) = _
      rw [hcScale_scale X hS]
      exact weightedMeat_scale X S _
  | hc3 =>
      show weightedMeat (X * S) (fun i => r1 i 0 * r2 i 0 / hcScale (X * S) i ^ 2) = _
      rw [hcScale_scale X hS]
      exact weightedMeat_scale X S _
  | unadjusted => exact weightedMeat_scale X S _
  | hc0 => exact weightedMeat_scale X S _
  | hc1 => exact weightedMeat_scale X S _

theorem sandwich_scale {m : Type} [Fintype m] [DecidableEq m]
    (B meat : Matrix m m ℚ) {S : Matrix m m ℚ} (hS : IsUnit S.det) :
    S⁻¹ * B * Sᵀ⁻¹ * (Sᵀ * meat * S) * (S⁻¹ * B * Sᵀ⁻¹) =
      S⁻¹ * (B * meat * B) * Sᵀ⁻¹ := by
  simp only [← Matrix.mul_assoc]
  rw [Matrix.nonsing_inv_mul_cancel_right _ _ (det_transpose_unit hS),
    Matrix.mul_nonsing_inv_cancel_right _ _ hS]

theorem covOls_scale {n : ℕ} {m : Type} [Fintype m] [DecidableEq m]
    (kind : CovKind) (X : Matrix (Fin n) m ℚ) {S : Matrix m m ℚ}
    (hS : IsUnit S.det) (r : Matrix (Fin n) (Fin 1) ℚ) (cl : Fin n → ℕ)
    (lags : ℕ) (ker : HacKernel) :
    covOls kind (X * S) r cl lags ker =
      S⁻¹ * covOls kind X r cl lags ker * Sᵀ⁻¹ := by
  have hbread : qInv ((X * S)ᵀ * (X * S)) = S⁻¹ * qInv (Xᵀ * X) * Sᵀ⁻¹ := by
    rw [gram_scale, qInv_conj]
    simp only [qInv_eq]
  have hsand : ∀ kd : CovKind,
      qInv ((X * S)ᵀ * (X * S)) * momentMeat kd (X * S) r r cl lags ker *
        qInv ((X * S)ᵀ * (X * S)) =
      S⁻¹ * (qInv (Xᵀ * X) * momentMeat kd X r r cl lags ker * qInv (Xᵀ * X)) *
        Sᵀ⁻¹ := by
    intro kd
    rw [hbread, momentMeat_scale kd X hS]
    exact sandwich_scale _ _ hS
  cases kind with
  | unadjusted =>
      show ((rᵀ * r) 0 0 / ((n : ℚ) - (Fintype.card m : ℚ))) •
          qInv ((X * S)ᵀ * (X * S)) =
        S⁻¹ * (((rᵀ * r) 0 0 / ((n : ℚ) - (Fintype.card m : ℚ))) •
          qInv (Xᵀ * X)) * Sᵀ⁻¹
      rw [hbread, Matrix.mul_smul, Matrix.smul_mul]
  | hc1 =>
      show ((n : ℚ) / ((n : ℚ) - (Fintype.card m : ℚ))) •
          (qInv ((X * S)ᵀ * (X * S)) *
            momentMeat CovKind.hc1 (X * S) r r cl lags ker *
            qInv ((X * S)ᵀ * (X * S))) =
        S⁻¹ * (((n : ℚ) / ((n : ℚ) - (Fintype.card m : ℚ))) •
          (qInv (Xᵀ * X) * momentMeat CovKind.hc1 X r r cl lags ker *
            qInv (Xᵀ * X))) * Sᵀ⁻¹
      rw [hsand CovKind.hc1, Matrix.mul_smul, Matrix.smul_mul]
  | cluster =>
      show (((nClusters cl : ℚ) / ((nClusters cl : ℚ) - 1)) *
          (((n : ℚ) - 1) / ((n : ℚ) - (Fintype.card m : ℚ)))) •
          (qInv ((X * S)ᵀ * (X * S)) *
            momentMeat CovKind.cluster (X * S) r r cl lags ker *
            qInv ((X * S)ᵀ * (X * S))) =
        S⁻¹ * ((((nClusters cl : ℚ) / ((nClusters cl : ℚ) - 1)) *
          (((n : ℚ) - 1) / ((n : ℚ) - (Fintype.card m : ℚ)))) •
          (qInv (Xᵀ * X) * momentMeat CovKind.cluster X r r cl lags ker *
            qInv (Xᵀ * X))) * Sᵀ⁻¹
      rw [hsand CovKind.cluster, Matrix.mul_smul, Matrix.smul_mul]
  | hc0 => exact hsand CovKind.hc0
  | hc2 => exact hsand CovKind.hc2
  | hc3 => exact hsand CovKind.hc3
  | hac => exact hsand CovKind.hac

theorem diag_det_unit {k : ℕ} {c : Fin k → ℚ} (hc : ∀ i, c i ≠ 0) :
    IsUnit (Matrix.diagonal c).det := by
  rw [Matrix.det_diagonal]
  exact isUnit_iff_ne_zero.mpr (Finset.prod_ne_zero_iff.mpr fun i _ => hc i)

theorem blockS_transpose {p k : ℕ} {D : Matrix (Fin k) (Fin k) ℚ} (hDt : Dᵀ = D) :
    (Matrix.fromBlocks (1 : Matrix (Fin p) (Fin p) ℚ) 0 0 D)ᵀ =
      Matrix.fromBlocks 1 0 0 D := by
  rw [Matrix.fromBlocks_transpose, Matrix.transpose_one, Matrix.transpose_zero,
    Matrix.transpose_zero, hDt]

theorem blockS_det_unit {p k : ℕ} {D : Matrix (Fin k) (Fin k) ℚ} (hD : IsUnit D.det) :
    IsUnit (Matrix.fromBlocks (1 : Matrix (Fin p) (Fin p) ℚ) 0 0 D).det := by
  rw [Matrix.det_fromBlocks_zero₂₁, Matrix.det_one, one_mul]
  exact hD

theorem blockS_inv {p k : ℕ} {D : Matrix (Fin k) (Fin k) ℚ} (hD : IsUnit D.det) :
    (Matrix.fromBlocks (1 : Matrix (Fin p) (Fin p) ℚ) 0 0 D)⁻¹ =
      Matrix.fromBlocks 1 0 0 D⁻¹ := by
  apply Matrix.inv_eq_right_inv
  rw [Matrix.fromBlocks_multiply]
  simp only [Matrix.one_mul, Matrix.mul_one, Matrix.mul_zero, Matrix.zero_mul,
    add_zero, zero_add]
  rw [Matrix.mul_nonsing_inv _ hD, Matrix.fromBlocks_one]

theorem fromColumns_scale {n p k : ℕ} (x : Matrix (Fin n) (Fin p) ℚ)
    (z : Matrix (Fin n) (Fin k) ℚ) (D : Matrix (Fin k) (Fin k) ℚ) :
    Matrix.fromColumns x z * Matrix.fromBlocks 1 0 0 D =
      Matrix.fromColumns x (z * D) := by
  rw [Matrix.fromColumns_mul_fromBlocks]
  simp only [Matrix.mul_one, Matrix.mul_zero, add_zero, zero_add]

theorem blockLowerMul_submatrix_inr {a b e : Type} [Fintype a] [Fintype b]
    (P : Matrix a a ℚ) (Q : Matrix b b ℚ) (M : Matrix (a ⊕ b) e ℚ) :
    (Matrix.fromBlocks P 0 0 Q * M).submatrix Sum.inr id =
      Q * M.submatrix Sum.inr id := by
  ext i j
  simp [Matrix.mul_apply, Fintype.sum_sum_type, Matrix.submatrix_apply]

theorem conj_submatrix_inr {a b : Type} [Fintype a] [DecidableEq a] [Fintype b]
    [DecidableEq b] (P P' : Matrix a a ℚ) (Q Q' : Matrix b b ℚ)
    (M : Matrix (a ⊕ b) (a ⊕ b) ℚ) :
    (Matrix.fromBlocks P 0 0 Q * M * Matrix.fromBlocks P' 0 0 Q').submatrix
        Sum.inr Sum.inr =
      Q * M.submatrix Sum.inr Sum.inr * Q' := by
  rw [← Matrix.fromBlocks_toBlocks M, Matrix.fromBlocks_multiply,
    Matrix.fromBlocks_multiply, fromBlocks_submatrix_inr_inr,
    fromBlocks_submatrix_inr_inr]
  simp only [Matrix.zero_mul, Matrix.mul_zero, zero_add, add_zero]

theorem arCoef_scale {n p k : ℕ} (y d : Matrix (Fin n) (Fin 1) ℚ)
    (x : Matrix (Fin n) (Fin p) ℚ) (z : Matrix (Fin n) (Fin k) ℚ) (b0 : ℚ)
    {c : Fin k → ℚ} (hc : ∀ i, c i ≠ 0) :
    arCoef y d x (z * Matrix.diagonal c) b0 =
      Matrix.fromBlocks 1 0 0 (Matrix.diagonal c)⁻¹ * arCoef y d x z b0 := by
  have hD := diag_det_unit hc
  show qInv ((Matrix.fromColumns x (z * Matrix.diagonal c))ᵀ *
      Matrix.fromColumns x (z * Matrix.diagonal c)) *
      ((Matrix.fromColumns x (z * Matrix.diagonal c))ᵀ * (y - b0 • d)) =
    Matrix.fromBlocks 1 0 0 (Matrix.diagonal c)⁻¹ *
      (qInv ((Matrix.fromColumns x z)ᵀ * Matrix.fromColumns x z) *
        ((Matrix.fromColumns x z)ᵀ * (y - b0 • d)))
  rw [← fromColumns_scale, gram_scale, qInv_conj, Matrix.transpose_mul]
  simp only [qInv_eq, ← Matrix.mul_assoc]
  rw [Matrix.nonsing_inv_mul_cancel_right _ _
      (det_transpose_unit (blockS_det_unit hD)),
    blockS_inv hD]

theorem arResid_scale {n p k : ℕ} (y d : Matrix (Fin n) (Fin 1) ℚ)
    (x : Matrix (Fin n) (Fin p) ℚ) (z : Matrix (Fin n) (Fin k) ℚ) (b0 : ℚ)
    {c : Fin k → ℚ} (hc : ∀ i, c i ≠ 0) :
    arResid y d x (z * Matrix.diagonal c) b0 = arResid y d x z b0 := by
  have hD := diag_det_unit hc
  show (y - b0 • d) - Matrix.fromColumns x (z * Matrix.diagonal c) *
      arCoef y d x (z * Matrix.diagonal c) b0 =
    (y - b0 • d) - Matrix.fromColumns x z * arCoef y d x z b0
  rw [arCoef_scale y d x z b0 hc, ← fromColumns_scale, ← blockS_inv hD]
  congr 1
  simp only [← Matrix.mul_assoc]
  rw [Matrix.mul_nonsing_inv_cancel_right _ _ (blockS_det_unit hD)]

theorem arVz_scale {n p k : ℕ} (kind : CovKind) (x : Matrix (Fin n) (Fin p) ℚ)
    (z : Matrix (Fin n) (Fin k) ℚ) (r : Matrix (Fin n) (Fin 1) ℚ)
    (cl : Fin n → ℕ) (lags : ℕ) (ker : HacKernel) {c : Fin k → ℚ}
    (hc : ∀ i, c i ≠ 0) :
    (covOls kind (Matrix.fromColumns x (z * Matrix.diagonal c)) r cl lags
        ker).submatrix Sum.inr Sum.inr =
      (Matrix.diagonal c)⁻¹ *
        (covOls kind (Matrix.fromColumns x z) r cl lags ker).submatrix
          Sum.inr Sum.inr * (Matrix.diagonal c)⁻¹ := by
  have hD := diag_det_unit hc
  rw [← fromColumns_scale, covOls_scale kind _ (blockS_det_unit hD) r cl lags ker,
    blockS_transpose (Matrix.diagonal_transpose c), blockS_inv hD,
    conj_submatrix_inr]

theorem arStat_scale {n p k : ℕ} (kind : CovKind) (y d : Matrix (Fin n) (Fin 1) ℚ)
    (x : Matrix (Fin n) (Fin p) ℚ) (z : Matrix (Fin n) (Fin k) ℚ) (b0 : ℚ)
    (cl : Fin n → ℕ) (lags : ℕ) (ker : HacKernel) {c : Fin k → ℚ}
    (hc : ∀ i, c i ≠ 0) :
    arStat kind y d x (z * Matrix.diagonal c) b0 cl lags ker =
      arStat kind y d x z b0 cl lags ker := by
  have hD := diag_det_unit hc
  have hDt : (Matrix.diagonal c)ᵀ = Matrix.diagonal c := Matrix.diagonal_transpose c
  show (((arCoef y d x (z * Matrix.diagonal c) b0).submatrix Sum.inr id)ᵀ *
      qInv ((covOls kind (Matrix.fromColumns x (z * Matrix.diagonal c))
        (arResid y d x (z * Matrix.diagonal c) b0) cl lags ker).submatrix
          Sum.inr Sum.inr) *
      ((arCoef y d x (z * Matrix.diagonal c) b0).submatrix Sum.inr id)) 0 0 =
    (((arCoef y d x z b0).submatrix Sum.inr id)ᵀ *
      qInv ((covOls kind (Matrix.fromColumns x z)
        (arResid y d x z b0) cl lags ker).submatrix Sum.inr Sum.inr) *
      ((arCoef y d x z b0).submatrix Sum.inr id)) 0 0
  rw [arResid_scale y d x z b0 hc, arCoef_scale y d x z b0 hc,
    arVz_scale kind x z (arResid y d x z b0) cl lags ker hc,
    blockLowerMul_submatrix_inr]
  have key : ((Matrix.diagonal c)⁻¹ * (arCoef y d x z b0).submatrix Sum.inr id)ᵀ *
      qInv ((Matrix.diagonal c)⁻¹ *
        (covOls kind (Matrix.fromColumns x z) (arResid y d x z b0) cl lags
          ker).submatrix Sum.inr Sum.inr * (Matrix.diagonal c)⁻¹) *
      ((Matrix.diagonal c)⁻¹ * (arCoef y d x z b0).submatrix Sum.inr id) =
      ((arCoef y d x z b0).submatrix Sum.inr id)ᵀ *
      qInv ((covOls kind (Matrix.fromColumns x z) (arResid y d x z b0) cl lags
        ker).submatrix Sum.inr Sum.inr) *
      ((arCoef y d x z b0).submatrix Sum.inr id) := by
    rw [Matrix.transpose_mul, Matrix.transpose_nonsing_inv, hDt]
    simp only [qInv_eq]
    rw [inv_triple, Matrix.nonsing_inv_nonsing_inv _ hD]
    simp only [← Matrix.mul_assoc]
    rw [Matrix.nonsing_inv_mul_cancel_right _ _ hD,
      Matrix.mul_nonsing_inv_cancel_right _ _ hD]
  rw [key]

theorem ar_test_scale {n p k : ℕ} (chi2sf : ℚ → ℕ → ℚ) (kind : CovKind)
    (y d : Matrix (Fin n) (Fin 1) ℚ) (x : Matrix (Fin n) (Fin p) ℚ)
    (z : Matrix (Fin n) (Fin k) ℚ) (b0 : ℚ) (cl : Fin n → ℕ) (lags : ℕ)
    (ker : HacKernel) {c : Fin k → ℚ} (hc : ∀ i, c i ≠ 0) :
    ar_test chi2sf kind y d x (z * Matrix.diagonal c) b0 cl lags ker =
      ar_test chi2sf kind y d x z b0 cl lags ker := by
  unfold ar_test
  rw [arStat_scale kind y d x z b0 cl lags ker hc]

theorem residualize_mul {n p : ℕ} {c c' : Type} [Fintype c] [Fintype c']
    (x : Matrix (Fin n) (Fin p) ℚ) (v : Matrix (Fin n) c ℚ)
    (S : Matrix c c' ℚ) : residualize x (v * S) = residualize x v * S := by
  rw [residualize_eq, residualize_eq, Matrix.mul_assoc]

theorem blockDiag2_inv {a b : Type} [Fintype a] [DecidableEq a] [Fintype b]
    [DecidableEq b] {P : Matrix a a ℚ} {Q : Matrix b b ℚ} (hP : IsUnit P.det)
    (hQ : IsUnit Q.det) :
    (Matrix.fromBlocks P 0 0 Q)⁻¹ = Matrix.fromBlocks P⁻¹ 0 0 Q⁻¹ := by
  apply Matrix.inv_eq_right_inv
  rw [Matrix.fromBlocks_multiply]
  simp only [Matrix.mul_zero, Matrix.zero_mul, add_zero, zero_add]
  rw [Matrix.mul_nonsing_inv _ hP, Matrix.mul_nonsing_inv _ hQ,
    Matrix.fromBlocks_one]

theorem blockDiag2_transpose {a b : Type} (P : Matrix a a ℚ) (Q : Matrix b b ℚ) :
    (Matrix.fromBlocks P 0 0 Q)ᵀ = Matrix.fromBlocks Pᵀ 0 0 Qᵀ := by
  rw [Matrix.fromBlocks_transpose, Matrix.transpose_zero, Matrix.transpose_zero]

theorem fromBlocks_conj {a b : Type} [Fintype a] [DecidableEq a] [Fintype b]
    [DecidableEq b] (P P' : Matrix a a ℚ) (Q Q' : Matrix b b ℚ)
    (A : Matrix a a ℚ) (B : Matrix a b ℚ) (C : Matrix b a ℚ) (E : Matrix b b ℚ) :
    Matrix.fromBlocks P 0 0 Q * Matrix.fromBlocks A B C E *
      Matrix.fromBlocks P' 0 0 Q' =
      Matrix.fromBlocks (P * A * P') (P * B * Q') (Q * C * P') (Q * E * Q') := by
  rw [Matrix.fromBlocks_multiply, Matrix.fromBlocks_multiply]
  simp only [Matrix.mul_zero, Matrix.zero_mul, add_zero, zero_add]

theorem inv_conj_transpose {k : ℕ} {D : Matrix (Fin k) (Fin k) ℚ} (hDt : Dᵀ = D)
    (B : Matrix (Fin k) (Fin k) ℚ) : (D⁻¹ * B * D⁻¹)ᵀ = D⁻¹ * Bᵀ * D⁻¹ := by
  rw [Matrix.transpose_mul, Matrix.transpose_mul, Matrix.transpose_nonsing_inv, hDt]
  simp only [Matrix.mul_assoc]

theorem inv_sandwich {k : ℕ} {D : Matrix (Fin k) (Fin k) ℚ} (hD : IsUnit D.det)
    (B B2 meat : Matrix (Fin k) (Fin k) ℚ) :
    D⁻¹ * B * D⁻¹ * (D * meat * D) * (D⁻¹ * B2 * D⁻¹) =
      D⁻¹ * (B * meat * B2) * D⁻¹ := by
  simp only [← Matrix.mul_assoc]
  rw [Matrix.nonsing_inv_mul_cancel_right _ _ hD,
    Matrix.mul_nonsing_inv_cancel_right _ _ hD]

theorem conj_toB11 {a b : Type} [Fintype a] [DecidableEq a] [Fintype b]
    [DecidableEq b] (P P' : Matrix a a ℚ) (Q Q' : Matrix b b ℚ)
    (V : Matrix (a ⊕ b) (a ⊕ b) ℚ) :
    (Matrix.fromBlocks P 0 0 Q * V * Matrix.fromBlocks P' 0 0 Q').toBlocks₁₁ =
      P * V.toBlocks₁₁ * P' := by
  rw [← Matrix.fromBlocks_toBlocks V, fromBlocks_conj, Matrix.toBlocks_fromBlocks₁₁,
    Matrix.toBlocks_fromBlocks₁₁]

theorem conj_toB12 {a b : Type} [Fintype a] [DecidableEq a] [Fintype b]
    [DecidableEq b] (P P' : Matrix a a ℚ) (Q Q' : Matrix b b ℚ)
    (V : Matrix (a ⊕ b) (a ⊕ b) ℚ) :
    (Matrix.fromBlocks P 0 0 Q * V * Matrix.fromBlocks P' 0 0 Q').toBlocks₁₂ =
      P * V.toBlocks₁₂ * Q' := by
  rw [← Matrix.fromBlocks_toBlocks V, fromBlocks_conj, Matrix.toBlocks_fromBlocks₁₂,
    Matrix.toBlocks_fromBlocks₁₂]

theorem conj_toB21 {a b : Type} [Fintype a] [DecidableEq a] [Fintype b]
    [DecidableEq b] (P P' : Matrix a a ℚ) (Q Q' : Matrix b b ℚ)
    (V : Matrix (a ⊕ b) (a ⊕ b) ℚ) :
    (Matrix.fromBlocks P 0 0 Q * V * Matrix.fromBlocks P' 0 0 Q').toBlocks₂₁ =
      Q * V.toBlocks₂₁ * P' := by
  rw [← Matrix.fromBlocks_toBlocks V, fromBlocks_conj, Matrix.toBlocks_fromBlocks₂₁,
    Matrix.toBlocks_fromBlocks₂₁]

theorem conj_toB22 {a b : Type} [Fintype a] [DecidableEq a] [Fintype b]
    [DecidableEq b] (P P' : Matrix a a ℚ) (Q Q' : Matrix b b ℚ)
    (V : Matrix (a ⊕ b) (a ⊕ b) ℚ) :
    (Matrix.fromBlocks P 0 0 Q * V * Matrix.fromBlocks P' 0 0 Q').toBlocks₂₂ =
      Q * V.toBlocks₂₂ * Q' := by
  rw [← Matrix.fromBlocks_toBlocks V, fromBlocks_conj, Matrix.toBlocks_fromBlocks₂₂,
    Matrix.toBlocks_fromBlocks₂₂]

theorem reduced_form_scale_z {n p k : ℕ} (kind : CovKind)
    (y d : Matrix (Fin n) (Fin 1) ℚ) (x : Matrix (Fin n) (Fin p) ℚ)
    (z : Matrix (Fin n) (Fin k) ℚ) (cl : Fin n → ℕ) (lags : ℕ) (ker : HacKernel)
    (D : Matrix (Fin k) (Fin k) ℚ) :
    (reduced_form kind y d x (z * D) cl lags ker).z =
      (reduced_form kind y d x z cl lags ker).z * D := by
  rw [reduced_form_z, reduced_form_z, residualize_mul]

theorem reduced_form_scale_pi_y {n p k : ℕ} (kind : CovKind)
    (y d : Matrix (Fin n) (Fin 1) ℚ) (x : Matrix (Fin n) (Fin p) ℚ)
    (z : Matrix (Fin n) (Fin k) ℚ) (cl : Fin n → ℕ) (lags : ℕ) (ker : HacKernel)
    {D : Matrix (Fin k) (Fin k) ℚ} (hD : IsUnit D.det) :
    (reduced_form kind y d x (z * D) cl lags ker).pi_y =
      D⁻¹ * (reduced_form kind y d x z cl lags ker).pi_y := by
  rw [reduced_form_pi_y, reduced_form_pi_y, residualize_mul, gram_scale, qInv_conj,
    Matrix.transpose_mul]
  simp only [qInv_eq, ← Matrix.mul_assoc]
  rw [Matrix.nonsing_inv_mul_cancel_right _ _ (det_transpose_unit hD)]

theorem reduced_form_scale_pi_d {n p k : ℕ} (kind : CovKind)
    (y d : Matrix (Fin n) (Fin 1) ℚ) (x : Matrix (Fin n) (Fin p) ℚ)
    (z : Matrix (Fin n) (Fin k) ℚ) (cl : Fin n → ℕ) (lags : ℕ) (ker : HacKernel)
    {D : Matrix (Fin k) (Fin k) ℚ} (hD : IsUnit D.det) :
    (reduced_form kind y d x (z * D) cl lags ker).pi_d =
      D⁻¹ * (reduced_form kind y d x z cl lags ker).pi_d := by
  rw [reduced_form_pi_d, reduced_form_pi_d, residualize_mul, gram_scale, qInv_conj,
    Matrix.transpose_mul]
  simp only [qInv_eq, ← Matrix.mul_assoc]
  rw [Matrix.nonsing_inv_mul_cancel_right _ _ (det_transpose_unit hD)]

theorem reduced_form_scale_resid_y {n p k : ℕ} (kind : CovKind)
    (y d : Matrix (Fin n) (Fin 1) ℚ) (x : Matrix (Fin n) (Fin p) ℚ)
    (z : Matrix (Fin n) (Fin k) ℚ) (cl : Fin n → ℕ) (lags : ℕ) (ker : HacKernel)
    {D : Matrix (Fin k) (Fin k) ℚ} (hD : IsUnit D.det) :
    (reduced_form kind y d x (z * D) cl lags ker).resid_y =
      (reduced_form kind y d x z cl lags ker).resid_y := by
  rw [reduced_form_resid_y, reduced_form_resid_y, residualize_mul, gram_scale,
    qInv_conj, Matrix.transpose_mul]
  simp only [qInv_eq, ← Matrix.mul_assoc]
  rw [Matrix.nonsing_inv_mul_cancel_right _ _ (det_transpose_unit hD),
    Matrix.mul_nonsing_inv_cancel_right _ _ hD]

theorem reduced_form_scale_resid_d {n p k : ℕ} (kind : CovKind)
    (y d : Matrix (Fin n) (Fin 1) ℚ) (x : Matrix (Fin n) (Fin p) ℚ)
    (z : Matrix (Fin n) (Fin k) ℚ) (cl : Fin n → ℕ) (lags : ℕ) (ker : HacKernel)
    {D : Matrix (Fin k) (Fin k) ℚ} (hD : IsUnit D.det) :
    (reduced_form kind y d x (z * D) cl lags ker).resid_d =
      (reduced_form kind y d x z cl lags ker).resid_d := by
  rw [reduced_form_resid_d, reduced_form_resid_d, residualize_mul, gram_scale,
    qInv_conj, Matrix.transpose_mul]
  simp only [qInv_eq, ← Matrix.mul_assoc]
  rw [Matrix.nonsing_inv_mul_cancel_right _ _ (det_transpose_unit hD),
    Matrix.mul_nonsing_inv_cancel_right _ _ hD]

theorem covReducedForm_scale {n k : ℕ} (kind : CovKind)
    (X : Matrix (Fin n) (Fin k) ℚ) {D : Matrix (Fin k) (Fin k) ℚ}
    (hD : IsUnit D.det) (hDt : Dᵀ = D) (ry rd : Matrix (Fin n) (Fin 1) ℚ)
    (cl : Fin n → ℕ) (lags : ℕ) (ker : HacKernel) (dfa : Option ℤ) :
    covReducedForm kind (X * D) ry rd cl lags ker dfa =
      Matrix.fromBlocks D⁻¹ 0 0 D⁻¹ * covReducedForm kind X ry rd cl lags ker dfa *
        Matrix.fromBlocks D⁻¹ 0 0 D⁻¹ := by
  have hbread : qInv ((X * D)ᵀ * (X * D)) = D⁻¹ * qInv (Xᵀ * X) * D⁻¹ := by
    rw [gram_scale, qInv_conj, hDt]
    simp only [qInv_eq]
  have hVab : ∀ r1 r2 : Matrix (Fin n) (Fin 1) ℚ,
      qInv ((X * D)ᵀ * (X * D)) * momentMeat kind (X * D) r1 r2 cl lags ker *
        qInv ((X * D)ᵀ * (X * D)) =
      D⁻¹ * (qInv (Xᵀ * X) * momentMeat kind X r1 r2 cl lags ker *
        qInv (Xᵀ * X)) * D⁻¹ := by
    intro r1 r2
    rw [hbread, momentMeat_scale kind X hD r1 r2 cl lags ker, hDt]
    exact inv_sandwich hD _ _ _
  cases kind with
  | unadjusted =>
      simp only [covReducedForm]
      rw [fromBlocks_conj]
      refine Matrix.fromBlocks_inj.mpr ⟨?_, ?_, ?_, ?_⟩
      · rw [hbread, Matrix.mul_smul, Matrix.smul_mul]
      · rw [hbread, Matrix.mul_smul, Matrix.smul_mul]
      · rw [hbread, Matrix.transpose_smul, Matrix.transpose_smul,
          inv_conj_transpose hDt, Matrix.mul_smul, Matrix.smul_mul]
      · rw [hbread, Matrix.mul_smul, Matrix.smul_mul]
  | hc1 =>
      simp only [covReducedForm]
      rw [fromBlocks_conj]
      refine Matrix.fromBlocks_inj.mpr ⟨?_, ?_, ?_, ?_⟩
      · rw [hVab ry ry, Matrix.mul_smul, Matrix.smul_mul]
      · rw [hVab ry rd, Matrix.mul_smul, Matrix.smul_mul]
      · rw [hVab ry rd, Matrix.transpose_smul, Matrix.transpose_smul,
          inv_conj_transpose hDt, Matrix.mul_smul, Matrix.smul_mul]
      · rw [hVab rd rd, Matrix.mul_smul, Matrix.smul_mul]
  | cluster =>
      simp only [covReducedForm]
      rw [fromBlocks_conj]
      refine Matrix.fromBlocks_inj.mpr ⟨?_, ?_, ?_, ?_⟩
      · rw [hVab ry ry, Matrix.mul_smul, Matrix.smul_mul]
      · rw [hVab ry rd, Matrix.mul_smul, Matrix.smul_mul]
      · rw [hVab ry rd, Matrix.transpose_smul, Matrix.transpose_smul,
          inv_conj_transpose hDt, Matrix.mul_smul, Matrix.smul_mul]
      · rw [hVab rd rd, Matrix.mul_smul, Matrix.smul_mul]
  | hc0 =>
      simp only [covReducedForm]
      rw [fromBlocks_conj]
      refine Matrix.fromBlocks_inj.mpr ⟨hVab ry ry, hVab ry rd, ?_, hVab rd rd⟩
      rw [hVab ry rd, inv_conj_transpose hDt]
  | hc2 =>
      simp only [covReducedForm]
      rw [fromBlocks_conj]
      refine Matrix.fromBlocks_inj.mpr ⟨hVab ry ry, hVab ry rd, ?_, hVab rd rd⟩
      rw [hVab ry rd, inv_conj_transpose hDt]
  | hc3 =>
      simp only [covReducedForm]
      rw [fromBlocks_conj]
      refine Matrix.fromBlocks_inj.mpr ⟨hVab ry ry, hVab ry rd, ?_, hVab rd rd⟩
      rw [hVab ry rd, inv_conj_transpose hDt]
  | hac =>
      simp only [covReducedForm]
      rw [fromBlocks_conj]
      refine Matrix.fromBlocks_inj.mpr ⟨hVab ry ry, hVab ry rd, ?_, hVab rd rd⟩
      rw [hVab ry rd, inv_conj_transpose hDt]

theorem reduced_form_scale_cov {n p k : ℕ} (kind : CovKind)
    (y d : Matrix (Fin n) (Fin 1) ℚ) (x : Matrix (Fin n) (Fin p) ℚ)
    (z : Matrix (Fin n) (Fin k) ℚ) (cl : Fin n → ℕ) (lags : ℕ) (ker : HacKernel)
    {D : Matrix (Fin k) (Fin k) ℚ} (hD : IsUnit D.det) (hDt : Dᵀ = D) :
    (reduced_form kind y d x (z * D) cl lags ker).cov =
      Matrix.fromBlocks D⁻¹ 0 0 D⁻¹ *
        (reduced_form kind y d x z cl lags ker).cov *
        Matrix.fromBlocks D⁻¹ 0 0 D⁻¹ := by
  rw [reduced_form_cov, reduced_form_cov, residualize_mul,
    reduced_form_scale_resid_y kind y d x z cl lags ker hD,
    reduced_form_scale_resid_d kind y d x z cl lags ker hD,
    covReducedForm_scale kind (residualize x z) hD hDt]

theorem blockT_det_unit {k : ℕ} {D : Matrix (Fin k) (Fin k) ℚ}
    (hD : IsUnit D.det) :
    IsUnit (Matrix.fromBlocks D 0 0 D : Matrix (Fin k ⊕ Fin k) (Fin k ⊕ Fin k) ℚ).det := by
  rw [Matrix.det_fromBlocks_zero₂₁]
  exact hD.mul hD

theorem qInv_Tinv_conj {k : ℕ} {D : Matrix (Fin k) (Fin k) ℚ} (hD : IsUnit D.det)
    (V : Matrix (Fin k ⊕ Fin k) (Fin k ⊕ Fin k) ℚ) :
    qInv (Matrix.fromBlocks D⁻¹ 0 0 D⁻¹ * V * Matrix.fromBlocks D⁻¹ 0 0 D⁻¹) =
      Matrix.fromBlocks D 0 0 D * qInv V * Matrix.fromBlocks D 0 0 D := by
  rw [← blockDiag2_inv hD hD]
  simp only [qInv_eq]
  rw [inv_triple, Matrix.nonsing_inv_nonsing_inv _ (blockT_det_unit hD)]

theorem conjQuadForm {k : ℕ} {D : Matrix (Fin k) (Fin k) ℚ} (hD : IsUnit D.det)
    (hDt : Dᵀ = D) (V : Matrix (Fin k ⊕ Fin k) (Fin k ⊕ Fin k) ℚ)
    (u v : Matrix (Fin k ⊕ Fin k) (Fin 1) ℚ) :
    (Matrix.fromBlocks D⁻¹ 0 0 D⁻¹ * u)ᵀ *
      (Matrix.fromBlocks D 0 0 D * V * Matrix.fromBlocks D 0 0 D) *
      (Matrix.fromBlocks D⁻¹ 0 0 D⁻¹ * v) = uᵀ * V * v := by
  have hT := blockT_det_unit hD
  have hTt : (Matrix.fromBlocks D 0 0 D :
      Matrix (Fin k ⊕ Fin k) (Fin k ⊕ Fin k) ℚ)ᵀ = Matrix.fromBlocks D 0 0 D := by
    rw [blockDiag2_transpose, hDt]
  rw [← blockDiag2_inv hD hD, Matrix.transpose_mul, Matrix.transpose_nonsing_inv,
    hTt]
  simp only [← Matrix.mul_assoc]
  rw [Matrix.nonsing_inv_mul_cancel_right _ _ hT,
    Matrix.mul_nonsing_inv_cancel_right _ _ hT]

theorem mdA_conj {k : ℕ} (b0 : ℚ) {D : Matrix (Fin k) (Fin k) ℚ}
    (V : Matrix (Fin k ⊕ Fin k) (Fin k ⊕ Fin k) ℚ) :
    mdA b0 (Matrix.fromBlocks D 0 0 D * V * Matrix.fromBlocks D 0 0 D) =
      D * mdA b0 V * D := by
  unfold mdA
  rw [conj_toB11, conj_toB12, conj_toB21, conj_toB22]
  simp only [Matrix.mul_add, Matrix.add_mul, Matrix.mul_smul, Matrix.smul_mul,
    smul_add, ← Matrix.mul_assoc]

theorem mdB_conj {k : ℕ} (b0 : ℚ) {D : Matrix (Fin k) (Fin k) ℚ}
    (hD : IsUnit D.det) (V : Matrix (Fin k ⊕ Fin k) (Fin k ⊕ Fin k) ℚ)
    (piy pid : Matrix (Fin k) (Fin 1) ℚ) :
    mdB b0 (Matrix.fromBlocks D 0 0 D * V * Matrix.fromBlocks D 0 0 D)
        (D⁻¹ * piy) (D⁻¹ * pid) = D * mdB b0 V piy pid := by
  unfold mdB
  rw [conj_toB11, conj_toB12, conj_toB21, conj_toB22]
  simp only [← Matrix.mul_assoc, Matrix.mul_nonsing_inv_cancel_right _ _ hD]
  simp only [Matrix.mul_add, Matrix.mul_smul, ← Matrix.mul_assoc]

theorem mdPiHat_conj {k : ℕ} (b0 : ℚ) {D : Matrix (Fin k) (Fin k) ℚ}
    (hD : IsUnit D.det) (V : Matrix (Fin k ⊕ Fin k) (Fin k ⊕ Fin k) ℚ)
    (piy pid : Matrix (Fin k) (Fin 1) ℚ) :
    mdPiHat b0 (Matrix.fromBlocks D 0 0 D * V * Matrix.fromBlocks D 0 0 D)
        (D⁻¹ * piy) (D⁻¹ * pid) = D⁻¹ * mdPiHat b0 V piy pid := by
  unfold mdPiHat
  rw [mdA_conj, mdB_conj b0 hD]
  simp only [qInv_eq]
  rw [inv_triple]
  simp only [← Matrix.mul_assoc]
  rw [Matrix.nonsing_inv_mul_cancel_right _ _ hD]

theorem mdR_conj {k : ℕ} (b0 : ℚ) {D : Matrix (Fin k) (Fin k) ℚ}
    (hD : IsUnit D.det) (V : Matrix (Fin k ⊕ Fin k) (Fin k ⊕ Fin k) ℚ)
    (piy pid : Matrix (Fin k) (Fin 1) ℚ) :
    mdR b0 (Matrix.fromBlocks D 0 0 D * V * Matrix.fromBlocks D 0 0 D)
        (D⁻¹ * piy) (D⁻¹ * pid) =
      Matrix.fromBlocks D⁻¹ 0 0 D⁻¹ * mdR b0 V piy pid := by
  unfold mdR
  rw [mdPiHat_conj b0 hD, Matrix.fromBlocks_mul_fromRows]
  simp only [Matrix.zero_mul, Matrix.mul_sub, Matrix.mul_smul, smul_zero,
    sub_zero, sub_self, zero_add, add_zero]

theorem mdQ_conj {k : ℕ} (b0 : ℚ) {D : Matrix (Fin k) (Fin k) ℚ}
    (hD : IsUnit D.det) (hDt : Dᵀ = D)
    (V : Matrix (Fin k ⊕ Fin k) (Fin k ⊕ Fin k) ℚ)
    (piy pid : Matrix (Fin k) (Fin 1) ℚ) :
    mdQ b0 (Matrix.fromBlocks D 0 0 D * V * Matrix.fromBlocks D 0 0 D)
        (D⁻¹ * piy) (D⁻¹ * pid) = mdQ b0 V piy pid := by
  unfold mdQ
  rw [mdR_conj b0 hD, conjQuadForm hD hDt]

theorem lmSigmaHat_scale {n p k : ℕ} (kind : CovKind)
    (y d : Matrix (Fin n) (Fin 1) ℚ) (x : Matrix (Fin n) (Fin p) ℚ)
    (z : Matrix (Fin n) (Fin k) ℚ) (cl : Fin n → ℕ) (lags : ℕ) (ker : HacKernel)
    {c : Fin k → ℚ} (hc : ∀ i, c i ≠ 0) (b0 : ℚ) :
    lmSigmaHat (reduced_form kind y d x (z * Matrix.diagonal c) cl lags ker) b0 =
      lmSigmaHat (reduced_form kind y d x z cl lags ker) b0 := by
  have hD := diag_det_unit hc
  simp only [lmSigmaHat]
  rw [reduced_form_y, reduced_form_y, reduced_form_d, reduced_form_d,
    reduced_form_z, reduced_form_z, residualize_mul]
  simp only [projOn_scale (residualize x z) hD]

theorem lmXtp_scale {n p k : ℕ} (kind : CovKind) (y d : Matrix (Fin n) (Fin 1) ℚ)
    (x : Matrix (Fin n) (Fin p) ℚ) (z : Matrix (Fin n) (Fin k) ℚ)
    (cl : Fin n → ℕ) (lags : ℕ) (ker : HacKernel) {c : Fin k → ℚ}
    (hc : ∀ i, c i ≠ 0) (b0 : ℚ) :
    lmXtp (reduced_form kind y d x (z * Matrix.diagonal c) cl lags ker) b0 =
      lmXtp (reduced_form kind y d x z cl lags ker) b0 := by
  have hD := diag_det_unit hc
  simp only [lmXtp]
  rw [lmSigmaHat_scale kind y d x z cl lags ker hc b0, reduced_form_y,
    reduced_form_y, reduced_form_d, reduced_form_d, reduced_form_z,
    reduced_form_z, residualize_mul]
  simp only [projOn_scale (residualize x z) hD]

theorem lmXtx_scale {n p k : ℕ} (kind : CovKind) (y d : Matrix (Fin n) (Fin 1) ℚ)
    (x : Matrix (Fin n) (Fin p) ℚ) (z : Matrix (Fin n) (Fin k) ℚ)
    (cl : Fin n → ℕ) (lags : ℕ) (ker : HacKernel) {c : Fin k → ℚ}
    (hc : ∀ i, c i ≠ 0) (b0 : ℚ) :
    lmXtx (reduced_form kind y d x (z * Matrix.diagonal c) cl lags ker) b0 =
      lmXtx (reduced_form kind y d x z cl lags ker) b0 := by
  simp only [lmXtx]
  rw [lmXtp_scale kind y d x z cl lags ker hc b0]

theorem lmUnadjStat_scale {n p k : ℕ} (nobs kInstr pExog : ℕ) (kind : CovKind)
    (y d : Matrix (Fin n) (Fin 1) ℚ) (x : Matrix (Fin n) (Fin p) ℚ)
    (z : Matrix (Fin n) (Fin k) ℚ) (cl : Fin n → ℕ) (lags : ℕ) (ker : HacKernel)
    {c : Fin k → ℚ} (hc : ∀ i, c i ≠ 0) (b0 : ℚ) :
    lmUnadjStat nobs kInstr pExog
        (reduced_form kind y d x (z * Matrix.diagonal c) cl lags ker) b0 =
      lmUnadjStat nobs kInstr pExog
        (reduced_form kind y d x z cl lags ker) b0 := by
  simp only [lmUnadjStat]
  rw [lmSigmaHat_scale kind y d x z cl lags ker hc b0,
    lmXtx_scale kind y d x z cl lags ker hc b0,
    lmXtp_scale kind y d x z cl lags ker hc b0, reduced_form_y, reduced_form_y,
    reduced_form_d, reduced_form_d]

theorem lmScore_scale {n p k : ℕ} (kind : CovKind)
    (y d : Matrix (Fin n) (Fin 1) ℚ) (x : Matrix (Fin n) (Fin p) ℚ)
    (z : Matrix (Fin n) (Fin k) ℚ) (cl : Fin n → ℕ) (lags : ℕ) (ker : HacKernel)
    {c : Fin k → ℚ} (hc : ∀ i, c i ≠ 0) (b0 : ℚ) :
    lmScore (reduced_form kind y d x (z * Matrix.diagonal c) cl lags ker) b0 =
      lmScore (reduced_form kind y d x z cl lags ker) b0 := by
  have hD := diag_det_unit hc
  have hDt := Matrix.diagonal_transpose c
  simp only [lmScore]
  rw [reduced_form_scale_cov kind y d x z cl lags ker hD hDt, qInv_Tinv_conj hD,
    reduced_form_scale_pi_y kind y d x z cl lags ker hD,
    reduced_form_scale_pi_d kind y d x z cl lags ker hD, mdPiHat_conj b0 hD,
    mdR_conj b0 hD]
  have hdvec : Matrix.fromRows ((Matrix.diagonal c)⁻¹ *
      mdPiHat b0 (qInv (reduced_form kind y d x z cl lags ker).cov)
        (reduced_form kind y d x z cl lags ker).pi_y
        (reduced_form kind y d x z cl lags ker).pi_d)
      (0 : Matrix (Fin k) (Fin 1) ℚ) =
      Matrix.fromBlocks (Matrix.diagonal c)⁻¹ 0 0 (Matrix.diagonal c)⁻¹ *
        Matrix.fromRows (mdPiHat b0
          (qInv (reduced_form kind y d x z cl lags ker).cov)
          (reduced_form kind y d x z cl lags ker).pi_y
          (reduced_form kind y d x z cl lags ker).pi_d)
          (0 : Matrix (Fin k) (Fin 1) ℚ) := by
    rw [Matrix.fromBlocks_mul_fromRows]
    simp only [Matrix.zero_mul, Matrix.mul_zero, add_zero, zero_add]
  rw [hdvec, conjQuadForm hD hDt]

theorem lmInfo_scale {n p k : ℕ} (kind : CovKind)
    (y d : Matrix (Fin n) (Fin 1) ℚ) (x : Matrix (Fin n) (Fin p) ℚ)
    (z : Matrix (Fin n) (Fin k) ℚ) (cl : Fin n → ℕ) (lags : ℕ) (ker : HacKernel)
    {c : Fin k → ℚ} (hc : ∀ i, c i ≠ 0) (b0 : ℚ) :
    lmInfo (reduced_form kind y d x (z * Matrix.diagonal c) cl lags ker) b0 =
      lmInfo (reduced_form kind y d x z cl lags ker) b0 := by
  have hD := diag_det_unit hc
  have hDt := Matrix.diagonal_transpose c
  simp only [lmInfo]
  rw [reduced_form_scale_cov kind y d x z cl lags ker hD hDt, qInv_Tinv_conj hD,
    reduced_form_scale_pi_y kind y d x z cl lags ker hD,
    reduced_form_scale_pi_d kind y d x z cl lags ker hD, mdPiHat_conj b0 hD]
  have hdvec : Matrix.fromRows ((Matrix.diagonal c)⁻¹ *
      mdPiHat b0 (qInv (reduced_form kind y d x z cl lags ker).cov)
        (reduced_form kind y d x z cl lags ker).pi_y
        (reduced_form kind y d x z cl lags ker).pi_d)
      (0 : Matrix (Fin k) (Fin 1) ℚ) =
      Matrix.fromBlocks (Matrix.diagonal c)⁻¹ 0 0 (Matrix.diagonal c)⁻¹ *
        Matrix.fromRows (mdPiHat b0
          (qInv (reduced_form kind y d x z cl lags ker).cov)
          (reduced_form kind y d x z cl lags ker).pi_y
          (reduced_form kind y d x z cl lags ker).pi_d)
          (0 : Matrix (Fin k) (Fin 1) ℚ) := by
    rw [Matrix.fromBlocks_mul_fromRows]
    simp only [Matrix.zero_mul, Matrix.mul_zero, add_zero, zero_add]
  rw [hdvec, conjQuadForm hD hDt]

theorem lmCovStat_scale {n p k : ℕ} (kind : CovKind)
    (y d : Matrix (Fin n) (Fin 1) ℚ) (x : Matrix (Fin n) (Fin p) ℚ)
    (z : Matrix (Fin n) (Fin k) ℚ) (cl : Fin n → ℕ) (lags : ℕ) (ker : HacKernel)
    {c : Fin k → ℚ} (hc : ∀ i, c i ≠ 0) (b0 : ℚ) :
    lmCovStat (reduced_form kind y d x (z * Matrix.diagonal c) cl lags ker) b0 =
      lmCovStat (reduced_form kind y d x z cl lags ker) b0 := by
  simp only [lmCovStat]
  rw [lmInfo_scale kind y d x z cl lags ker hc b0,
    lmScore_scale kind y d x z cl lags ker hc b0]

theorem lm_test_scale {n p k : ℕ} (chi2sf : ℚ → ℕ → ℚ) (kind : CovKind)
    (y d : Matrix (Fin n) (Fin 1) ℚ) (x : Matrix (Fin n) (Fin p) ℚ)
    (z : Matrix (Fin n) (Fin k) ℚ) (b0 : ℚ) (cl : Fin n → ℕ) (lags : ℕ)
    (ker : HacKernel) {c : Fin k → ℚ} (hc : ∀ i, c i ≠ 0) :
    lm_test chi2sf kind y d x (z * Matrix.diagonal c) b0 cl lags ker =
      lm_test chi2sf kind y d x z b0 cl lags ker := by
  by_cases hk : kind = CovKind.unadjusted
  · subst hk
    rw [lm_test_unadjusted, lm_test_unadjusted,
      lmUnadjStat_scale n k p CovKind.unadjusted y d x z cl lags ker hc b0]
  · rw [lm_test_cov chi2sf hk, lm_test_cov chi2sf hk,
      lmCovStat_scale kind y d x z cl lags ker hc b0]

theorem clr_lambda_scale {n p k : ℕ} (pExog : ℕ) (kind : CovKind)
    (y d : Matrix (Fin n) (Fin 1) ℚ) (x : Matrix (Fin n) (Fin p) ℚ)
    (z : Matrix (Fin n) (Fin k) ℚ) (cl : Fin n → ℕ) (lags : ℕ) (ker : HacKernel)
    {c : Fin k → ℚ} (hc : ∀ i, c i ≠ 0) (b0 : ℚ) :
    clr_lambda pExog (reduced_form kind y d x (z * Matrix.diagonal c) cl lags ker)
        b0 =
      clr_lambda pExog (reduced_form kind y d x z cl lags ker) b0 := by
  have hD := diag_det_unit hc
  simp only [clr_lambda]
  rw [reduced_form_y, reduced_form_y, reduced_form_d, reduced_form_d,
    reduced_form_z, reduced_form_z, residualize_mul]
  simp only [projOn_scale (residualize x z) hD]

theorem clr_test_scale {n p k : ℕ} (chi2sf : ℚ → ℕ → ℚ) (quad : ℚ → ℕ → ℚ → ℚ)
    (opt : (ℚ → ℚ) → ℚ × ℚ → ℚ)
    (betaBounds : Matrix (Fin n) (Fin 1) ℚ → Matrix (Fin n) (Fin 1) ℚ → ℚ × ℚ)
    (kind : CovKind) (y d : Matrix (Fin n) (Fin 1) ℚ)
    (x : Matrix (Fin n) (Fin p) ℚ) (z : Matrix (Fin n) (Fin k) ℚ) (b0 : ℚ)
    (cl : Fin n → ℕ) (lags : ℕ) (ker : HacKernel) {c : Fin k → ℚ}
    (hc : ∀ i, c i ≠ 0) :
    clr_test chi2sf quad opt betaBounds kind y d x (z * Matrix.diagonal c) b0 cl
        lags ker =
      clr_test chi2sf quad opt betaBounds kind y d x z b0 cl lags ker := by
  have hD := diag_det_unit hc
  have hDt := Matrix.diagonal_transpose c
  have hq : ∀ b : ℚ,
      mdQ b (qInv (reduced_form kind y d x (z * Matrix.diagonal c) cl lags
          ker).cov)
        (reduced_form kind y d x (z * Matrix.diagonal c) cl lags ker).pi_y
        (reduced_form kind y d x (z * Matrix.diagonal c) cl lags ker).pi_d =
      mdQ b (qInv (reduced_form kind y d x z cl lags ker).cov)
        (reduced_form kind y d x z cl lags ker).pi_y
        (reduced_form kind y d x z cl lags ker).pi_d := by
    intro b
    rw [reduced_form_scale_cov kind y d x z cl lags ker hD hDt,
      qInv_Tinv_conj hD, reduced_form_scale_pi_y kind y d x z cl lags ker hD,
      reduced_form_scale_pi_d kind y d x z cl lags ker hD, mdQ_conj b hD hDt]
  simp only [clr_test]
  rw [hq b0, funext hq, clr_lambda_scale p kind y d x z cl lags ker hc b0]

/-- Claim C1: instrument-scale invariance.  For every covariance regime and
every invertible diagonal rescaling D of the instrument columns (z replaced
by z D), the full results of ar_test, lm_test and clr_test — statistics,
degrees of freedom, p-values and warnings — are unchanged in exact
arithmetic. -/
theorem claim_C1 {n p k : ℕ} (chi2sf : ℚ → ℕ → ℚ) (quad : ℚ → ℕ → ℚ → ℚ)
    (opt : (ℚ → ℚ) → ℚ × ℚ → ℚ)
    (betaBounds : Matrix (Fin n) (Fin 1) ℚ → Matrix (Fin n) (Fin 1) ℚ → ℚ × ℚ)
    (kind : CovKind) (y d : Matrix (Fin n) (Fin 1) ℚ)
    (x : Matrix (Fin n) (Fin p) ℚ) (z : Matrix (Fin n) (Fin k) ℚ) (b0 : ℚ)
    (cl : Fin n → ℕ) (lags : ℕ) (ker : HacKernel) (c : Fin k → ℚ)
    (hc : ∀ i, c i ≠ 0) :
    ar_test chi2sf kind y d x (z * Matrix.diagonal c) b0 cl lags ker =
      ar_test chi2sf kind y d x z b0 cl lags ker ∧
    lm_test chi2sf kind y d x (z * Matrix.diagonal c) b0 cl lags ker =
      lm_test chi2sf kind y d x z b0 cl lags ker ∧
    clr_test chi2sf quad opt betaBounds kind y d x (z * Matrix.diagonal c) b0 cl
        lags ker =
      clr_test chi2sf quad opt betaBounds kind y d x z b0 cl lags ker :=
  ⟨ar_test_scale chi2sf kind y d x z b0 cl lags ker hc,
    lm_test_scale chi2sf kind y d x z b0 cl lags ker hc,
    clr_test_scale chi2sf quad opt betaBounds kind y d x z b0 cl lags ker hc⟩

/-- Claim C1 witness: the three invariance equalities at the concrete
instance n = p = k = 1, all-zero data, unadjusted covariance, and the
diagonal rescaling with the nonzero constant 2. -/
theorem claim_C1_witness :
    (∀ i : Fin 1, (fun _ : Fin 1 => (2 : ℚ)) i ≠ 0) ∧
    ar_test (fun _ _ => 0) CovKind.unadjusted (0 : Matrix (Fin 1) (Fin 1) ℚ) 0
        (0 : Matrix (Fin 1) (Fin 1) ℚ)
        ((0 : Matrix (Fin 1) (Fin 1) ℚ) *
          Matrix.diagonal (fun _ : Fin 1 => (2 : ℚ))) 0 (fun _ => 0) 0
        HacKernel.bartlett =
      ar_test (fun _ _ => 0) CovKind.unadjusted (0 : Matrix (Fin 1) (Fin 1) ℚ) 0
        (0 : Matrix (Fin 1) (Fin 1) ℚ) (0 : Matrix (Fin 1) (Fin 1) ℚ) 0
        (fun _ => 0) 0 HacKernel.bartlett ∧
    lm_test (fun _ _ => 0) CovKind.unadjusted (0 : Matrix (Fin 1) (Fin 1) ℚ) 0
        (0 : Matrix (Fin 1) (Fin 1) ℚ)
        ((0 : Matrix (Fin 1) (Fin 1) ℚ) *
          Matrix.diagonal (fun _ : Fin 1 => (2 : ℚ))) 0 (fun _ => 0) 0
        HacKernel.bartlett =
      lm_test (fun _ _ => 0) CovKind.unadjusted (0 : Matrix (Fin 1) (Fin 1) ℚ) 0
        (0 : Matrix (Fin 1) (Fin 1) ℚ) (0 : Matrix (Fin 1) (Fin 1) ℚ) 0
        (fun _ => 0) 0 HacKernel.bartlett ∧
    clr_test (fun _ _ => 0) (fun _ _ _ => 0) (fun _ _ => 0) (fun _ _ => (0, 1))
        CovKind.unadjusted (0 : Matrix (Fin 1) (Fin 1) ℚ) 0
        (0 : Matrix (Fin 1) (Fin 1) ℚ)
        ((0 : Matrix (Fin 1) (Fin 1) ℚ) *
          Matrix.diagonal (fun _ : Fin 1 => (2 : ℚ))) 0 (fun _ => 0) 0
        HacKernel.bartlett =
      clr_test (fun _ _ => 0) (fun _ _ _ => 0) (fun _ _ => 0) (fun _ _ => (0, 1))
        CovKind.unadjusted (0 : Matrix (Fin 1) (Fin 1) ℚ) 0
        (0 : Matrix (Fin 1) (Fin 1) ℚ) (0 : Matrix (Fin 1) (Fin 1) ℚ) 0
        (fun _ => 0) 0 HacKernel.bartlett := by
  have hc : ∀ i : Fin 1, (fun _ : Fin 1 => (2 : ℚ)) i ≠ 0 := by decide
  have h := claim_C1 (fun _ _ => 0) (fun _ _ _ => 0) (fun _ _ => 0)
    (fun _ _ => (0, 1)) CovKind.unadjusted (0 : Matrix (Fin 1) (Fin 1) ℚ) 0
    (0 : Matrix (Fin 1) (Fin 1) ℚ) (0 : Matrix (Fin 1) (Fin 1) ℚ) 0
    (fun _ => 0) 0 HacKernel.bartlett (fun _ => (2 : ℚ)) hc
  exact ⟨hc, h.1, h.2.1, h.2.2⟩

end IVRobust
